import Mathlib

/-!
# goast.net/x/pipeline — channel pipelines, embedded as a scheduler-driven transition system

The Go source (`src/pipeline.go`) builds networks of goroutines connected by
unbuffered channels.  The embedding keeps the runtime state explicit:

* a `World` holds the channels (closed flag plus the history of the values
  handed over on them), the wait groups, the cancellation signal `done`, and the
  goroutines with their local control state;
* the API functions (`Pipeline.Pipe`, `Pipeline.Filter`, `Pipeline.FanOut`,
  `Fan.FanIn`, ...) allocate channels and start goroutines exactly as the source
  does, returning the new channel(s) and the new world;
* `World.step` performs one synchronisation of the Go runtime (a rendezvous on an
  unbuffered channel, a receive from a closed channel, a `select` taking its
  `<-done` case, or an internal action), chosen by the scheduler.

The producer of the very first stream, the consumer of the last one and the owner
of the cancellation signal are external collaborators; they appear as the
environment goroutines `source`, `sink` and `canceller`.

Conventions of the embedding:

* the cancellation signal is level-triggered: `done` is fired once (the channel is
  closed by its owner) and stays fired, so `case <-done` is ready from then on in
  every `select`; the `done` argument of the API functions is this one signal;
* a `select` with several ready cases takes any of them, the scheduler decides;
* a deferred call (`defer close(out)`, `defer wg.Done()`) runs in the step in which
  its goroutine returns;
* a receive from a closed channel is always possible and yields the zero value
  (`default`) with `ok = false`; `range` stops there;
* a schedule is a list of numbers, each picking one of the steps possible at that
  moment (`World.exec`), or an explicit list of steps (`World.run`).
-/

namespace Goast

/-- A channel is named by its index in the world (`make(chan X)` allocates the next one). -/
abbrev Chan := Nat

/-- Go's `type Pipeline <-chan X`: a receive-only channel. -/
abbrev Pipeline := Chan

/-- Go's `type _Fan []Pipeline`. -/
abbrev Fan := List Pipeline

/-- Runtime state of one unbuffered channel: whether it was closed, and the values that
were handed from a sender to a receiver on it so far, oldest first. -/
structure ChanState (X : Type) where
  closed : Bool
  hist : List X

/-- Side effect a goroutine performs on the shared state while it takes a step:
`close(c)`, `wg.Done()`, or firing the cancellation signal. -/
inductive Effect where
  | none
  | close (c : Chan)
  | wgDone (g : Nat)
  | fire

/-- Control point of a stage goroutine `for val := range in { ... select { case out <- v: case <-done: return } }`:
waiting in the `range` receive, waiting in the `select` with the value to send, or returned. -/
inductive Pc (X : Type) where
  | recv
  | select (v : X)
  | exited

/-- The four goroutine bodies of the source that share the range/select loop. -/
inductive Kind (X : Type) where
  /-- goroutine of `Pipeline.Filter` (lines 69-80) -/
  | filter (fn : X → Bool)
  /-- goroutine of `Pipeline.Pipe` (lines 88-97) -/
  | pipe (fn : X → X)
  /-- goroutine of `Pipeline.worker` (lines 105-114) -/
  | worker (fn : X → X)
  /-- closure `output` of `_Fan.FanIn` (lines 123-132) -/
  | output (wg : Nat)

/-- What the loop body does with a received value: `some u` enters the `select` that sends `u`,
`none` goes straight back to the `range` receive (Filter, when `fn(val)` is false). -/
def Kind.emit {X : Type} : Kind X → X → Option X
  | .filter fn, val => if fn val then some val else none
  | .pipe fn, val => some (fn val)
  | .worker fn, val => some (fn val)
  | .output _, val => some val

/-- The deferred call run when the goroutine returns: `defer close(out)` for Filter, Pipe and
worker, `defer wg.Done()` for the `output` closure of FanIn. -/
def Kind.exit {X : Type} : Kind X → Chan → Effect
  | .filter _, out => .close out
  | .pipe _, out => .close out
  | .worker _, out => .close out
  | .output wg, _ => .wgDone wg

/-- Control point after the `range` receive delivered `val`. -/
def Kind.next {X : Type} (k : Kind X) (val : X) : Pc X :=
  match k.emit val with
  | some u => .select u
  | none => .recv

/-- The goroutines of a world, with their local state. -/
inductive Goroutine (X : Type) where
  /-- a running stage of the given kind reading `inp` and writing `out` -/
  | stage (k : Kind X) (inp out : Chan) (pc : Pc X)
  /-- the last goroutine of `_Fan.FanIn`: `wg.Wait(); close(out)` (lines 139-142) -/
  | closer (wg : Nat) (out : Chan) (fin : Bool)
  /-- the caller running `Pipeline.Collect` (lines 39-49): loop counter `i`, `result` so far,
  and whether the `<-done` case returned early -/
  | collect (pip : Chan) (num i : Int) (result : List X) (cancelled : Bool)
  /-- environment: producer of a stream, sends `vals` in order and then closes `out` -/
  | source (out : Chan) (vals : List X) (closed : Bool)
  /-- environment: consumer that keeps receiving from `inp` until it sees it closed -/
  | sink (inp : Chan) (seen : Bool)
  /-- environment: owner of the cancellation signal, may fire it at any moment -/
  | canceller (fired : Bool)

namespace Goroutine

variable {X : Type}

/-- The send the goroutine is blocked on, if any. -/
def sendOffer : Goroutine X → Option (Chan × X)
  | .stage _ _ out (.select v) => some (out, v)
  | .source out (v :: _) false => some (out, v)
  | _ => Option.none

/-- The channel the goroutine is blocked receiving from, if any. -/
def recvChan : Goroutine X → Option Chan
  | .stage _ inp _ .recv => some inp
  | .collect pip num i _ false => if i < num then some pip else Option.none
  | .sink inp false => some inp
  | _ => Option.none

/-- Whether the goroutine is blocked in a `select` that has a `case <-done`. -/
def inSelect : Goroutine X → Bool
  | .stage _ _ _ (.select _) => true
  | .collect _ num i _ false => decide (i < num)
  | _ => false

/-- Local state after the pending send was taken by a receiver. -/
def onSent : Goroutine X → Goroutine X
  | .stage k inp out (.select _) => .stage k inp out .recv
  | .source out (_ :: vs) c => .source out vs c
  | g => g

/-- Local state after the pending receive delivered `val` from a sender. -/
def onRecv : Goroutine X → X → Goroutine X
  | .stage k inp out .recv, val => .stage k inp out (k.next val)
  | .collect pip num i result c, val => .collect pip num (i + 1) (result ++ [val]) c
  | g, _ => g

/-- Local state and effect after the pending receive found the channel closed.  A `range`
loop ends (running the deferred call); the plain receive `val := <-pip` of Collect yields the
zero value, which Collect appends like any other value. -/
def onClosed [Inhabited X] : Goroutine X → Goroutine X × Effect
  | .stage k inp out .recv => (.stage k inp out .exited, k.exit out)
  | .collect pip num i result c => (.collect pip num (i + 1) (result ++ [default]) c, .none)
  | .sink inp _ => (.sink inp true, .none)
  | g => (g, .none)

/-- Local state and effect after the `select` took its `case <-done`. -/
def onDone : Goroutine X → Goroutine X × Effect
  | .stage k inp out (.select _) => (.stage k inp out .exited, k.exit out)
  | .collect pip num i result _ => (.collect pip num i result true, .none)
  | g => (g, .none)

/-- Internal action of a goroutine that needs no partner: the producer closing its stream
after the last value, `wg.Wait()` returning once the counter is zero, the environment firing
the cancellation signal. -/
def tau (wgs : List Nat) : Goroutine X → Option (Goroutine X × Effect)
  | .source out [] false => some (.source out [] true, .close out)
  | .closer wg out false =>
      if wgs[wg]? = some 0 then some (.closer wg out true, .close out) else Option.none
  | .canceller false => some (.canceller true, .fire)
  | _ => Option.none

/-- The slice returned by `Collect`, once it has returned: the loop ran `num` times or the
`<-done` case returned early. -/
def returned : Goroutine X → Option (List X)
  | .collect _ num i result cancelled =>
      if cancelled ∨ num ≤ i then some result else Option.none
  | _ => Option.none

/-- Whether a stage goroutine has returned. -/
def exited : Goroutine X → Bool
  | .stage _ _ _ .exited => true
  | _ => false

end Goroutine

/-- The runtime state. -/
structure World (X : Type) where
  chans : List (ChanState X)
  wgs : List Nat
  done : Bool
  tasks : List (Goroutine X)

/-- A scheduling decision of the runtime. -/
inductive Event where
  /-- goroutine `s` hands the value of its pending send to goroutine `r` -/
  | comm (s r : Nat)
  /-- goroutine `r` receives from a closed channel -/
  | closedRecv (r : Nat)
  /-- the `select` of goroutine `t` takes `case <-done` -/
  | doneCase (t : Nat)
  /-- goroutine `t` performs its internal action -/
  | tau (t : Nat)
  deriving DecidableEq, Repr

namespace World

variable {X : Type}

/-- The world before anything was created. -/
def empty : World X := ⟨[], [], false, []⟩

/-- Go's `make(chan X)`. -/
def makeChan (w : World X) : Chan × World X :=
  (w.chans.length, { w with chans := w.chans ++ [⟨false, []⟩] })

/-- Go's `var wg sync.WaitGroup`. -/
def newWaitGroup (w : World X) : Nat × World X :=
  (w.wgs.length, { w with wgs := w.wgs ++ [0] })

/-- Go's `wg.Add(n)`. -/
def wgAdd (w : World X) (g n : Nat) : World X :=
  { w with wgs := w.wgs.set g ((w.wgs.getD g 0) + n) }

/-- The `go` statement: start a goroutine. -/
def go (w : World X) (g : Goroutine X) : World X :=
  { w with tasks := w.tasks ++ [g] }

/-- Replace the local state of goroutine `t`. -/
def setTask (w : World X) (t : Nat) (g : Goroutine X) : World X :=
  { w with tasks := w.tasks.set t g }

/-- Perform a side effect on the shared state. -/
def apply (w : World X) : Effect → World X
  | .none => w
  | .close c =>
      { w with chans := w.chans.set c ⟨true, ((w.chans[c]?).map ChanState.hist).getD []⟩ }
  | .wgDone g => { w with wgs := w.wgs.set g ((w.wgs.getD g 0) - 1) }
  | .fire => { w with done := true }

/-- One step of the runtime under the scheduling decision `e`; `none` when `e` is not possible
in `w`. -/
def step [Inhabited X] (w : World X) : Event → Option (World X)
  | .comm s r =>
      match w.tasks[s]?, w.tasks[r]? with
      | some ts, some tr =>
          match ts.sendOffer, tr.recvChan with
          | some (c, v), some c' =>
              match w.chans[c]? with
              | some ⟨false, h⟩ =>
                  if c = c' then
                    some { w with
                      chans := w.chans.set c ⟨false, h ++ [v]⟩
                      tasks := (w.tasks.set s ts.onSent).set r (tr.onRecv v) }
                  else Option.none
              | _ => Option.none
          | _, _ => Option.none
      | _, _ => Option.none
  | .closedRecv r =>
      match w.tasks[r]? with
      | some tr =>
          match tr.recvChan with
          | some c =>
              match w.chans[c]? with
              | some ⟨true, _⟩ => some ((w.setTask r tr.onClosed.1).apply tr.onClosed.2)
              | _ => Option.none
          | Option.none => Option.none
      | Option.none => Option.none
  | .doneCase t =>
      match w.tasks[t]? with
      | some tt =>
          if w.done ∧ tt.inSelect then some ((w.setTask t tt.onDone.1).apply tt.onDone.2)
          else Option.none
      | Option.none => Option.none
  | .tau t =>
      match w.tasks[t]? with
      | some tt =>
          match tt.tau w.wgs with
          | some (g, eff) => some ((w.setTask t g).apply eff)
          | Option.none => Option.none
      | Option.none => Option.none

/-- Run an explicit list of scheduling decisions; `none` if one of them is not possible. -/
def run [Inhabited X] (w : World X) : List Event → Option (World X)
  | [] => some w
  | e :: es => (w.step e).bind fun w1 => run w1 es

/-- Every scheduling decision that names existing goroutines. -/
def events (w : World X) : List Event :=
  let n := w.tasks.length
  ((List.range n).flatMap fun s => (List.range n).map fun r => Event.comm s r)
    ++ (List.range n).map Event.closedRecv
    ++ (List.range n).map Event.doneCase
    ++ (List.range n).map Event.tau

/-- The scheduling decisions possible in `w`. -/
def enabled [Inhabited X] (w : World X) : List Event :=
  w.events.filter fun e => (w.step e).isSome

/-- One step under a scheduler that picks among the possible decisions by the number `choice`;
a world in which nothing is possible stays as it is. -/
def sched [Inhabited X] (w : World X) (choice : Nat) : World X :=
  match w.enabled[choice % w.enabled.length]? with
  | some e => (w.step e).getD w
  | Option.none => w

/-- Run under the scheduler given by the list of choices. -/
def exec [Inhabited X] (w : World X) (choices : List Nat) : World X :=
  choices.foldl sched w

/-- History of channel `c`: the values that passed over it so far. -/
def hist (w : World X) (c : Chan) : List X :=
  ((w.chans[c]?).map ChanState.hist).getD []

/-- Whether channel `c` is closed. -/
def isClosed (w : World X) (c : Chan) : Bool :=
  ((w.chans[c]?).map ChanState.closed).getD false

/-- Environment: a stream whose producer sends `vals` in order and then closes it. -/
def source (w : World X) (vals : List X) : Pipeline × World X :=
  let (out, w1) := w.makeChan
  (out, w1.go (.source out vals false))

/-- Environment: attach a consumer to a stream. -/
def sink (w : World X) (pip : Pipeline) : World X :=
  w.go (.sink pip false)

/-- Environment: the owner of the cancellation signal. -/
def canceller (w : World X) : World X :=
  w.go (.canceller false)

end World

/-! ## The API of `pipeline.go`

The `done` argument of every function is the world's cancellation signal. -/

variable {X : Type}

/-- Go's `Pipeline.Collect` (lines 39-49): runs on the caller, modelled as a goroutine whose
`returned` state carries the result slice. -/
def Pipeline.Collect (pip : Pipeline) (num : Int) (w : World X) : World X :=
  w.go (.collect pip num 0 [] false)

/-- Go's `Pipeline.Filter` (lines 67-82). -/
def Pipeline.Filter (pip : Pipeline) (fn : X → Bool) (w : World X) : Pipeline × World X :=
  let (out, w1) := w.makeChan
  (out, w1.go (.stage (.filter fn) pip out .recv))

/-- Go's `Pipeline.Pipe` (lines 85-100). -/
def Pipeline.Pipe (pip : Pipeline) (fn : X → X) (w : World X) : Pipeline × World X :=
  let (out, w1) := w.makeChan
  (out, w1.go (.stage (.pipe fn) pip out .recv))

/-- Go's `Pipeline.worker` (lines 103-116). -/
def Pipeline.worker (pip : Pipeline) (fn : X → X) (w : World X) : Pipeline × World X :=
  let (out, w1) := w.makeChan
  (out, w1.go (.stage (.worker fn) pip out .recv))

/-- Loop of `Pipeline.FanOut` (lines 59-61) with `n` iterations left. -/
def Pipeline.FanOut.loop (pip : Pipeline) (fn : X → X) : Nat → Fan → World X → Fan × World X
  | 0, fan, w => (fan, w)
  | n + 1, fan, w =>
      let (out, w1) := Pipeline.worker pip fn w
      Pipeline.FanOut.loop pip fn n (fan ++ [out]) w1

/-- Go's `Pipeline.FanOut` (lines 57-64); `for i := 0; i < workers; i++` runs
`workers.toNat` times. -/
def Pipeline.FanOut (pip : Pipeline) (workers : Int) (fn : X → X) (w : World X) : Fan × World X :=
  Pipeline.FanOut.loop pip fn workers.toNat [] w

/-- Go's `_Fan.FanIn` (lines 119-145). -/
def Fan.FanIn (fan : Fan) (w : World X) : Pipeline × World X :=
  let (wg, w1) := w.newWaitGroup
  let (out, w2) := w1.makeChan
  let w3 := w2.wgAdd wg fan.length
  let w4 := fan.foldl (fun acc val => acc.go (.stage (.output wg) val out .recv)) w3
  (out, w4.go (.closer wg out false))

/-- Go's `Pipeline.Fan` (lines 52-54). -/
def Pipeline.Fan (pip : Pipeline) (workers : Int) (fn : X → X) (w : World X) : Pipeline × World X :=
  let (fan, w1) := Pipeline.FanOut pip workers fn w
  Fan.FanIn fan w1

/-- Go's `_Fan.Filter` (lines 148-153). -/
def Fan.Filter (fan : Fan) (fn : X → Bool) (w : World X) : Fan × World X :=
  fan.foldl (fun (acc : Fan × World X) pipe =>
    let (out, w1) := Pipeline.Filter pipe fn acc.2
    (acc.1 ++ [out], w1)) ([], w)

/-- Go's `_Fan.Pipe` (lines 156-161). -/
def Fan.Pipe (fan : Fan) (fn : X → X) (w : World X) : Fan × World X :=
  fan.foldl (fun (acc : Fan × World X) pipe =>
    let (out, w1) := Pipeline.Pipe pipe fn acc.2
    (acc.1 ++ [out], w1)) ([], w)

/-! ## Systems

Each system connects the code to its environment: producers for the input streams and
consumers for the output streams, optionally the owner of the cancellation signal. -/

/-- `Pipe` between a producer of `input` and a consumer; with `cancel` the cancellation signal
may fire at any moment, without it the signal never fires. -/
def pipeSystem (input : List X) (fn : X → X) (cancel : Bool) : Pipeline × World X :=
  let (pip, w) := World.empty.source input
  let (out, w1) := Pipeline.Pipe pip fn w
  let w2 := w1.sink out
  (out, if cancel then w2.canceller else w2)

/-- `Filter` between a producer of `input` and a consumer. -/
def filterSystem (input : List X) (fn : X → Bool) (cancel : Bool) : Pipeline × World X :=
  let (pip, w) := World.empty.source input
  let (out, w1) := Pipeline.Filter pip fn w
  let w2 := w1.sink out
  (out, if cancel then w2.canceller else w2)

/-- `FanOut` over `workers` workers reading the stream of a producer of `input`, every worker
stream with its own consumer. -/
def fanOutSystem (input : List X) (workers : Int) (fn : X → X) (cancel : Bool) :
    Fan × World X :=
  let (pip, w) := World.empty.source input
  let (fan, w1) := Pipeline.FanOut pip workers fn w
  let w2 := fan.foldl World.sink w1
  (fan, if cancel then w2.canceller else w2)

/-- Add the producer of one more stream to a group. -/
def sources.step (acc : Fan × World X) (vals : List X) : Fan × World X :=
  let (pip, w1) := acc.2.source vals
  (acc.1 ++ [pip], w1)

/-- Producers for a group of streams, one per list of `inputs`. -/
def sources (inputs : List (List X)) (w : World X) : Fan × World X :=
  inputs.foldl sources.step ([], w)

/-- `FanIn` over a group of streams with producers of `inputs`, and a consumer of the merged
stream. -/
def fanInSystem (inputs : List (List X)) : Pipeline × World X :=
  let (fan, w) := sources inputs World.empty
  let (out, w1) := Fan.FanIn fan w
  (out, w1.sink out)

/-- `Collect` of `num` values from the stream of a producer of `input`; returns the index of
the collecting goroutine and the world. -/
def collectSystem (input : List X) (num : Int) (cancel : Bool) : Nat × World X :=
  let (pip, w) := World.empty.source input
  let w1 := Pipeline.Collect pip num w
  (w.tasks.length, if cancel then w1.canceller else w1)

/-- The result slice of the `Collect` running as goroutine `t`, once it returned. -/
def World.collected (w : World X) (t : Nat) : Option (List X) :=
  (w.tasks[t]?).bind Goroutine.returned

/-! ## Abstract states of the systems

The worlds reachable in a system all have the same wiring; only the local states change.
`FanSt.world` rebuilds the world of a fan-out system from the changing parts. -/

/-- The changing parts of a fan-out system: the producer (`rem`aining values, `cl`osed), the
history `h0` of the input stream, and per worker `i` its control point, the history and closed
flag of its output stream and whether its consumer has seen the end; the owner of the
cancellation signal (if present) and the signal. -/
structure FanSt (X : Type) where
  rem : List X
  cl : Bool
  h0 : List X
  pc : Nat → Pc X
  h : Nat → List X
  c : Nat → Bool
  seen : Nat → Bool
  canc : Option Bool
  done : Bool

/-- The world of a fan-out system with `n` stages of kind `k` in state `s`. -/
def FanSt.world (k : Kind X) (n : Nat) (s : FanSt X) : World X where
  chans := ⟨s.cl, s.h0⟩ :: (List.range n).map fun i => ⟨s.c i, s.h i⟩
  wgs := []
  done := s.done
  tasks := Goroutine.source 0 s.rem s.cl
    :: ((List.range n).map fun i => Goroutine.stage k 0 (i + 1) (s.pc i))
    ++ ((List.range n).map fun i => Goroutine.sink (i + 1) (s.seen i))
    ++ (match s.canc with
        | some b => [Goroutine.canceller b]
        | Option.none => [])

/-- The initial state of a fan-out system. -/
def FanSt.init (input : List X) (cancel : Bool) : FanSt X where
  rem := input
  cl := false
  h0 := []
  pc := fun _ => Pc.recv
  h := fun _ => []
  c := fun _ => false
  seen := fun _ => false
  canc := if cancel then some false else Option.none
  done := false

/-- The steps of a fan-out system, on the changing parts. -/
inductive FanSt.Rel (k : Kind X) (n : Nat) : FanSt X → FanSt X → Prop where
  /-- stage `i` receives the next value from the producer -/
  | feed (s : FanSt X) (i : Nat) (v : X) (rest : List X) (hi : i < n) (hrem : s.rem = v :: rest)
      (hcl : s.cl = false) (hpc : s.pc i = Pc.recv) :
      FanSt.Rel k n s { s with rem := rest, h0 := s.h0 ++ [v],
                               pc := Function.update s.pc i (k.next v) }
  /-- the consumer of stage `i` receives the value the stage is sending -/
  | deliver (s : FanSt X) (i : Nat) (u : X) (hi : i < n) (hpc : s.pc i = Pc.select u)
      (hc : s.c i = false) (hseen : s.seen i = false) :
      FanSt.Rel k n s { s with h := Function.update s.h i (s.h i ++ [u]),
                               pc := Function.update s.pc i Pc.recv }
  /-- the producer closes the input stream -/
  | srcClose (s : FanSt X) (hrem : s.rem = []) (hcl : s.cl = false) :
      FanSt.Rel k n s { s with cl := true }
  /-- stage `i` finds the input stream closed, closes its output and returns -/
  | stageEnd (s : FanSt X) (i : Nat) (hi : i < n) (hpc : s.pc i = Pc.recv) (hcl : s.cl = true) :
      FanSt.Rel k n s { s with pc := Function.update s.pc i Pc.exited,
                               c := Function.update s.c i true }
  /-- the consumer of stage `i` sees the end of its stream -/
  | sinkEnd (s : FanSt X) (i : Nat) (hi : i < n) (hseen : s.seen i = false) (hc : s.c i = true) :
      FanSt.Rel k n s { s with seen := Function.update s.seen i true }
  /-- the `select` of stage `i` takes `case <-done` -/
  | cancel (s : FanSt X) (i : Nat) (u : X) (hi : i < n) (hdone : s.done = true)
      (hpc : s.pc i = Pc.select u) :
      FanSt.Rel k n s { s with pc := Function.update s.pc i Pc.exited,
                               c := Function.update s.c i true }
  /-- the cancellation signal fires -/
  | fire (s : FanSt X) (hcanc : s.canc = some false) :
      FanSt.Rel k n s { s with canc := some true, done := true }

/-- The value a stage holds while it waits in its `select`. -/
def Pc.held : Pc X → List X
  | .select u => [u]
  | _ => []

/-- Number of steps a stage goroutine can still take on its own account. -/
def Pc.measure : Pc X → Nat
  | .recv => 1
  | .select _ => 2
  | .exited => 0

/-- Facts about the flags of a fan-out system that hold in every reachable state. -/
structure FanSt.Good (n : Nat) (input : List X) (s : FanSt X) : Prop where
  split : s.h0 ++ s.rem = input
  closedEmpty : s.cl = true → s.rem = []
  chanClosed : ∀ i, i < n → (s.c i = true ↔ s.pc i = Pc.exited)
  seenClosed : ∀ i, i < n → s.seen i = true → s.c i = true
  exitedLate : s.done = false → ∀ i, i < n → s.pc i = Pc.exited → s.cl = true
  noCanc : s.canc = Option.none → s.done = false

/-- Conservation in a fan-out system while the cancellation signal has not fired: what the
stages delivered or hold is, as a multiset, what they made of the values taken from the input. -/
def FanSt.Conserved (k : Kind X) (n : Nat) (s : FanSt X) : Prop :=
  s.done = false →
    ((List.range n).map fun i => ((s.h i ++ (s.pc i).held : List X) : Multiset X)).sum
      = ((s.h0.filterMap k.emit : List X) : Multiset X)

/-- Order in a system with a single stage: the output stream is what the stage made of the
values taken from the input, in order, up to the value it holds; after cancellation it is an
initial segment. -/
def FanSt.Ordered (k : Kind X) (s : FanSt X) : Prop :=
  (s.pc 0 ≠ Pc.exited → s.h 0 ++ (s.pc 0).held = s.h0.filterMap k.emit) ∧
  (s.pc 0 = Pc.exited → s.h 0 <+: s.h0.filterMap k.emit) ∧
  (s.pc 0 = Pc.exited → s.done = false → s.h 0 = s.h0.filterMap k.emit)

/-- Bound on the number of steps left in a fan-out system. -/
def FanSt.measure (n : Nat) (s : FanSt X) : Nat :=
  2 * s.rem.length + (if s.cl then 0 else 1)
    + ((List.range n).map fun i => (s.pc i).measure + (if s.seen i then 0 else 1)).sum
    + (if s.canc = some false then 1 else 0)

/-- `l` is an interleaving of the `m` sequences `f 0, ..., f (m - 1)`: it takes every element
of every sequence exactly once and keeps the order within each sequence. -/
inductive Interleaving (m : Nat) : (Nat → List X) → List X → Prop where
  | nil (f : Nat → List X) (h : ∀ i, i < m → f i = []) : Interleaving m f []
  | cons (f : Nat → List X) (i : Nat) (x : X) (rest l : List X) (hi : i < m)
      (hf : f i = x :: rest) (h : Interleaving m (Function.update f i rest) l) :
      Interleaving m f (x :: l)

/-- The changing parts of a fan-in system over `m` streams: per stream `i` its producer
(`rem`aining values, `cl`osed), its history `h i` and the control point of its forwarding
goroutine; the wait-group counter, the closing goroutine, the merged stream and its consumer. -/
structure FanInSt (X : Type) where
  rem : Nat → List X
  cl : Nat → Bool
  h : Nat → List X
  pc : Nat → Pc X
  wg : Nat
  fin : Bool
  hout : List X
  cout : Bool
  seen : Bool

/-- The world of a fan-in system over `m` streams in state `s`. -/
def FanInSt.world (m : Nat) (s : FanInSt X) : World X where
  chans := ((List.range m).map fun i => ⟨s.cl i, s.h i⟩) ++ [⟨s.cout, s.hout⟩]
  wgs := [s.wg]
  done := false
  tasks := ((List.range m).map fun i => Goroutine.source i (s.rem i) (s.cl i))
    ++ ((List.range m).map fun i => Goroutine.stage (Kind.output 0) i m (s.pc i))
    ++ [Goroutine.closer 0 m s.fin, Goroutine.sink m s.seen]

/-- The initial state of a fan-in system whose producers send `inputs`. -/
def FanInSt.init (inputs : List (List X)) : FanInSt X where
  rem := fun i => inputs.getD i []
  cl := fun _ => false
  h := fun _ => []
  pc := fun _ => Pc.recv
  wg := inputs.length
  fin := false
  hout := []
  cout := false
  seen := false

/-- The steps of a fan-in system, on the changing parts. -/
inductive FanInSt.Rel (m : Nat) : FanInSt X → FanInSt X → Prop where
  /-- forwarder `i` receives the next value of stream `i` -/
  | feed (s : FanInSt X) (i : Nat) (v : X) (rest : List X) (hi : i < m)
      (hrem : s.rem i = v :: rest) (hcl : s.cl i = false) (hpc : s.pc i = Pc.recv) :
      FanInSt.Rel m s { s with rem := Function.update s.rem i rest,
                               h := Function.update s.h i (s.h i ++ [v]),
                               pc := Function.update s.pc i (Pc.select v) }
  /-- the consumer receives the value forwarder `i` is sending on the merged stream -/
  | deliver (s : FanInSt X) (i : Nat) (u : X) (hi : i < m) (hpc : s.pc i = Pc.select u)
      (hc : s.cout = false) (hseen : s.seen = false) :
      FanInSt.Rel m s { s with hout := s.hout ++ [u], pc := Function.update s.pc i Pc.recv }
  /-- the producer of stream `i` closes it -/
  | srcClose (s : FanInSt X) (i : Nat) (hi : i < m) (hrem : s.rem i = []) (hcl : s.cl i = false) :
      FanInSt.Rel m s { s with cl := Function.update s.cl i true }
  /-- forwarder `i` finds its stream closed and returns, running `wg.Done()` -/
  | fwdEnd (s : FanInSt X) (i : Nat) (hi : i < m) (hpc : s.pc i = Pc.recv)
      (hcl : s.cl i = true) :
      FanInSt.Rel m s { s with pc := Function.update s.pc i Pc.exited, wg := s.wg - 1 }
  /-- `wg.Wait()` returns and the merged stream is closed -/
  | wait (s : FanInSt X) (hfin : s.fin = false) (hwg : s.wg = 0) :
      FanInSt.Rel m s { s with fin := true, cout := true }
  /-- the consumer sees the end of the merged stream -/
  | sinkEnd (s : FanInSt X) (hseen : s.seen = false) (hc : s.cout = true) :
      FanInSt.Rel m s { s with seen := true }

/-- One for a stage goroutine that has not returned, zero for one that has. -/
def Pc.live : Pc X → Nat
  | .exited => 0
  | _ => 1

/-- Facts that hold in every reachable state of a fan-in system: what left each producer is
in the history of its stream; the wait-group counter counts the forwarders still running; the
merged stream is closed exactly when the closing goroutine ran, which needs the counter at
zero; and the merged stream is an interleaving of what the forwarders passed on. -/
structure FanInSt.Good (m : Nat) (inputs : Nat → List X) (s : FanInSt X) : Prop where
  split : ∀ i, i < m → s.h i ++ s.rem i = inputs i
  closedEmpty : ∀ i, i < m → s.cl i = true → s.rem i = []
  counter : s.wg = ((List.range m).map fun i => (s.pc i).live).sum
  exitedLate : ∀ i, i < m → s.pc i = Pc.exited → s.cl i = true
  finClosed : s.fin = s.cout
  finZero : s.fin = true → s.wg = 0
  seenClosed : s.seen = true → s.cout = true
  merged : ∃ fwd : Nat → List X,
    (∀ i, i < m → s.h i = fwd i ++ (s.pc i).held) ∧ Interleaving m fwd s.hout

/-- Bound on the number of steps left in a fan-in system. -/
def FanInSt.measure (m : Nat) (s : FanInSt X) : Nat :=
  ((List.range m).map fun i =>
      2 * (s.rem i).length + (if s.cl i then 0 else 1) + (s.pc i).measure).sum
    + (if s.fin then 0 else 1) + (if s.seen then 0 else 1)

/-- The result slice of the `Collect` running as goroutine `t`, returned or not. -/
def World.collecting (w : World X) (t : Nat) : Option (List X) :=
  match w.tasks[t]? with
  | some (.collect _ _ _ result _) => some result
  | _ => Option.none

/-- The changing parts of a collect system: the producer (`rem`aining values, `cl`osed), the
history `h0` of the stream, the loop counter `i` and `result` of `Collect` and whether it
returned through `case <-done`; the owner of the cancellation signal and the signal. -/
structure CollSt (X : Type) where
  rem : List X
  cl : Bool
  h0 : List X
  i : Int
  result : List X
  cancelled : Bool
  canc : Option Bool
  done : Bool

/-- The world of a collect system in state `s`. -/
def CollSt.world (num : Int) (s : CollSt X) : World X where
  chans := [⟨s.cl, s.h0⟩]
  wgs := []
  done := s.done
  tasks := [Goroutine.source 0 s.rem s.cl, Goroutine.collect 0 num s.i s.result s.cancelled]
    ++ (match s.canc with
        | some b => [Goroutine.canceller b]
        | Option.none => [])

/-- The initial state of a collect system. -/
def CollSt.init (input : List X) (cancel : Bool) : CollSt X where
  rem := input
  cl := false
  h0 := []
  i := 0
  result := []
  cancelled := false
  canc := if cancel then some false else Option.none
  done := false

/-- The steps of a collect system, on the changing parts. -/
inductive CollSt.Rel [Inhabited X] (num : Int) : CollSt X → CollSt X → Prop where
  /-- `case val := <-pip` receives the next value of the stream -/
  | recv (s : CollSt X) (v : X) (rest : List X) (hrem : s.rem = v :: rest) (hcl : s.cl = false)
      (hc : s.cancelled = false) (hi : s.i < num) :
      CollSt.Rel num s { s with rem := rest, h0 := s.h0 ++ [v], i := s.i + 1,
                                result := s.result ++ [v] }
  /-- the producer closes the stream -/
  | srcClose (s : CollSt X) (hrem : s.rem = []) (hcl : s.cl = false) :
      CollSt.Rel num s { s with cl := true }
  /-- `case val := <-pip` receives from the closed stream: the zero value -/
  | recvClosed (s : CollSt X) (hcl : s.cl = true) (hc : s.cancelled = false) (hi : s.i < num) :
      CollSt.Rel num s { s with i := s.i + 1, result := s.result ++ [default] }
  /-- the `select` takes `case <-done` and `Collect` returns -/
  | cancel (s : CollSt X) (hdone : s.done = true) (hc : s.cancelled = false) (hi : s.i < num) :
      CollSt.Rel num s { s with cancelled := true }
  /-- the cancellation signal fires -/
  | fire (s : CollSt X) (hcanc : s.canc = some false) :
      CollSt.Rel num s { s with canc := some true, done := true }

/-- Facts that hold in every reachable state of a collect system. -/
structure CollSt.Good [Inhabited X] (num : Int) (input : List X) (s : CollSt X) : Prop where
  split : s.h0 ++ s.rem = input
  closedEmpty : s.cl = true → s.rem = []
  counter : s.i = (s.result.length : Int)
  bound : s.i ≤ max num 0
  shape : ∃ pad : Nat, s.result = s.h0 ++ List.replicate pad default ∧ (0 < pad → s.cl = true)
  cancelDone : s.cancelled = true → s.done = true
  noCanc : s.canc = Option.none → s.done = false

/-- Bound on the number of steps left in a collect system. -/
def CollSt.measure (num : Int) (s : CollSt X) : Nat :=
  s.rem.length + (if s.cl then 0 else 1) + (num - s.i).toNat
    + (if s.cancelled then 0 else 1) + (if s.canc = some false then 1 else 0)

/-- The loop shared by `_Fan.Filter` and `_Fan.Pipe`: apply `op` to every stream of the group
in turn, appending the stream it returns to the result. -/
def Fan.each (op : Pipeline → World X → Pipeline × World X) (fan : Fan) (w : World X) :
    Fan × World X :=
  fan.foldl (fun (acc : Fan × World X) pipe =>
    let (out, w1) := op pipe acc.2
    (acc.1 ++ [out], w1)) ([], w)

/-- `Fan` (FanOut, then FanIn) over `workers` workers between a producer of `input` and a
consumer of the merged stream. -/
def fanSystem (input : List X) (workers : Int) (fn : X → X) : Pipeline × World X :=
  let (pip, w) := World.empty.source input
  let (out, w1) := Pipeline.Fan pip workers fn w
  (out, w1.sink out)

/-- The changing parts of a `Fan` system with `n` workers: the producer and the history `h0` of
the input stream; per worker `i` its control point `pcw i`, the history `h i` and closed flag
`c i` of its stream and the control point `pcf i` of the goroutine forwarding that stream; the
wait-group counter, the closing goroutine, the merged stream and its consumer. -/
structure FanCompSt (X : Type) where
  rem : List X
  cl : Bool
  h0 : List X
  pcw : Nat → Pc X
  h : Nat → List X
  c : Nat → Bool
  pcf : Nat → Pc X
  wg : Nat
  fin : Bool
  hout : List X
  cout : Bool
  seen : Bool

/-- The world of a `Fan` system with `n` workers in state `s`. -/
def FanCompSt.world (fn : X → X) (n : Nat) (s : FanCompSt X) : World X where
  chans := ⟨s.cl, s.h0⟩ :: ((List.range n).map fun i => ⟨s.c i, s.h i⟩) ++ [⟨s.cout, s.hout⟩]
  wgs := [s.wg]
  done := false
  tasks := Goroutine.source 0 s.rem s.cl
    :: ((List.range n).map fun i => Goroutine.stage (Kind.worker fn) 0 (i + 1) (s.pcw i))
    ++ ((List.range n).map fun i => Goroutine.stage (Kind.output 0) (i + 1) (n + 1) (s.pcf i))
    ++ [Goroutine.closer 0 (n + 1) s.fin, Goroutine.sink (n + 1) s.seen]

/-- The initial state of a `Fan` system. -/
def FanCompSt.init (input : List X) (n : Nat) : FanCompSt X where
  rem := input
  cl := false
  h0 := []
  pcw := fun _ => Pc.recv
  h := fun _ => []
  c := fun _ => false
  pcf := fun _ => Pc.recv
  wg := n
  fin := false
  hout := []
  cout := false
  seen := false

/-- The steps of a `Fan` system, on the changing parts. -/
inductive FanCompSt.Rel (fn : X → X) (n : Nat) : FanCompSt X → FanCompSt X → Prop where
  /-- worker `i` receives the next value from the producer -/
  | feed (s : FanCompSt X) (i : Nat) (v : X) (rest : List X) (hi : i < n)
      (hrem : s.rem = v :: rest) (hcl : s.cl = false) (hpc : s.pcw i = Pc.recv) :
      FanCompSt.Rel fn n s { s with rem := rest, h0 := s.h0 ++ [v],
                                    pcw := Function.update s.pcw i (Pc.select (fn v)) }
  /-- forwarder `i` receives the value worker `i` is sending -/
  | pass (s : FanCompSt X) (i : Nat) (u : X) (hi : i < n) (hpw : s.pcw i = Pc.select u)
      (hc : s.c i = false) (hpf : s.pcf i = Pc.recv) :
      FanCompSt.Rel fn n s { s with h := Function.update s.h i (s.h i ++ [u]),
                                    pcw := Function.update s.pcw i Pc.recv,
                                    pcf := Function.update s.pcf i (Pc.select u) }
  /-- the consumer receives the value forwarder `i` is sending on the merged stream -/
  | deliver (s : FanCompSt X) (i : Nat) (u : X) (hi : i < n) (hpf : s.pcf i = Pc.select u)
      (hc : s.cout = false) (hseen : s.seen = false) :
      FanCompSt.Rel fn n s { s with hout := s.hout ++ [u],
                                    pcf := Function.update s.pcf i Pc.recv }
  /-- the producer closes the input stream -/
  | srcClose (s : FanCompSt X) (hrem : s.rem = []) (hcl : s.cl = false) :
      FanCompSt.Rel fn n s { s with cl := true }
  /-- worker `i` finds the input stream closed, closes its stream and returns -/
  | workerEnd (s : FanCompSt X) (i : Nat) (hi : i < n) (hpc : s.pcw i = Pc.recv)
      (hcl : s.cl = true) :
      FanCompSt.Rel fn n s { s with pcw := Function.update s.pcw i Pc.exited,
                                    c := Function.update s.c i true }
  /-- forwarder `i` finds its stream closed and returns, running `wg.Done()` -/
  | fwdEnd (s : FanCompSt X) (i : Nat) (hi : i < n) (hpc : s.pcf i = Pc.recv)
      (hc : s.c i = true) :
      FanCompSt.Rel fn n s { s with pcf := Function.update s.pcf i Pc.exited, wg := s.wg - 1 }
  /-- `wg.Wait()` returns and the merged stream is closed -/
  | wait (s : FanCompSt X) (hfin : s.fin = false) (hwg : s.wg = 0) :
      FanCompSt.Rel fn n s { s with fin := true, cout := true }
  /-- the consumer sees the end of the merged stream -/
  | sinkEnd (s : FanCompSt X) (hseen : s.seen = false) (hc : s.cout = true) :
      FanCompSt.Rel fn n s { s with seen := true }

/-- Facts that hold in every reachable state of a `Fan` system. -/
structure FanCompSt.Good (fn : X → X) (n : Nat) (input : List X) (s : FanCompSt X) : Prop where
  split : s.h0 ++ s.rem = input
  closedEmpty : s.cl = true → s.rem = []
  chanClosed : ∀ i, i < n → (s.c i = true ↔ s.pcw i = Pc.exited)
  workerLate : ∀ i, i < n → s.pcw i = Pc.exited → s.cl = true
  counter : s.wg = ((List.range n).map fun i => (s.pcf i).live).sum
  forwarderLate : ∀ i, i < n → s.pcf i = Pc.exited → s.c i = true
  finClosed : s.fin = s.cout
  finZero : s.fin = true → s.wg = 0
  seenClosed : s.seen = true → s.cout = true
  workers : ((List.range n).map fun i => ((s.h i ++ (s.pcw i).held : List X) : Multiset X)).sum
    = ((s.h0.map fn : List X) : Multiset X)
  merged : (s.hout : Multiset X)
      + ((List.range n).map fun i => (((s.pcf i).held : List X) : Multiset X)).sum
    = ((List.range n).map fun i => ((s.h i : List X) : Multiset X)).sum

/-- Bound on the number of steps left in a `Fan` system. -/
def FanCompSt.measure (n : Nat) (s : FanCompSt X) : Nat :=
  3 * s.rem.length + (if s.cl then 0 else 1)
    + ((List.range n).map fun i =>
        (s.pcw i).measure + (s.pcw i).held.length + (s.pcf i).measure).sum
    + (if s.fin then 0 else 1) + (if s.seen then 0 else 1)

end Goast

namespace Goast

variable {X : Type} [Inhabited X]

set_option linter.unusedSectionVars false

/-! ## The scheduler -/

theorem World_mem_enabled (w : World X) (e : Event) :
    e ∈ w.enabled ↔ e ∈ w.events ∧ ∃ w1, w.step e = some w1 := by
  simp [World.enabled, List.mem_filter, Option.isSome_iff_exists]

theorem World_mem_events (w : World X) (e : Event) :
    e ∈ w.events ↔
      match e with
      | .comm s r => s < w.tasks.length ∧ r < w.tasks.length
      | .closedRecv r => r < w.tasks.length
      | .doneCase t => t < w.tasks.length
      | .tau t => t < w.tasks.length := by
  cases e <;> simp [World.events, List.mem_flatMap]

theorem World_step_mem_events (w w1 : World X) (e : Event) (h : w.step e = some w1) :
    e ∈ w.events := by
  rw [World_mem_events]
  cases e with
  | comm s r =>
      simp only [World.step] at h
      rcases hs : w.tasks[s]? with _ | ts
      · simp [hs] at h
      rcases hr : w.tasks[r]? with _ | tr
      · simp [hs, hr] at h
      exact ⟨(List.getElem?_eq_some_iff.mp hs).1, (List.getElem?_eq_some_iff.mp hr).1⟩
  | closedRecv r =>
      simp only [World.step] at h
      rcases hr : w.tasks[r]? with _ | tr
      · simp [hr] at h
      exact (List.getElem?_eq_some_iff.mp hr).1
  | doneCase r =>
      simp only [World.step] at h
      rcases hr : w.tasks[r]? with _ | tr
      · simp [hr] at h
      exact (List.getElem?_eq_some_iff.mp hr).1
  | tau r =>
      simp only [World.step] at h
      rcases hr : w.tasks[r]? with _ | tr
      · simp [hr] at h
      exact (List.getElem?_eq_some_iff.mp hr).1

theorem World_enabled_iff (w : World X) (e : Event) :
    e ∈ w.enabled ↔ ∃ w1, w.step e = some w1 := by
  rw [World_mem_enabled]
  constructor
  · exact fun h => h.2
  · rintro ⟨w1, h⟩
    exact ⟨World_step_mem_events w w1 e h, w1, h⟩

theorem World_sched_cases (w : World X) (c : Nat) :
    (w.enabled = [] ∧ w.sched c = w) ∨ ∃ e, w.step e = some (w.sched c) := by
  unfold World.sched
  rcases hen : w.enabled with _ | ⟨e0, es⟩
  · left; simp
  · right
    have hlt : c % (e0 :: es).length < (e0 :: es).length := Nat.mod_lt _ (by simp)
    have hget : (e0 :: es)[c % (e0 :: es).length]? = some ((e0 :: es)[c % (e0 :: es).length]) :=
      List.getElem?_eq_getElem hlt
    rw [hget]
    have hmem : (e0 :: es)[c % (e0 :: es).length] ∈ w.enabled := by
      rw [hen]; exact List.getElem_mem _
    obtain ⟨w1, hw1⟩ := (World_enabled_iff w _).mp hmem
    refine ⟨(e0 :: es)[c % (e0 :: es).length], ?_⟩
    show _ = some ((w.step _).getD w)
    rw [hw1]; rfl

theorem World_exec_cons (w : World X) (c : Nat) (cs : List Nat) :
    w.exec (c :: cs) = (w.sched c).exec cs := rfl

theorem World_exec_quiescent (w : World X) (h : w.enabled = []) :
    ∀ cs : List Nat, w.exec cs = w := by
  intro cs
  induction cs with
  | nil => rfl
  | cons c cs ih =>
      rw [World_exec_cons]
      have : w.sched c = w := by simp [World.sched, h]
      rw [this, ih]

/-- The scheduler is complete: every run of possible steps is the run of some list of
choices. -/
theorem World_run_exec (es : List Event) :
    ∀ (w w1 : World X), w.run es = some w1 →
      ∃ cs : List Nat, cs.length = es.length ∧ w.exec cs = w1 := by
  induction es with
  | nil =>
      intro w w1 h
      simp only [World.run, Option.some.injEq] at h
      exact ⟨[], rfl, h⟩
  | cons e es ih =>
      intro w w1 h
      simp only [World.run] at h
      rcases hs : w.step e with _ | w2
      · simp [hs] at h
      rw [hs] at h
      simp only [Option.bind] at h
      obtain ⟨cs, hlen, hex⟩ := ih w2 w1 h
      have hmem : e ∈ w.enabled := (World_enabled_iff w e).mpr ⟨w2, hs⟩
      obtain ⟨j, hj, hget⟩ := List.getElem_of_mem hmem
      refine ⟨j :: cs, by simp [hlen], ?_⟩
      rw [World_exec_cons]
      have hsched : w.sched j = w2 := by
        unfold World.sched
        rw [Nat.mod_eq_of_lt hj, List.getElem?_eq_getElem hj, hget]
        simp [hs]
      rw [hsched, hex]

/-! ## Fan-out systems: the worlds and their steps -/

theorem range_map_getElem? {α : Type} (f : Nat → α) (n i : Nat) :
    ((List.range n).map f)[i]? = if i < n then some (f i) else Option.none := by
  by_cases hi : i < n
  · rw [List.getElem?_map, List.getElem?_range hi, if_pos hi]; rfl
  · rw [if_neg hi, List.getElem?_eq_none]
    simp only [List.length_map, List.length_range]
    omega

theorem range_map_set {α : Type} (f : Nat → α) (n i : Nat) (a : α) :
    ((List.range n).map f).set i a = (List.range n).map (Function.update f i a) := by
  apply List.ext_getElem?
  intro j
  rw [List.getElem?_set, range_map_getElem?, range_map_getElem?]
  simp only [List.length_map, List.length_range]
  by_cases hij : i = j
  · subst hij
    by_cases hj : i < n <;> simp [hj]
  · have : j ≠ i := fun h => hij h.symm
    simp [hij, Function.update_noteq this]

/-- The goroutines of a fan-out world, by position. -/
theorem FanSt_world_task (k : Kind X) (n : Nat) (s : FanSt X) (t : Nat) (g : Goroutine X)
    (h : (s.world k n).tasks[t]? = some g) :
    (t = 0 ∧ g = .source 0 s.rem s.cl) ∨
    (∃ i, i < n ∧ t = i + 1 ∧ g = .stage k 0 (i + 1) (s.pc i)) ∨
    (∃ i, i < n ∧ t = n + 1 + i ∧ g = .sink (i + 1) (s.seen i)) ∨
    (∃ b, t = 2 * n + 1 ∧ s.canc = some b ∧ g = .canceller b) := by
  simp only [FanSt.world] at h
  rcases t with _ | t
  · left; simpa using h.symm
  · right
    simp only [List.cons_append, List.getElem?_cons_succ, List.append_assoc] at h
    by_cases h1 : t < n
    · left
      rw [List.getElem?_append_left (by simpa using h1)] at h
      rw [range_map_getElem?, if_pos h1] at h
      exact ⟨t, h1, rfl, by simpa using h.symm⟩
    · right
      rw [List.getElem?_append_right (by simpa using h1)] at h
      simp only [List.length_map, List.length_range] at h
      by_cases h2 : t - n < n
      · left
        rw [List.getElem?_append_left (by simpa using h2)] at h
        rw [range_map_getElem?, if_pos h2] at h
        exact ⟨t - n, h2, by omega, by simpa using h.symm⟩
      · right
        rw [List.getElem?_append_right (by simpa using h2)] at h
        simp only [List.length_map, List.length_range] at h
        rcases hc : s.canc with _ | b
        · simp [hc] at h
        · simp only [hc] at h
          rcases hx : t - n - n with _ | x
          · rw [hx] at h
            exact ⟨b, by omega, rfl, by simpa using h.symm⟩
          · rw [hx] at h
            simp at h

theorem FanSt_world_set_source (k : Kind X) (n : Nat) (s : FanSt X) (rem : List X) (cl : Bool) :
    (s.world k n).tasks.set 0 (.source 0 rem cl)
      = (FanSt.world k n { s with rem := rem, cl := cl }).tasks := by
  simp [FanSt.world]

theorem FanSt_world_set_stage (k : Kind X) (n : Nat) (s : FanSt X) (i : Nat) (hi : i < n)
    (p : Pc X) :
    (s.world k n).tasks.set (i + 1) (.stage k 0 (i + 1) p)
      = (FanSt.world k n { s with pc := Function.update s.pc i p }).tasks := by
  simp only [FanSt.world, List.cons_append, List.set_cons_succ, List.append_assoc]
  rw [List.set_append_left _ _ (by simpa using hi)]
  congr 2
  rw [range_map_set]
  apply List.map_congr_left
  intro j _
  by_cases hj : j = i
  · subst hj; simp
  · simp [Function.update_noteq hj]

theorem FanSt_world_set_sink (k : Kind X) (n : Nat) (s : FanSt X) (i : Nat) (hi : i < n)
    (b : Bool) :
    (s.world k n).tasks.set (n + 1 + i) (.sink (i + 1) b)
      = (FanSt.world k n { s with seen := Function.update s.seen i b }).tasks := by
  simp only [FanSt.world, List.cons_append, List.append_assoc]
  have e1 : n + 1 + i = (n + i) + 1 := by omega
  rw [e1, List.set_cons_succ, List.set_append_right _ _ (by simp)]
  simp only [List.length_map, List.length_range, Nat.add_sub_cancel_left]
  rw [List.set_append_left _ _ (by simpa using hi)]
  congr 3
  rw [range_map_set]
  apply List.map_congr_left
  intro j _
  by_cases hj : j = i
  · subst hj; simp
  · simp [Function.update_noteq hj]

theorem FanSt_world_set_canc (k : Kind X) (n : Nat) (s : FanSt X) (b0 b : Bool)
    (h : s.canc = some b0) :
    (s.world k n).tasks.set (2 * n + 1) (.canceller b)
      = (FanSt.world k n { s with canc := some b }).tasks := by
  simp only [FanSt.world, List.cons_append, List.append_assoc, List.set_cons_succ, h]
  rw [List.set_append_right _ _ (by simp; omega)]
  rw [List.set_append_right _ _ (by simp; omega)]
  simp only [List.length_map, List.length_range]
  have : 2 * n - n - n = 0 := by omega
  rw [this]
  rfl

theorem FanSt_world_set_chan0 (k : Kind X) (n : Nat) (s : FanSt X) (b : Bool) (l : List X) :
    (s.world k n).chans.set 0 ⟨b, l⟩
      = (FanSt.world k n { s with cl := b, h0 := l }).chans := by
  simp [FanSt.world]

theorem FanSt_world_set_chan (k : Kind X) (n : Nat) (s : FanSt X) (i : Nat) (b : Bool)
    (l : List X) :
    (s.world k n).chans.set (i + 1) ⟨b, l⟩
      = (FanSt.world k n { s with c := Function.update s.c i b,
                                  h := Function.update s.h i l }).chans := by
  simp only [FanSt.world, List.set_cons_succ]
  congr 1
  rw [range_map_set]
  apply List.map_congr_left
  intro j _
  by_cases hj : j = i
  · subst hj; simp
  · simp [Function.update_noteq hj]

theorem FanSt_world_chan0 (k : Kind X) (n : Nat) (s : FanSt X) :
    (s.world k n).chans[0]? = some ⟨s.cl, s.h0⟩ := by
  simp [FanSt.world]

theorem FanSt_world_chan (k : Kind X) (n : Nat) (s : FanSt X) (i : Nat) (hi : i < n) :
    (s.world k n).chans[i + 1]? = some ⟨s.c i, s.h i⟩ := by
  simp only [FanSt.world, List.getElem?_cons_succ]
  rw [range_map_getElem?, if_pos hi]

theorem World_eq_of (w w1 : World X) (h1 : w.chans = w1.chans) (h2 : w.wgs = w1.wgs)
    (h3 : w.done = w1.done) (h4 : w.tasks = w1.tasks) : w = w1 := by
  cases w; cases w1; simp_all

theorem FanSt_world_chans_congr (k : Kind X) (n : Nat) (s s1 : FanSt X) (h1 : s.cl = s1.cl)
    (h2 : s.h0 = s1.h0) (h3 : s.c = s1.c) (h4 : s.h = s1.h) :
    (s.world k n).chans = (s1.world k n).chans := by
  simp [FanSt.world, h1, h2, h3, h4]

theorem FanSt_world_tasks_congr (k : Kind X) (n : Nat) (s s1 : FanSt X) (h1 : s.rem = s1.rem)
    (h2 : s.cl = s1.cl) (h3 : s.pc = s1.pc) (h4 : s.seen = s1.seen) (h5 : s.canc = s1.canc) :
    (s.world k n).tasks = (s1.world k n).tasks := by
  simp [FanSt.world, h1, h2, h3, h4, h5]

theorem FanSt_step_comm (k : Kind X) (n : Nat) (s : FanSt X) (a b : Nat) (w1 : World X)
    (h : (s.world k n).step (.comm a b) = some w1) :
    ∃ s1, w1 = FanSt.world k n s1 ∧ FanSt.Rel k n s s1 := by
  simp only [World.step] at h
  rcases ha : (s.world k n).tasks[a]? with _ | ta
  · simp [ha] at h
  rcases hb : (s.world k n).tasks[b]? with _ | tb
  · simp [ha, hb] at h
  simp only [ha, hb] at h
  rcases FanSt_world_task k n s a ta ha with
    ⟨rfl, rfl⟩ | ⟨i, hi, rfl, rfl⟩ | ⟨i, hi, rfl, rfl⟩ | ⟨b0, rfl, hc, rfl⟩
  · -- the producer sends
    rcases hrem : s.rem with _ | ⟨v, rest⟩
    · simp [Goroutine.sendOffer, hrem] at h
    cases hcl : s.cl
    swap
    · simp [Goroutine.sendOffer, hrem, hcl] at h
    rcases FanSt_world_task k n s b tb hb with
      ⟨rfl, rfl⟩ | ⟨j, hj, rfl, rfl⟩ | ⟨j, hj, rfl, rfl⟩ | ⟨b0, rfl, hc, rfl⟩
    · simp [Goroutine.sendOffer, Goroutine.recvChan, hrem, hcl] at h
    · cases hpc : s.pc j with
      | recv =>
          simp only [Goroutine.sendOffer, Goroutine.recvChan, hrem, hcl, hpc,
            FanSt_world_chan0, if_true, Option.some.injEq] at h
          subst h
          refine ⟨_, ?_, FanSt.Rel.feed s j v rest hj hrem hcl hpc⟩
          apply World_eq_of
          · show (s.world k n).chans.set 0 ⟨false, s.h0 ++ [v]⟩ = _
            rw [FanSt_world_set_chan0]
            apply FanSt_world_chans_congr <;> simp [hcl]
          · rfl
          · rfl
          · show ((s.world k n).tasks.set 0 (.source 0 rest false)).set (j + 1)
              (.stage k 0 (j + 1) (k.next v)) = _
            rw [FanSt_world_set_source, FanSt_world_set_stage _ _ _ _ hj]
            apply FanSt_world_tasks_congr <;> simp [hcl]
      | select u => simp [Goroutine.sendOffer, Goroutine.recvChan, hrem, hcl, hpc] at h
      | exited => simp [Goroutine.sendOffer, Goroutine.recvChan, hrem, hcl, hpc] at h
    · cases hseen : s.seen j <;>
        simp [Goroutine.sendOffer, Goroutine.recvChan, hrem, hcl, hseen, FanSt_world_chan0] at h
    · simp [Goroutine.sendOffer, Goroutine.recvChan, hrem, hcl] at h
  · -- stage `i` sends
    cases hpc : s.pc i with
    | recv => simp [Goroutine.sendOffer, hpc] at h
    | exited => simp [Goroutine.sendOffer, hpc] at h
    | select u =>
      rcases FanSt_world_task k n s b tb hb with
        ⟨rfl, rfl⟩ | ⟨j, hj, rfl, rfl⟩ | ⟨j, hj, rfl, rfl⟩ | ⟨b0, rfl, hc, rfl⟩
      · simp [Goroutine.sendOffer, Goroutine.recvChan, hpc] at h
      · cases hpj : s.pc j <;>
          simp [Goroutine.sendOffer, Goroutine.recvChan, hpc, hpj, FanSt_world_chan k n s i hi] at h
        split at h <;> simp at h
      · cases hseen : s.seen j
        swap
        · simp [Goroutine.sendOffer, Goroutine.recvChan, hpc, hseen] at h
        cases hci : s.c i
        swap
        · simp [Goroutine.sendOffer, Goroutine.recvChan, hpc, hseen, hci,
            FanSt_world_chan k n s i hi] at h
        simp only [Goroutine.sendOffer, Goroutine.recvChan, hpc, hseen, hci,
          FanSt_world_chan k n s i hi] at h
        by_cases hij : i + 1 = j + 1
        swap
        · simp [hij] at h
        have hij2 : i = j := by omega
        subst hij2
        simp only [if_true, Option.some.injEq] at h
        subst h
        refine ⟨_, ?_, FanSt.Rel.deliver s i u hi hpc hci hseen⟩
        apply World_eq_of
        · show (s.world k n).chans.set (i + 1) ⟨false, s.h i ++ [u]⟩ = _
          rw [FanSt_world_set_chan]
          apply FanSt_world_chans_congr <;> simp [hci]
        · rfl
        · rfl
        · show ((s.world k n).tasks.set (i + 1) (.stage k 0 (i + 1) .recv)).set (n + 1 + i)
              (.sink (i + 1) false) = _
          rw [FanSt_world_set_stage _ _ _ _ hi, FanSt_world_set_sink _ _ _ _ hi]
          apply FanSt_world_tasks_congr <;> simp [hseen]
      · simp [Goroutine.sendOffer, Goroutine.recvChan, hpc] at h
  · simp [Goroutine.sendOffer] at h
  · simp [Goroutine.sendOffer] at h

theorem FanSt_step_closedRecv (k : Kind X) (hk : ∀ out, k.exit out = Effect.close out) (n : Nat)
    (s : FanSt X) (b : Nat) (w1 : World X)
    (h : (s.world k n).step (.closedRecv b) = some w1) :
    ∃ s1, w1 = FanSt.world k n s1 ∧ FanSt.Rel k n s s1 := by
  simp only [World.step] at h
  rcases hb : (s.world k n).tasks[b]? with _ | tb
  · simp [hb] at h
  simp only [hb] at h
  rcases FanSt_world_task k n s b tb hb with
    ⟨rfl, rfl⟩ | ⟨j, hj, rfl, rfl⟩ | ⟨j, hj, rfl, rfl⟩ | ⟨b0, rfl, hc, rfl⟩
  · simp [Goroutine.recvChan] at h
  · cases hpc : s.pc j with
    | select u => simp [Goroutine.recvChan, hpc] at h
    | exited => simp [Goroutine.recvChan, hpc] at h
    | recv =>
      cases hcl : s.cl
      · simp [Goroutine.recvChan, hpc, hcl, FanSt_world_chan0] at h
      simp only [Goroutine.recvChan, hpc, hcl, FanSt_world_chan0, Option.some.injEq] at h
      subst h
      refine ⟨_, ?_, FanSt.Rel.stageEnd s j hj hpc hcl⟩
      simp only [Goroutine.onClosed, hk, World.apply, World.setTask]
      apply World_eq_of
      · show (s.world k n).chans.set (j + 1) ⟨true, _⟩ = _
        rw [FanSt_world_chan k n s j hj, FanSt_world_set_chan]
        apply FanSt_world_chans_congr <;> simp
      · rfl
      · rfl
      · show (s.world k n).tasks.set (j + 1) (.stage k 0 (j + 1) .exited) = _
        rw [FanSt_world_set_stage _ _ _ _ hj]
        rfl
  · cases hseen : s.seen j
    swap
    · simp [Goroutine.recvChan, hseen] at h
    cases hcj : s.c j
    · simp [Goroutine.recvChan, hseen, hcj, FanSt_world_chan k n s j hj] at h
    simp only [Goroutine.recvChan, hseen, hcj, FanSt_world_chan k n s j hj,
      Option.some.injEq] at h
    subst h
    refine ⟨_, ?_, FanSt.Rel.sinkEnd s j hj hseen hcj⟩
    simp only [Goroutine.onClosed, World.apply, World.setTask]
    apply World_eq_of
    · rfl
    · rfl
    · rfl
    · show (s.world k n).tasks.set (n + 1 + j) (.sink (j + 1) true) = _
      rw [FanSt_world_set_sink _ _ _ _ hj]
  · simp [Goroutine.recvChan] at h

theorem FanSt_step_doneCase (k : Kind X) (hk : ∀ out, k.exit out = Effect.close out) (n : Nat)
    (s : FanSt X) (b : Nat) (w1 : World X)
    (h : (s.world k n).step (.doneCase b) = some w1) :
    ∃ s1, w1 = FanSt.world k n s1 ∧ FanSt.Rel k n s s1 := by
  simp only [World.step] at h
  rcases hb : (s.world k n).tasks[b]? with _ | tb
  · simp [hb] at h
  simp only [hb] at h
  rcases FanSt_world_task k n s b tb hb with
    ⟨rfl, rfl⟩ | ⟨j, hj, rfl, rfl⟩ | ⟨j, hj, rfl, rfl⟩ | ⟨b0, rfl, hc, rfl⟩
  · simp [Goroutine.inSelect] at h
  · cases hpc : s.pc j with
    | recv => simp [Goroutine.inSelect, hpc] at h
    | exited => simp [Goroutine.inSelect, hpc] at h
    | select u =>
      have hd : (s.world k n).done = s.done := rfl
      cases hdone : s.done
      · simp [Goroutine.inSelect, hpc, hd, hdone] at h
      simp only [Goroutine.inSelect, hpc, hd, hdone, and_self, if_true, Option.some.injEq] at h
      subst h
      refine ⟨_, ?_, FanSt.Rel.cancel s j u hj hdone hpc⟩
      simp only [Goroutine.onDone, hk, World.apply, World.setTask]
      apply World_eq_of
      · show (s.world k n).chans.set (j + 1) ⟨true, _⟩ = _
        rw [FanSt_world_chan k n s j hj, FanSt_world_set_chan]
        apply FanSt_world_chans_congr <;> simp
      · rfl
      · rfl
      · show (s.world k n).tasks.set (j + 1) (.stage k 0 (j + 1) .exited) = _
        rw [FanSt_world_set_stage _ _ _ _ hj]
        rfl
  · simp [Goroutine.inSelect] at h
  · simp [Goroutine.inSelect] at h

theorem FanSt_step_tau (k : Kind X) (n : Nat)
    (s : FanSt X) (b : Nat) (w1 : World X)
    (h : (s.world k n).step (.tau b) = some w1) :
    ∃ s1, w1 = FanSt.world k n s1 ∧ FanSt.Rel k n s s1 := by
  simp only [World.step] at h
  rcases hb : (s.world k n).tasks[b]? with _ | tb
  · simp [hb] at h
  simp only [hb] at h
  rcases FanSt_world_task k n s b tb hb with
    ⟨rfl, rfl⟩ | ⟨j, hj, rfl, rfl⟩ | ⟨j, hj, rfl, rfl⟩ | ⟨b0, rfl, hc, rfl⟩
  · rcases hrem : s.rem with _ | ⟨v, rest⟩
    swap
    · simp [Goroutine.tau, hrem] at h
    cases hcl : s.cl
    swap
    · simp [Goroutine.tau, hrem, hcl] at h
    simp only [Goroutine.tau, hrem, hcl, Option.some.injEq] at h
    subst h
    refine ⟨_, ?_, FanSt.Rel.srcClose s hrem hcl⟩
    simp only [World.apply, World.setTask]
    apply World_eq_of
    · show (s.world k n).chans.set 0 ⟨true, _⟩ = _
      rw [FanSt_world_chan0, FanSt_world_set_chan0]
      apply FanSt_world_chans_congr <;> simp
    · rfl
    · rfl
    · show (s.world k n).tasks.set 0 (.source 0 [] true) = _
      rw [FanSt_world_set_source]
      apply FanSt_world_tasks_congr <;> simp [hrem]
  · simp [Goroutine.tau] at h
  · simp [Goroutine.tau] at h
  · cases b0
    swap
    · simp [Goroutine.tau] at h
    simp only [Goroutine.tau, Option.some.injEq] at h
    subst h
    refine ⟨_, ?_, FanSt.Rel.fire s hc⟩
    simp only [World.apply, World.setTask]
    apply World_eq_of
    · rfl
    · rfl
    · rfl
    · show (s.world k n).tasks.set (2 * n + 1) (.canceller true) = _
      rw [FanSt_world_set_canc _ _ _ _ _ hc]
      rfl

/-- Every step of a fan-out world is a step of its changing parts. -/
theorem FanSt_step_rel (k : Kind X) (hk : ∀ out, k.exit out = Effect.close out) (n : Nat)
    (s : FanSt X) (e : Event) (w1 : World X) (h : (s.world k n).step e = some w1) :
    ∃ s1, w1 = FanSt.world k n s1 ∧ FanSt.Rel k n s s1 := by
  cases e with
  | comm a b => exact FanSt_step_comm k n s a b w1 h
  | closedRecv b => exact FanSt_step_closedRecv k hk n s b w1 h
  | doneCase b => exact FanSt_step_doneCase k hk n s b w1 h
  | tau b => exact FanSt_step_tau k n s b w1 h

/-! ## Fan-out systems: invariants -/

theorem sum_range_update {M : Type} [AddCommMonoid M] (f : Nat → M) (n i : Nat) (a : M)
    (hi : i < n) :
    ((List.range n).map (Function.update f i a)).sum + f i = ((List.range n).map f).sum + a := by
  induction n with
  | zero => omega
  | succ n ih =>
      rw [List.range_succ, List.map_append, List.map_append, List.sum_append, List.sum_append]
      simp only [List.map_cons, List.map_nil, List.sum_cons, List.sum_nil, add_zero]
      by_cases hin : i = n
      · subst hin
        have : (List.range i).map (Function.update f i a) = (List.range i).map f := by
          apply List.map_congr_left
          intro j hj
          have : j ≠ i := by
            have := List.mem_range.mp hj
            omega
          simp [Function.update_noteq this]
        rw [this, Function.update_same]
        abel
      · have hlt : i < n := by omega
        have hne : n ≠ i := fun h => hin h.symm
        rw [Function.update_noteq hne]
        have := ih hlt
        calc ((List.range n).map (Function.update f i a)).sum + f n + f i
            = (((List.range n).map (Function.update f i a)).sum + f i) + f n := by abel
          _ = (((List.range n).map f).sum + a) + f n := by rw [this]
          _ = ((List.range n).map f).sum + f n + a := by abel

theorem sum_range_congr {M : Type} [AddCommMonoid M] (f g : Nat → M) (n : Nat)
    (h : ∀ i, i < n → f i = g i) :
    ((List.range n).map f).sum = ((List.range n).map g).sum := by
  congr 1
  apply List.map_congr_left
  intro j hj
  exact h j (List.mem_range.mp hj)

theorem FanSt_Good_init (n : Nat) (input : List X) (cancel : Bool) :
    FanSt.Good n input (FanSt.init input cancel) := by
  constructor <;> simp [FanSt.init]

theorem FanSt_Good_step (k : Kind X) (n : Nat) (input : List X) (s s1 : FanSt X)
    (hg : FanSt.Good n input s) (hr : FanSt.Rel k n s s1) : FanSt.Good n input s1 := by
  obtain ⟨g1, g2, g3, g4, g5, g6⟩ := hg
  cases hr with
  | feed i v rest hi hrem hcl hpc =>
      refine ⟨by simp [← g1, hrem], by simp [hcl], ?_, g4, ?_, g6⟩
      · intro j hj
        by_cases hji : j = i
        · subst hji
          have := g3 j hj
          simp only [Function.update_same]
          rw [this, hpc]
          simp only [Kind.next]
          cases k.emit v <;> simp
        · simp only [Function.update_noteq hji]
          exact g3 j hj
      · intro hd j hj
        simp only
        by_cases hji : j = i
        · subst hji
          simp only [Function.update_same, Kind.next]
          cases k.emit v <;> simp
        · simp only [Function.update_noteq hji]
          exact g5 hd j hj
  | deliver i u hi hpc hc hseen =>
      refine ⟨g1, g2, ?_, g4, ?_, g6⟩
      · intro j hj
        by_cases hji : j = i
        · subst hji
          simp [hc]
        · simp only [Function.update_noteq hji]
          exact g3 j hj
      · intro hd j hj
        by_cases hji : j = i
        · subst hji
          simp
        · simp only [Function.update_noteq hji]
          exact g5 hd j hj
  | srcClose hrem hcl =>
      exact ⟨g1, fun _ => hrem, g3, g4, fun _ _ _ _ => rfl, g6⟩
  | stageEnd i hi hpc hcl =>
      refine ⟨g1, g2, ?_, ?_, fun _ _ _ _ => hcl, g6⟩
      · intro j hj
        by_cases hji : j = i
        · subst hji
          simp
        · simp only [Function.update_noteq hji]
          exact g3 j hj
      · intro j hj
        by_cases hji : j = i
        · subst hji
          simp
        · simp only [Function.update_noteq hji]
          exact g4 j hj
  | sinkEnd i hi hseen hc =>
      refine ⟨g1, g2, g3, ?_, g5, g6⟩
      intro j hj
      by_cases hji : j = i
      · subst hji
        simp [hc]
      · simp only [Function.update_noteq hji]
        exact g4 j hj
  | cancel i u hi hdone hpc =>
      refine ⟨g1, g2, ?_, ?_, ?_, g6⟩
      · intro j hj
        by_cases hji : j = i
        · subst hji
          simp
        · simp only [Function.update_noteq hji]
          exact g3 j hj
      · intro j hj
        by_cases hji : j = i
        · subst hji
          simp
        · simp only [Function.update_noteq hji]
          exact g4 j hj
      · intro hd
        simp [hdone] at hd
  | fire hcanc =>
      refine ⟨g1, g2, g3, g4, ?_, ?_⟩
      · intro hd
        simp at hd
      · intro hc
        simp at hc

theorem Kind_filterMap_snoc (k : Kind X) (l : List X) (v : X) :
    (l ++ [v]).filterMap k.emit = l.filterMap k.emit ++ (k.next v).held := by
  rw [List.filterMap_append]
  simp only [List.filterMap_cons, List.filterMap_nil, Kind.next]
  cases k.emit v <;> simp [Pc.held]

theorem FanSt_Conserved_init (k : Kind X) (n : Nat) (input : List X) (cancel : Bool) :
    FanSt.Conserved k n (FanSt.init input cancel) := by
  intro _
  simp only [FanSt.init, Pc.held, List.append_nil, List.filterMap_nil]
  induction n with
  | zero => rfl
  | succ n ih =>
      rw [List.range_succ, List.map_append, List.sum_append, ih]
      rfl

theorem FanSt_Conserved_step (k : Kind X) (n : Nat) (s s1 : FanSt X)
    (hc : FanSt.Conserved k n s) (hr : FanSt.Rel k n s s1) : FanSt.Conserved k n s1 := by
  intro hd
  cases hr with
  | feed i v rest hi hrem hcl hpc =>
      have h0 := hc hd
      simp only
      rw [Kind_filterMap_snoc, ← Multiset.coe_add, ← h0]
      have hfun : (fun j => ((s.h j ++ (Function.update s.pc i (k.next v) j).held : List X)
            : Multiset X))
          = Function.update (fun j => ((s.h j ++ (s.pc j).held : List X) : Multiset X)) i
              ((s.h i ++ (k.next v).held : List X) : Multiset X) := by
        funext j
        by_cases hji : j = i
        · subst hji; simp
        · simp [Function.update_noteq hji]
      rw [hfun]
      have key := sum_range_update (fun j => ((s.h j ++ (s.pc j).held : List X) : Multiset X)) n i
        ((s.h i ++ (k.next v).held : List X) : Multiset X) hi
      have hFi : ((s.h i ++ (s.pc i).held : List X) : Multiset X) = (s.h i : Multiset X) := by
        rw [hpc]; simp [Pc.held]
      have ha : ((s.h i ++ (k.next v).held : List X) : Multiset X)
          = (s.h i : Multiset X) + ((k.next v).held : Multiset X) := by
        rw [Multiset.coe_add]
      simp only [hFi] at key
      apply add_right_cancel (b := (s.h i : Multiset X))
      rw [key, ha]
      abel
  | deliver i u hi hpc hc1 hseen =>
      have h0 := hc hd
      simp only
      rw [← h0]
      apply sum_range_congr
      intro j hj
      by_cases hji : j = i
      · subst hji; simp [hpc, Pc.held]
      · simp [Function.update_noteq hji]
  | srcClose hrem hcl => exact hc hd
  | stageEnd i hi hpc hcl =>
      have h0 := hc hd
      simp only
      rw [← h0]
      apply sum_range_congr
      intro j hj
      by_cases hji : j = i
      · subst hji; simp [hpc, Pc.held]
      · simp [Function.update_noteq hji]
  | sinkEnd i hi hseen hc1 => exact hc hd
  | cancel i u hi hdone hpc => simp [hdone] at hd
  | fire hcanc => simp at hd

theorem FanSt_Ordered_init (k : Kind X) (input : List X) (cancel : Bool) :
    FanSt.Ordered k (FanSt.init input cancel) := by
  simp [FanSt.Ordered, FanSt.init, Pc.held]

theorem FanSt_Ordered_step (k : Kind X) (s s1 : FanSt X)
    (ho : FanSt.Ordered k s) (hr : FanSt.Rel k 1 s s1) : FanSt.Ordered k s1 := by
  obtain ⟨o1, o2, o3⟩ := ho
  cases hr with
  | feed i v rest hi hrem hcl hpc =>
      have hi0 : i = 0 := by omega
      subst hi0
      have h1 := o1 (by rw [hpc]; simp)
      simp only [hpc, Pc.held, List.append_nil] at h1
      refine ⟨?_, ?_, ?_⟩
      · intro _
        simp only [Function.update_same]
        rw [Kind_filterMap_snoc, h1]
      · intro hx
        simp only [Function.update_same, Kind.next] at hx
        cases hk : k.emit v <;> simp [hk] at hx
      · intro hx
        simp only [Function.update_same, Kind.next] at hx
        cases hk : k.emit v <;> simp [hk] at hx
  | deliver i u hi hpc hc hseen =>
      have hi0 : i = 0 := by omega
      subst hi0
      have h1 := o1 (by rw [hpc]; simp)
      simp only [hpc, Pc.held] at h1
      refine ⟨?_, ?_, ?_⟩
      · intro _
        simp [Pc.held, h1]
      · intro hx
        simp at hx
      · intro hx
        simp at hx
  | srcClose hrem hcl => exact ⟨o1, o2, o3⟩
  | stageEnd i hi hpc hcl =>
      have hi0 : i = 0 := by omega
      subst hi0
      have h1 := o1 (by rw [hpc]; simp)
      simp only [hpc, Pc.held, List.append_nil] at h1
      refine ⟨?_, ?_, ?_⟩
      · intro hx
        simp at hx
      · intro _
        simp only
        rw [h1]
      · intro _ _
        exact h1
  | sinkEnd i hi hseen hc => exact ⟨o1, o2, o3⟩
  | cancel i u hi hdone hpc =>
      have hi0 : i = 0 := by omega
      subst hi0
      have h1 := o1 (by rw [hpc]; simp)
      simp only [hpc, Pc.held] at h1
      refine ⟨?_, ?_, ?_⟩
      · intro hx
        simp at hx
      · intro _
        simp only
        rw [← h1]
        exact List.prefix_append _ _
      · intro _ hd
        simp [hdone] at hd
  | fire hcanc =>
      refine ⟨o1, o2, ?_⟩
      intro _ hd
      simp at hd

/-! ## Schedules, measure and progress -/

/-- An invariant of the changing parts holds along every schedule. -/
theorem World_exec_abs_inv {S : Type} (abs : S → World X) (P : S → Prop)
    (hstep : ∀ s e w1, P s → (abs s).step e = some w1 → ∃ s1, w1 = abs s1 ∧ P s1) :
    ∀ (cs : List Nat) (s : S), P s → ∃ s1, (abs s).exec cs = abs s1 ∧ P s1 := by
  intro cs
  induction cs with
  | nil => intro s h; exact ⟨s, rfl, h⟩
  | cons c cs ih =>
      intro s h
      rw [World_exec_cons]
      rcases World_sched_cases (abs s) c with ⟨_, h1⟩ | ⟨e, he⟩
      · rw [h1]; exact ih s h
      · obtain ⟨s1, hs1, hp1⟩ := hstep s e _ h he
        rw [hs1]
        exact ih s1 hp1

/-- Termination under every schedule: when every step keeps the invariant and lowers the
measure, and a state that is not final can always step, any schedule at least as long as the
measure ends in a final state. -/
theorem World_exec_abs_final {S : Type} (abs : S → World X) (P Final : S → Prop) (μ : S → Nat)
    (hstep : ∀ s e w1, P s → (abs s).step e = some w1 → ∃ s1, w1 = abs s1 ∧ P s1 ∧ μ s1 < μ s)
    (hprog : ∀ s, P s → ¬ Final s → ∃ e w1, (abs s).step e = some w1) :
    ∀ (cs : List Nat) (s : S), P s → μ s ≤ cs.length →
      ∃ s1, (abs s).exec cs = abs s1 ∧ P s1 ∧ Final s1 := by
  intro cs
  induction cs with
  | nil =>
      intro s hinv hμ
      refine ⟨s, rfl, hinv, ?_⟩
      by_contra hf
      obtain ⟨e, w1, he⟩ := hprog s hinv hf
      obtain ⟨s1, _, _, hlt⟩ := hstep s e w1 hinv he
      simp at hμ
      omega
  | cons c cs ih =>
      intro s hinv hμ
      rcases World_sched_cases (abs s) c with ⟨hq, _⟩ | ⟨e, he⟩
      · rw [World_exec_quiescent _ hq]
        refine ⟨s, rfl, hinv, ?_⟩
        by_contra hf
        obtain ⟨e, w1, he⟩ := hprog s hinv hf
        have : e ∈ (abs s).enabled := (World_enabled_iff _ e).mpr ⟨w1, he⟩
        rw [hq] at this
        simp at this
      · rw [World_exec_cons]
        obtain ⟨s1, hs1, hp1, hlt⟩ := hstep s e _ hinv he
        rw [hs1]
        apply ih s1 hp1
        simp at hμ
        omega

theorem FanSt_sum_measure_pc (pc : Nat → Pc X) (seen : Nat → Bool) (n i : Nat) (hi : i < n)
    (p : Pc X) :
    ((List.range n).map fun j => (Function.update pc i p j).measure
        + (if seen j then 0 else 1)).sum + (pc i).measure
      = ((List.range n).map fun j => (pc j).measure + (if seen j then 0 else 1)).sum
        + p.measure := by
  have hfun : (fun j => (Function.update pc i p j).measure + (if seen j then 0 else 1))
      = Function.update (fun j => (pc j).measure + (if seen j then 0 else 1)) i
          (p.measure + (if seen i then 0 else 1)) := by
    funext j
    by_cases hji : j = i
    · subst hji; simp
    · simp [Function.update_noteq hji]
  have key := sum_range_update (fun j => (pc j).measure + (if seen j then 0 else 1)) n i
    (p.measure + (if seen i then 0 else 1)) hi
  rw [hfun]
  have key2 : ((List.range n).map (Function.update
      (fun j => (pc j).measure + (if seen j then 0 else 1)) i
      (p.measure + (if seen i then 0 else 1)))).sum
      + ((pc i).measure + (if seen i then 0 else 1))
      = ((List.range n).map fun j => (pc j).measure + (if seen j then 0 else 1)).sum
        + (p.measure + (if seen i then 0 else 1)) := key
  omega

theorem FanSt_sum_measure_seen (pc : Nat → Pc X) (seen : Nat → Bool) (n i : Nat) (hi : i < n)
    (hs : seen i = false) :
    ((List.range n).map fun j => (pc j).measure
        + (if Function.update seen i true j then 0 else 1)).sum + 1
      = ((List.range n).map fun j => (pc j).measure + (if seen j then 0 else 1)).sum := by
  have hfun : (fun j => (pc j).measure + (if Function.update seen i true j then 0 else 1))
      = Function.update (fun j => (pc j).measure + (if seen j then 0 else 1)) i
          ((pc i).measure) := by
    funext j
    by_cases hji : j = i
    · subst hji; simp
    · simp [Function.update_noteq hji]
  have key := sum_range_update (fun j => (pc j).measure + (if seen j then 0 else 1)) n i
    ((pc i).measure) hi
  rw [hfun]
  have key2 : ((List.range n).map (Function.update
      (fun j => (pc j).measure + (if seen j then 0 else 1)) i ((pc i).measure))).sum
      + ((pc i).measure + (if seen i then 0 else 1))
      = ((List.range n).map fun j => (pc j).measure + (if seen j then 0 else 1)).sum
        + (pc i).measure := key
  rw [hs] at key2
  simp only [Bool.false_eq_true, if_false] at key2
  omega

theorem FanSt_measure_step (k : Kind X) (n : Nat) (s s1 : FanSt X) (hr : FanSt.Rel k n s s1) :
    FanSt.measure n s1 < FanSt.measure n s := by
  cases hr with
  | feed i v rest hi hrem hcl hpc =>
      have key := FanSt_sum_measure_pc s.pc s.seen n i hi (k.next v)
      have hle : (k.next v).measure ≤ 2 := by
        simp only [Kind.next]
        cases k.emit v <;> simp [Pc.measure]
      have hm : (s.pc i).measure = 1 := by rw [hpc]; rfl
      simp only [FanSt.measure, hrem, List.length_cons]
      omega
  | deliver i u hi hpc hc hseen =>
      have key := FanSt_sum_measure_pc s.pc s.seen n i hi Pc.recv
      have hm : (s.pc i).measure = 2 := by rw [hpc]; rfl
      have hm2 : (Pc.recv : Pc X).measure = 1 := rfl
      simp only [FanSt.measure]
      omega
  | srcClose hrem hcl =>
      simp only [FanSt.measure, hcl]
      simp
  | stageEnd i hi hpc hcl =>
      have key := FanSt_sum_measure_pc s.pc s.seen n i hi Pc.exited
      have hm : (s.pc i).measure = 1 := by rw [hpc]; rfl
      have hm2 : (Pc.exited : Pc X).measure = 0 := rfl
      simp only [FanSt.measure]
      omega
  | sinkEnd i hi hseen hc =>
      have key := FanSt_sum_measure_seen s.pc s.seen n i hi hseen
      simp only [FanSt.measure]
      omega
  | cancel i u hi hdone hpc =>
      have key := FanSt_sum_measure_pc s.pc s.seen n i hi Pc.exited
      have hm : (s.pc i).measure = 2 := by rw [hpc]; rfl
      have hm2 : (Pc.exited : Pc X).measure = 0 := rfl
      simp only [FanSt.measure]
      omega
  | fire hcanc =>
      simp only [FanSt.measure, hcanc]
      simp

theorem FanSt_world_task_source (k : Kind X) (n : Nat) (s : FanSt X) :
    (s.world k n).tasks[0]? = some (.source 0 s.rem s.cl) := by
  simp [FanSt.world]

theorem FanSt_world_task_stage (k : Kind X) (n : Nat) (s : FanSt X) (i : Nat) (hi : i < n) :
    (s.world k n).tasks[i + 1]? = some (.stage k 0 (i + 1) (s.pc i)) := by
  simp only [FanSt.world, List.cons_append, List.getElem?_cons_succ, List.append_assoc]
  rw [List.getElem?_append_left (by simpa using hi), range_map_getElem?, if_pos hi]

theorem FanSt_world_task_sink (k : Kind X) (n : Nat) (s : FanSt X) (i : Nat) (hi : i < n) :
    (s.world k n).tasks[n + 1 + i]? = some (.sink (i + 1) (s.seen i)) := by
  simp only [FanSt.world, List.cons_append, List.append_assoc]
  have e1 : n + 1 + i = (n + i) + 1 := by omega
  rw [e1, List.getElem?_cons_succ, List.getElem?_append_right (by simp)]
  simp only [List.length_map, List.length_range, Nat.add_sub_cancel_left]
  rw [List.getElem?_append_left (by simpa using hi), range_map_getElem?, if_pos hi]

/-- A fan-out system in which some consumer has not yet seen the end of
its stream can take a step. -/
theorem FanSt_progress (k : Kind X) (n : Nat) (input : List X) (s : FanSt X)
    (hg : FanSt.Good n input s)
    (hnf : ¬ ∀ i, i < n → s.seen i = true) :
    ∃ e w1, (s.world k n).step e = some w1 := by
  simp only [not_forall] at hnf
  obtain ⟨i, hi, hseen⟩ := hnf
  have hseen : s.seen i = false := by simpa using hseen
  cases hpc : s.pc i with
  | select u =>
      have hc : s.c i = false := by
        cases hci : s.c i
        · rfl
        · have := (hg.chanClosed i hi).mp hci
          rw [hpc] at this
          cases this
      refine ⟨.comm (i + 1) (n + 1 + i), ?_⟩
      simp only [World.step, FanSt_world_task_stage k n s i hi, FanSt_world_task_sink k n s i hi,
        Goroutine.sendOffer, Goroutine.recvChan, hpc, hseen, FanSt_world_chan k n s i hi, hc]
      simp
  | recv =>
      rcases hrem : s.rem with _ | ⟨v, rest⟩
      · cases hcl : s.cl
        · refine ⟨.tau 0, ?_⟩
          simp only [World.step, FanSt_world_task_source, Goroutine.tau, hrem, hcl]
          simp
        · refine ⟨.closedRecv (i + 1), ?_⟩
          simp only [World.step, FanSt_world_task_stage k n s i hi, Goroutine.recvChan, hpc,
            FanSt_world_chan0, hcl]
          simp
      · have hcl : s.cl = false := by
          cases hcl : s.cl
          · rfl
          · have := hg.closedEmpty hcl
            rw [hrem] at this
            cases this
        refine ⟨.comm 0 (i + 1), ?_⟩
        simp only [World.step, FanSt_world_task_source, FanSt_world_task_stage k n s i hi,
          Goroutine.sendOffer, Goroutine.recvChan, hpc, hrem, hcl, FanSt_world_chan0]
        simp
  | exited =>
      have hc : s.c i = true := (hg.chanClosed i hi).mpr hpc
      refine ⟨.closedRecv (n + 1 + i), ?_⟩
      simp only [World.step, FanSt_world_task_sink k n s i hi, Goroutine.recvChan, hseen,
        FanSt_world_chan k n s i hi, hc]
      simp

/-! ## Results for a single stage and for fan-out -/

theorem FanSt_world_hist (k : Kind X) (n : Nat) (s : FanSt X) (i : Nat) (hi : i < n) :
    (s.world k n).hist (i + 1) = s.h i := by
  simp [World.hist, FanSt_world_chan k n s i hi]

theorem FanSt_world_isClosed (k : Kind X) (n : Nat) (s : FanSt X) (i : Nat) (hi : i < n) :
    (s.world k n).isClosed (i + 1) = s.c i := by
  simp [World.isClosed, FanSt_world_chan k n s i hi]

theorem FanSt_Rel_canc_none (k : Kind X) (n : Nat) (s s1 : FanSt X) (hr : FanSt.Rel k n s s1)
    (h : s.canc = Option.none) : s1.canc = Option.none := by
  cases hr <;> simp_all

/-- The invariant of a system with a single stage. -/
theorem FanSt_single_step (k : Kind X) (hk : ∀ out, k.exit out = Effect.close out)
    (input : List X) (s : FanSt X) (e : Event) (w1 : World X)
    (hp : FanSt.Good 1 input s ∧ FanSt.Ordered k s)
    (h : (s.world k 1).step e = some w1) :
    ∃ s1, w1 = FanSt.world k 1 s1 ∧ (FanSt.Good 1 input s1 ∧ FanSt.Ordered k s1)
      ∧ FanSt.measure 1 s1 < FanSt.measure 1 s := by
  obtain ⟨s1, hw, hr⟩ := FanSt_step_rel k hk 1 s e w1 h
  exact ⟨s1, hw, ⟨FanSt_Good_step k 1 input s s1 hp.1 hr, FanSt_Ordered_step k s s1 hp.2 hr⟩,
    FanSt_measure_step k 1 s s1 hr⟩

/-- Along every schedule the output of a single stage is an initial segment of what the stage
makes of its input. -/
theorem FanSt_single_prefix (k : Kind X) (hk : ∀ out, k.exit out = Effect.close out)
    (input : List X) (cancel : Bool) (choices : List Nat) :
    (((FanSt.init input cancel).world k 1).exec choices).hist 1
      <+: input.filterMap k.emit := by
  obtain ⟨s1, hw, hg, ho⟩ := World_exec_abs_inv (FanSt.world k 1)
    (fun s => FanSt.Good 1 input s ∧ FanSt.Ordered k s)
    (fun s e w1 hp h => by
      obtain ⟨s1, hw, hp1, _⟩ := FanSt_single_step k hk input s e w1 hp h
      exact ⟨s1, hw, hp1⟩)
    choices (FanSt.init input cancel)
    ⟨FanSt_Good_init 1 input cancel, FanSt_Ordered_init k input cancel⟩
  rw [hw, FanSt_world_hist k 1 s1 0 (by omega)]
  have hsub : s1.h0.filterMap k.emit <+: input.filterMap k.emit := by
    rw [← hg.split, List.filterMap_append]
    exact List.prefix_append _ _
  by_cases hx : s1.pc 0 = Pc.exited
  · exact (ho.2.1 hx).trans hsub
  · have := ho.1 hx
    exact (this ▸ List.prefix_append _ _ : s1.h 0 <+: s1.h0.filterMap k.emit).trans hsub

/-- Without cancellation the output of a single stage is closed only after the stage delivered
everything it makes of its input. -/
theorem FanSt_single_closed (k : Kind X) (hk : ∀ out, k.exit out = Effect.close out)
    (input : List X) (choices : List Nat)
    (hc : (((FanSt.init input false).world k 1).exec choices).isClosed 1 = true) :
    (((FanSt.init input false).world k 1).exec choices).hist 1 = input.filterMap k.emit := by
  obtain ⟨s1, hw, ⟨hg, ho⟩, hcanc⟩ := World_exec_abs_inv (FanSt.world k 1)
    (fun s => (FanSt.Good 1 input s ∧ FanSt.Ordered k s) ∧ s.canc = Option.none)
    (fun s e w1 hp h => by
      obtain ⟨s1, hw, hr⟩ := FanSt_step_rel k hk 1 s e w1 h
      exact ⟨s1, hw, ⟨FanSt_Good_step k 1 input s s1 hp.1.1 hr,
        FanSt_Ordered_step k s s1 hp.1.2 hr⟩, FanSt_Rel_canc_none k 1 s s1 hr hp.2⟩)
    choices (FanSt.init input false)
    ⟨⟨FanSt_Good_init 1 input false, FanSt_Ordered_init k input false⟩, rfl⟩
  rw [hw, FanSt_world_isClosed k 1 s1 0 (by omega)] at hc
  rw [hw, FanSt_world_hist k 1 s1 0 (by omega)]
  have hd := hg.noCanc hcanc
  have hx := (hg.chanClosed 0 (by omega)).mp hc
  have hcl := hg.exitedLate hd 0 (by omega) hx
  have hrem := hg.closedEmpty hcl
  have hsplit := hg.split
  rw [hrem, List.append_nil] at hsplit
  rw [ho.2.2 hx hd, hsplit]

/-- Without cancellation, under every schedule of at least `2 * N + 3` steps the output of a
single stage is closed. -/
theorem FanSt_single_final (k : Kind X) (hk : ∀ out, k.exit out = Effect.close out)
    (input : List X) (choices : List Nat) (hlen : 2 * input.length + 3 ≤ choices.length) :
    (((FanSt.init input false).world k 1).exec choices).isClosed 1 = true := by
  obtain ⟨s1, hw, hp, hfin⟩ := World_exec_abs_final (FanSt.world k 1)
    (fun s => FanSt.Good 1 input s ∧ FanSt.Ordered k s)
    (fun s => ∀ i, i < 1 → s.seen i = true)
    (FanSt.measure 1)
    (fun s e w1 hp h => FanSt_single_step k hk input s e w1 hp h)
    (fun s hp hnf => FanSt_progress k 1 input s hp.1 hnf)
    choices (FanSt.init input false)
    ⟨FanSt_Good_init 1 input false, FanSt_Ordered_init k input false⟩
    (by simp [FanSt.measure, FanSt.init, Pc.measure]; omega)
  rw [hw, FanSt_world_isClosed k 1 s1 0 (by omega)]
  exact hp.1.seenClosed 0 (by omega) (hfin 0 (by omega))

theorem pipeSystem_eq (input : List X) (fn : X → X) (cancel : Bool) :
    pipeSystem input fn cancel = (1, (FanSt.init input cancel).world (.pipe fn) 1) := by
  cases cancel <;> rfl

theorem filterSystem_eq (input : List X) (fn : X → Bool) (cancel : Bool) :
    filterSystem input fn cancel = (1, (FanSt.init input cancel).world (.filter fn) 1) := by
  cases cancel <;> rfl

theorem Kind_filterMap_pipe (fn : X → X) (l : List X) :
    l.filterMap (Kind.pipe fn).emit = l.map fn := by
  induction l with
  | nil => rfl
  | cons a l ih => simp [List.filterMap_cons, Kind.emit, ih]

theorem Kind_filterMap_worker (fn : X → X) (l : List X) :
    l.filterMap (Kind.worker fn).emit = l.map fn := by
  induction l with
  | nil => rfl
  | cons a l ih => simp [List.filterMap_cons, Kind.emit, ih]

theorem Kind_filterMap_filter (fn : X → Bool) (l : List X) :
    l.filterMap (Kind.filter fn).emit = l.filter fn := by
  induction l with
  | nil => rfl
  | cons a l ih =>
      by_cases h : fn a <;> simp [List.filterMap_cons, Kind.emit, ih, h]

theorem range_succ_map {α : Type} (f : Nat → α) (n : Nat) :
    (List.range (n + 1)).map f = f 0 :: (List.range n).map fun i => f (i + 1) := by
  rw [List.range_succ_eq_map, List.map_cons, List.map_map]
  rfl

/-- The loop of `FanOut` allocates `n` fresh channels and starts `n` workers, all reading
`pip`; worker `i` writes to the `i`-th new channel. -/
theorem fanOut_loop_spec (pip : Pipeline) (fn : X → X) (n : Nat) (fan : Fan)
    (w : World X) :
    Pipeline.FanOut.loop pip fn n fan w =
      (fan ++ (List.range n).map fun i => w.chans.length + i,
       { w with
         chans := w.chans ++ (List.range n).map fun _ => ⟨false, []⟩
         tasks := w.tasks ++ (List.range n).map fun i =>
           Goroutine.stage (.worker fn) pip (w.chans.length + i) .recv }) := by
  induction n generalizing fan w with
  | zero => simp [Pipeline.FanOut.loop]
  | succ n ih =>
      rw [Pipeline.FanOut.loop]
      simp only [Pipeline.worker, World.makeChan, World.go]
      rw [ih]
      rw [range_succ_map, range_succ_map, range_succ_map]
      simp only [List.length_append, List.length_singleton, List.append_assoc,
        List.singleton_append, Nat.add_zero]
      have e : ∀ i, w.chans.length + 1 + i = w.chans.length + (i + 1) := fun i => by omega
      simp only [e]

theorem foldl_sink (fan : Fan) (w : World X) :
    fan.foldl World.sink w = { w with tasks := w.tasks ++ fan.map fun c => Goroutine.sink c false } := by
  induction fan generalizing w with
  | nil => simp
  | cons c fan ih =>
      rw [List.foldl_cons, ih]
      simp [World.sink, World.go]

theorem fanOutSystem_eq (input : List X) (n : Nat) (fn : X → X) (cancel : Bool) :
    fanOutSystem input (n : Int) fn cancel
      = ((List.range n).map fun i => i + 1, (FanSt.init input cancel).world (.worker fn) n) := by
  simp only [fanOutSystem, World.source, World.makeChan, World.go, World.empty, Pipeline.FanOut,
    Int.toNat_ofNat, fanOut_loop_spec, foldl_sink, World.canceller]
  have e : ∀ i, 1 + i = i + 1 := fun i => by omega
  cases cancel <;>
    simp [FanSt.world, FanSt.init, e, List.map_map, Function.comp_def]

theorem FanSt_fan_step (k : Kind X) (hk : ∀ out, k.exit out = Effect.close out) (n : Nat)
    (input : List X) (s : FanSt X) (e : Event) (w1 : World X)
    (hp : (FanSt.Good n input s ∧ FanSt.Conserved k n s) ∧ s.canc = Option.none)
    (h : (s.world k n).step e = some w1) :
    ∃ s1, w1 = FanSt.world k n s1
      ∧ ((FanSt.Good n input s1 ∧ FanSt.Conserved k n s1) ∧ s1.canc = Option.none)
      ∧ FanSt.measure n s1 < FanSt.measure n s := by
  obtain ⟨s1, hw, hr⟩ := FanSt_step_rel k hk n s e w1 h
  exact ⟨s1, hw, ⟨⟨FanSt_Good_step k n input s s1 hp.1.1 hr,
    FanSt_Conserved_step k n s s1 hp.1.2 hr⟩, FanSt_Rel_canc_none k n s s1 hr hp.2⟩,
    FanSt_measure_step k n s s1 hr⟩

theorem FanSt_measure_init (n : Nat) (input : List X) :
    FanSt.measure n (FanSt.init input false) = 2 * input.length + 2 * n + 1 := by
  simp only [FanSt.measure, FanSt.init, Pc.measure]
  have : ((List.range n).map fun _ => 1 + (if false = true then 0 else 1)).sum = 2 * n := by
    induction n with
    | zero => rfl
    | succ n ih =>
        rw [List.range_succ, List.map_append, List.sum_append, ih]
        simp
        omega
  rw [this]
  simp
  omega

/-- When all output streams of a fan-out system without cancellation are closed, the streams
carry, as a multiset, what the stages make of the whole input. -/
theorem FanSt_fan_closed_sum (k : Kind X) (n : Nat) (hn : 1 ≤ n) (input : List X) (s : FanSt X)
    (hg : FanSt.Good n input s) (hc : FanSt.Conserved k n s) (hcanc : s.canc = Option.none)
    (hcl : ∀ i, i < n → s.c i = true) :
    ((List.range n).map fun i => (s.h i : Multiset X)).sum
      = ((input.filterMap k.emit : List X) : Multiset X) := by
  have hd := hg.noCanc hcanc
  have hx : ∀ i, i < n → s.pc i = Pc.exited := fun i hi => (hg.chanClosed i hi).mp (hcl i hi)
  have hcl0 := hg.exitedLate hd 0 (by omega) (hx 0 (by omega))
  have hrem := hg.closedEmpty hcl0
  have hsplit := hg.split
  rw [hrem, List.append_nil] at hsplit
  rw [← hsplit, ← hc hd]
  apply sum_range_congr
  intro i hi
  rw [hx i hi]
  simp [Pc.held]

/-- At every moment the output streams of a fan-out system carry, as a multiset, part of what
the stages make of the input. -/
theorem FanSt_fan_sum_le (k : Kind X) (n : Nat) (input : List X) (s : FanSt X)
    (hg : FanSt.Good n input s) (hc : FanSt.Conserved k n s) (hcanc : s.canc = Option.none) :
    ((List.range n).map fun i => (s.h i : Multiset X)).sum
      ≤ ((input.filterMap k.emit : List X) : Multiset X) := by
  have hd := hg.noCanc hcanc
  have h1 : ((List.range n).map fun i => (s.h i : Multiset X)).sum
      ≤ ((List.range n).map fun i => ((s.h i ++ (s.pc i).held : List X) : Multiset X)).sum := by
    apply List.sum_le_sum
    intro i _
    rw [← Multiset.coe_add]
    exact Multiset.le_add_right _ _
  refine h1.trans ?_
  rw [hc hd, ← hg.split, List.filterMap_append, ← Multiset.coe_add]
  exact Multiset.le_add_right _ _

/-! ## Fan-in systems: the worlds and their steps -/

/-- The goroutines of a fan-in world, by position. -/
theorem FanInSt_world_task (m : Nat) (s : FanInSt X) (t : Nat) (g : Goroutine X)
    (h : (s.world m).tasks[t]? = some g) :
    (t < m ∧ g = .source t (s.rem t) (s.cl t)) ∨
    (∃ i, i < m ∧ t = m + i ∧ g = .stage (.output 0) i m (s.pc i)) ∨
    (t = 2 * m ∧ g = .closer 0 m s.fin) ∨
    (t = 2 * m + 1 ∧ g = .sink m s.seen) := by
  simp only [FanInSt.world, List.append_assoc] at h
  by_cases h1 : t < m
  · left
    rw [List.getElem?_append_left (by simpa using h1)] at h
    rw [range_map_getElem?, if_pos h1] at h
    exact ⟨h1, by simpa using h.symm⟩
  · right
    rw [List.getElem?_append_right (by simpa using h1)] at h
    simp only [List.length_map, List.length_range] at h
    by_cases h2 : t - m < m
    · left
      rw [List.getElem?_append_left (by simpa using h2)] at h
      rw [range_map_getElem?, if_pos h2] at h
      exact ⟨t - m, h2, by omega, by simpa using h.symm⟩
    · right
      rw [List.getElem?_append_right (by simpa using h2)] at h
      simp only [List.length_map, List.length_range] at h
      rcases hx : t - m - m with _ | _ | x
      · rw [hx] at h
        left
        exact ⟨by omega, by simpa using h.symm⟩
      · rw [hx] at h
        right
        exact ⟨by omega, by simpa using h.symm⟩
      · rw [hx] at h
        simp at h

theorem FanInSt_world_task_source (m : Nat) (s : FanInSt X) (i : Nat) (hi : i < m) :
    (s.world m).tasks[i]? = some (.source i (s.rem i) (s.cl i)) := by
  simp only [FanInSt.world, List.append_assoc]
  rw [List.getElem?_append_left (by simpa using hi), range_map_getElem?, if_pos hi]

theorem FanInSt_world_task_stage (m : Nat) (s : FanInSt X) (i : Nat) (hi : i < m) :
    (s.world m).tasks[m + i]? = some (.stage (.output 0) i m (s.pc i)) := by
  simp only [FanInSt.world, List.append_assoc]
  rw [List.getElem?_append_right (by simp)]
  simp only [List.length_map, List.length_range, Nat.add_sub_cancel_left]
  rw [List.getElem?_append_left (by simpa using hi), range_map_getElem?, if_pos hi]

theorem FanInSt_world_task_closer (m : Nat) (s : FanInSt X) :
    (s.world m).tasks[2 * m]? = some (.closer 0 m s.fin) := by
  simp only [FanInSt.world, List.append_assoc]
  rw [List.getElem?_append_right (by simp; omega)]
  rw [List.getElem?_append_right (by simp; omega)]
  simp only [List.length_map, List.length_range]
  have : 2 * m - m - m = 0 := by omega
  rw [this]
  rfl

theorem FanInSt_world_task_sink (m : Nat) (s : FanInSt X) :
    (s.world m).tasks[2 * m + 1]? = some (.sink m s.seen) := by
  simp only [FanInSt.world, List.append_assoc]
  rw [List.getElem?_append_right (by simp; omega)]
  rw [List.getElem?_append_right (by simp; omega)]
  simp only [List.length_map, List.length_range]
  have : 2 * m + 1 - m - m = 1 := by omega
  rw [this]
  rfl

theorem FanInSt_world_chan (m : Nat) (s : FanInSt X) (i : Nat) (hi : i < m) :
    (s.world m).chans[i]? = some ⟨s.cl i, s.h i⟩ := by
  simp only [FanInSt.world]
  rw [List.getElem?_append_left (by simpa using hi), range_map_getElem?, if_pos hi]

theorem FanInSt_world_chan_out (m : Nat) (s : FanInSt X) :
    (s.world m).chans[m]? = some ⟨s.cout, s.hout⟩ := by
  simp only [FanInSt.world]
  rw [List.getElem?_append_right (by simp)]
  simp

theorem FanInSt_world_chans_congr (m : Nat) (s s1 : FanInSt X) (h1 : s.cl = s1.cl)
    (h2 : s.h = s1.h) (h3 : s.cout = s1.cout) (h4 : s.hout = s1.hout) :
    (s.world m).chans = (s1.world m).chans := by
  simp [FanInSt.world, h1, h2, h3, h4]

theorem FanInSt_world_tasks_congr (m : Nat) (s s1 : FanInSt X) (h1 : s.rem = s1.rem)
    (h2 : s.cl = s1.cl) (h3 : s.pc = s1.pc) (h4 : s.fin = s1.fin) (h5 : s.seen = s1.seen) :
    (s.world m).tasks = (s1.world m).tasks := by
  simp [FanInSt.world, h1, h2, h3, h4, h5]

theorem FanInSt_world_set_source (m : Nat) (s : FanInSt X) (i : Nat) (hi : i < m)
    (rem : List X) (cl : Bool) :
    (s.world m).tasks.set i (.source i rem cl)
      = (FanInSt.world m { s with rem := Function.update s.rem i rem,
                                  cl := Function.update s.cl i cl }).tasks := by
  simp only [FanInSt.world, List.append_assoc]
  rw [List.set_append_left _ _ (by simpa using hi)]
  congr 1
  rw [range_map_set]
  apply List.map_congr_left
  intro j _
  by_cases hj : j = i
  · subst hj; simp
  · simp [Function.update_noteq hj]

theorem FanInSt_world_set_stage (m : Nat) (s : FanInSt X) (i : Nat) (hi : i < m) (p : Pc X) :
    (s.world m).tasks.set (m + i) (.stage (.output 0) i m p)
      = (FanInSt.world m { s with pc := Function.update s.pc i p }).tasks := by
  simp only [FanInSt.world, List.append_assoc]
  rw [List.set_append_right _ _ (by simp)]
  simp only [List.length_map, List.length_range, Nat.add_sub_cancel_left]
  rw [List.set_append_left _ _ (by simpa using hi)]
  congr 2
  rw [range_map_set]
  apply List.map_congr_left
  intro j _
  by_cases hj : j = i
  · subst hj; simp
  · simp [Function.update_noteq hj]

theorem FanInSt_world_set_closer (m : Nat) (s : FanInSt X) (b : Bool) :
    (s.world m).tasks.set (2 * m) (.closer 0 m b)
      = (FanInSt.world m { s with fin := b }).tasks := by
  simp only [FanInSt.world, List.append_assoc]
  rw [List.set_append_right _ _ (by simp; omega)]
  rw [List.set_append_right _ _ (by simp; omega)]
  simp only [List.length_map, List.length_range]
  have : 2 * m - m - m = 0 := by omega
  rw [this]
  rfl

theorem FanInSt_world_set_sink (m : Nat) (s : FanInSt X) (b : Bool) :
    (s.world m).tasks.set (2 * m + 1) (.sink m b)
      = (FanInSt.world m { s with seen := b }).tasks := by
  simp only [FanInSt.world, List.append_assoc]
  rw [List.set_append_right _ _ (by simp; omega)]
  rw [List.set_append_right _ _ (by simp; omega)]
  simp only [List.length_map, List.length_range]
  have : 2 * m + 1 - m - m = 1 := by omega
  rw [this]
  rfl

theorem FanInSt_world_set_chan (m : Nat) (s : FanInSt X) (i : Nat) (hi : i < m) (b : Bool)
    (l : List X) :
    (s.world m).chans.set i ⟨b, l⟩
      = (FanInSt.world m { s with cl := Function.update s.cl i b,
                                  h := Function.update s.h i l }).chans := by
  simp only [FanInSt.world]
  rw [List.set_append_left _ _ (by simpa using hi)]
  congr 1
  rw [range_map_set]
  apply List.map_congr_left
  intro j _
  by_cases hj : j = i
  · subst hj; simp
  · simp [Function.update_noteq hj]

theorem FanInSt_world_set_chan_out (m : Nat) (s : FanInSt X) (b : Bool) (l : List X) :
    (s.world m).chans.set m ⟨b, l⟩
      = (FanInSt.world m { s with cout := b, hout := l }).chans := by
  simp only [FanInSt.world]
  rw [List.set_append_right _ _ (by simp)]
  simp

theorem FanInSt_step_comm (m : Nat) (s : FanInSt X) (a b : Nat) (w1 : World X)
    (h : (s.world m).step (.comm a b) = some w1) :
    ∃ s1, w1 = FanInSt.world m s1 ∧ FanInSt.Rel m s s1 := by
  simp only [World.step] at h
  rcases ha : (s.world m).tasks[a]? with _ | ta
  · simp [ha] at h
  rcases hb : (s.world m).tasks[b]? with _ | tb
  · simp [ha, hb] at h
  simp only [ha, hb] at h
  rcases FanInSt_world_task m s a ta ha with
    ⟨hi, rfl⟩ | ⟨i, hi, rfl, rfl⟩ | ⟨rfl, rfl⟩ | ⟨rfl, rfl⟩
  · -- producer `a` sends
    rcases hrem : s.rem a with _ | ⟨v, rest⟩
    · simp [Goroutine.sendOffer, hrem] at h
    cases hcl : s.cl a
    swap
    · simp [Goroutine.sendOffer, hrem, hcl] at h
    rcases FanInSt_world_task m s b tb hb with
      ⟨hj, rfl⟩ | ⟨j, hj, rfl, rfl⟩ | ⟨rfl, rfl⟩ | ⟨rfl, rfl⟩
    · simp [Goroutine.sendOffer, Goroutine.recvChan, hrem, hcl] at h
    · cases hpc : s.pc j with
      | select u => simp [Goroutine.sendOffer, Goroutine.recvChan, hrem, hcl, hpc] at h
      | exited => simp [Goroutine.sendOffer, Goroutine.recvChan, hrem, hcl, hpc] at h
      | recv =>
          simp only [Goroutine.sendOffer, Goroutine.recvChan, hrem, hcl, hpc,
            FanInSt_world_chan m s a hi] at h
          by_cases hij : a = j
          swap
          · simp [hij] at h
          subst hij
          simp only [if_true, Option.some.injEq] at h
          subst h
          refine ⟨_, ?_, FanInSt.Rel.feed s a v rest hi hrem hcl hpc⟩
          apply World_eq_of
          · show (s.world m).chans.set a ⟨false, s.h a ++ [v]⟩ = _
            rw [FanInSt_world_set_chan _ _ _ hi]
            apply FanInSt_world_chans_congr <;> simp [hcl]
          · rfl
          · rfl
          · show ((s.world m).tasks.set a (.source a rest false)).set (m + a)
              (.stage (.output 0) a m (.select v)) = _
            rw [FanInSt_world_set_source _ _ _ hi, FanInSt_world_set_stage _ _ _ hi]
            apply FanInSt_world_tasks_congr <;> simp [hcl]
    · simp [Goroutine.sendOffer, Goroutine.recvChan, hrem, hcl] at h
    · cases hseen : s.seen
      · simp only [Goroutine.sendOffer, Goroutine.recvChan, hrem, hcl, hseen,
          FanInSt_world_chan m s a hi] at h
        have : a ≠ m := by omega
        simp [this] at h
      · simp [Goroutine.sendOffer, Goroutine.recvChan, hrem, hcl, hseen] at h
  · -- forwarder `i` sends
    cases hpc : s.pc i with
    | recv => simp [Goroutine.sendOffer, hpc] at h
    | exited => simp [Goroutine.sendOffer, hpc] at h
    | select u =>
      rcases FanInSt_world_task m s b tb hb with
        ⟨hj, rfl⟩ | ⟨j, hj, rfl, rfl⟩ | ⟨rfl, rfl⟩ | ⟨rfl, rfl⟩
      · simp [Goroutine.sendOffer, Goroutine.recvChan, hpc] at h
      · cases hpj : s.pc j with
        | select u => simp [Goroutine.sendOffer, Goroutine.recvChan, hpc, hpj] at h
        | exited => simp [Goroutine.sendOffer, Goroutine.recvChan, hpc, hpj] at h
        | recv =>
            simp only [Goroutine.sendOffer, Goroutine.recvChan, hpc, hpj,
              FanInSt_world_chan_out] at h
            have : m ≠ j := by omega
            cases hco : s.cout <;> simp [this, hco] at h
      · simp [Goroutine.sendOffer, Goroutine.recvChan, hpc] at h
      · cases hseen : s.seen
        swap
        · simp [Goroutine.sendOffer, Goroutine.recvChan, hpc, hseen] at h
        cases hco : s.cout
        swap
        · simp [Goroutine.sendOffer, Goroutine.recvChan, hpc, hseen, hco,
            FanInSt_world_chan_out] at h
        simp only [Goroutine.sendOffer, Goroutine.recvChan, hpc, hseen, hco,
          FanInSt_world_chan_out, if_true, Option.some.injEq] at h
        subst h
        refine ⟨_, ?_, FanInSt.Rel.deliver s i u hi hpc hco hseen⟩
        apply World_eq_of
        · show (s.world m).chans.set m ⟨false, s.hout ++ [u]⟩ = _
          rw [FanInSt_world_set_chan_out]
          apply FanInSt_world_chans_congr <;> simp [hco]
        · rfl
        · rfl
        · show ((s.world m).tasks.set (m + i) (.stage (.output 0) i m .recv)).set (2 * m + 1)
              (.sink m false) = _
          rw [FanInSt_world_set_stage _ _ _ hi, FanInSt_world_set_sink]
          apply FanInSt_world_tasks_congr <;> simp [hseen]
  · simp [Goroutine.sendOffer] at h
  · simp [Goroutine.sendOffer] at h

theorem FanInSt_step_closedRecv (m : Nat) (s : FanInSt X) (b : Nat) (w1 : World X)
    (h : (s.world m).step (.closedRecv b) = some w1) :
    ∃ s1, w1 = FanInSt.world m s1 ∧ FanInSt.Rel m s s1 := by
  simp only [World.step] at h
  rcases hb : (s.world m).tasks[b]? with _ | tb
  · simp [hb] at h
  simp only [hb] at h
  rcases FanInSt_world_task m s b tb hb with
    ⟨hj, rfl⟩ | ⟨j, hj, rfl, rfl⟩ | ⟨rfl, rfl⟩ | ⟨rfl, rfl⟩
  · simp [Goroutine.recvChan] at h
  · cases hpc : s.pc j with
    | select u => simp [Goroutine.recvChan, hpc] at h
    | exited => simp [Goroutine.recvChan, hpc] at h
    | recv =>
      cases hcl : s.cl j
      · simp [Goroutine.recvChan, hpc, hcl, FanInSt_world_chan m s j hj] at h
      simp only [Goroutine.recvChan, hpc, hcl, FanInSt_world_chan m s j hj,
        Option.some.injEq] at h
      subst h
      refine ⟨_, ?_, FanInSt.Rel.fwdEnd s j hj hpc hcl⟩
      simp only [Goroutine.onClosed, Kind.exit, World.apply, World.setTask]
      apply World_eq_of
      · rfl
      · simp [FanInSt.world]
      · rfl
      · show (s.world m).tasks.set (m + j) (.stage (.output 0) j m .exited) = _
        rw [FanInSt_world_set_stage _ _ _ hj]
        rfl
  · simp [Goroutine.recvChan] at h
  · cases hseen : s.seen
    swap
    · simp [Goroutine.recvChan, hseen] at h
    cases hco : s.cout
    · simp [Goroutine.recvChan, hseen, hco, FanInSt_world_chan_out] at h
    simp only [Goroutine.recvChan, hseen, hco, FanInSt_world_chan_out, Option.some.injEq] at h
    subst h
    refine ⟨_, ?_, FanInSt.Rel.sinkEnd s hseen hco⟩
    simp only [Goroutine.onClosed, World.apply, World.setTask]
    apply World_eq_of
    · rfl
    · rfl
    · rfl
    · show (s.world m).tasks.set (2 * m + 1) (.sink m true) = _
      rw [FanInSt_world_set_sink]

theorem FanInSt_step_doneCase (m : Nat) (s : FanInSt X) (b : Nat) (w1 : World X)
    (h : (s.world m).step (.doneCase b) = some w1) :
    ∃ s1, w1 = FanInSt.world m s1 ∧ FanInSt.Rel m s s1 := by
  simp only [World.step] at h
  rcases hb : (s.world m).tasks[b]? with _ | tb
  · simp [hb] at h
  have hd : (s.world m).done = false := rfl
  simp [hb, hd] at h

theorem FanInSt_step_tau (m : Nat) (s : FanInSt X) (b : Nat) (w1 : World X)
    (h : (s.world m).step (.tau b) = some w1) :
    ∃ s1, w1 = FanInSt.world m s1 ∧ FanInSt.Rel m s s1 := by
  simp only [World.step] at h
  rcases hb : (s.world m).tasks[b]? with _ | tb
  · simp [hb] at h
  simp only [hb] at h
  rcases FanInSt_world_task m s b tb hb with
    ⟨hj, rfl⟩ | ⟨j, hj, rfl, rfl⟩ | ⟨rfl, rfl⟩ | ⟨rfl, rfl⟩
  · rcases hrem : s.rem b with _ | ⟨v, rest⟩
    swap
    · simp [Goroutine.tau, hrem] at h
    cases hcl : s.cl b
    swap
    · simp [Goroutine.tau, hrem, hcl] at h
    simp only [Goroutine.tau, hrem, hcl, Option.some.injEq] at h
    subst h
    refine ⟨_, ?_, FanInSt.Rel.srcClose s b hj hrem hcl⟩
    simp only [World.apply, World.setTask]
    apply World_eq_of
    · show (s.world m).chans.set b ⟨true, _⟩ = _
      rw [FanInSt_world_chan m s b hj, FanInSt_world_set_chan _ _ _ hj]
      apply FanInSt_world_chans_congr <;> simp
    · rfl
    · rfl
    · show (s.world m).tasks.set b (.source b [] true) = _
      rw [FanInSt_world_set_source _ _ _ hj]
      apply FanInSt_world_tasks_congr <;> simp [← hrem]
  · simp [Goroutine.tau] at h
  · cases hfin : s.fin
    swap
    · simp [Goroutine.tau, hfin] at h
    have hw : (s.world m).wgs = [s.wg] := rfl
    by_cases hz : s.wg = 0
    swap
    · simp [Goroutine.tau, hfin, hw, hz] at h
    simp only [Goroutine.tau, hfin, hw, hz, List.getElem?_cons_zero, if_true,
      Option.some.injEq] at h
    subst h
    refine ⟨_, ?_, FanInSt.Rel.wait s hfin hz⟩
    simp only [World.apply, World.setTask]
    apply World_eq_of
    · show (s.world m).chans.set m ⟨true, _⟩ = _
      rw [FanInSt_world_chan_out, FanInSt_world_set_chan_out]
      apply FanInSt_world_chans_congr <;> simp
    · rfl
    · rfl
    · show (s.world m).tasks.set (2 * m) (.closer 0 m true) = _
      rw [FanInSt_world_set_closer]
      rfl
  · simp [Goroutine.tau] at h

/-- Every step of a fan-in world is a step of its changing parts. -/
theorem FanInSt_step_rel (m : Nat) (s : FanInSt X) (e : Event) (w1 : World X)
    (h : (s.world m).step e = some w1) :
    ∃ s1, w1 = FanInSt.world m s1 ∧ FanInSt.Rel m s s1 := by
  cases e with
  | comm a b => exact FanInSt_step_comm m s a b w1 h
  | closedRecv b => exact FanInSt_step_closedRecv m s b w1 h
  | doneCase b => exact FanInSt_step_doneCase m s b w1 h
  | tau b => exact FanInSt_step_tau m s b w1 h

/-! ## Interleavings -/

theorem Interleaving_congr (m : Nat) (f g : Nat → List X) (l : List X)
    (h : Interleaving m f l) (hfg : ∀ i, i < m → f i = g i) : Interleaving m g l := by
  induction h generalizing g with
  | nil f h0 => exact Interleaving.nil g fun i hi => (hfg i hi) ▸ h0 i hi
  | cons f i x rest l hi hf _ ih =>
      refine Interleaving.cons g i x rest l hi ((hfg i hi) ▸ hf) (ih _ ?_)
      intro j hj
      by_cases hji : j = i
      · subst hji; simp
      · simp [Function.update_noteq hji, hfg j hj]

theorem Interleaving_snoc (m : Nat) (f : Nat → List X) (l : List X) (i : Nat) (x : X)
    (hi : i < m) (h : Interleaving m f l) :
    Interleaving m (Function.update f i (f i ++ [x])) (l ++ [x]) := by
  induction h with
  | nil f h0 =>
      refine Interleaving.cons _ i x [] [] hi (by simp [h0 i hi]) (Interleaving.nil _ ?_)
      intro j hj
      by_cases hji : j = i
      · subst hji; simp
      · simp [Function.update_noteq hji, h0 j hj]
  | cons f j y rest l hj hf _ ih =>
      by_cases hji : j = i
      · subst hji
        refine Interleaving.cons _ j y (rest ++ [x]) _ hj (by simp [hf]) ?_
        simpa using ih
      · refine Interleaving.cons _ j y rest _ hj (by simp [Function.update_noteq hji, hf]) ?_
        have hij : i ≠ j := fun h => hji h.symm
        rw [Function.update_noteq hij] at ih
        rw [Function.update_comm hij]
        exact ih

theorem sum_range_zero {M : Type} [AddCommMonoid M] (n : Nat) :
    ((List.range n).map fun _ => (0 : M)).sum = 0 := by
  induction n with
  | zero => rfl
  | succ n ih => rw [List.range_succ, List.map_append, List.sum_append, ih]; simp

/-- An interleaving has the elements of its sequences, as a multiset. -/
theorem Interleaving_multiset (m : Nat) (f : Nat → List X) (l : List X)
    (h : Interleaving m f l) :
    (l : Multiset X) = ((List.range m).map fun i => (f i : Multiset X)).sum := by
  induction h with
  | nil f h0 =>
      rw [sum_range_congr (fun i => (f i : Multiset X)) (fun _ => 0) m
        (fun i hi => by simp [h0 i hi]), sum_range_zero]
      rfl
  | cons f i x rest l hi hf _ ih =>
      have hfun : (fun j => ((Function.update f i rest j : List X) : Multiset X))
          = Function.update (fun j => (f j : Multiset X)) i (rest : Multiset X) := by
        funext j
        by_cases hji : j = i
        · subst hji; simp
        · simp [Function.update_noteq hji]
      rw [hfun] at ih
      have key := sum_range_update (fun j => (f j : Multiset X)) m i (rest : Multiset X) hi
      simp only [hf] at key
      rw [← ih] at key
      apply add_right_cancel (b := (rest : Multiset X))
      rw [← key, ← Multiset.cons_coe, ← Multiset.cons_coe, Multiset.cons_add, Multiset.add_cons]

/-- An interleaving is as long as its sequences together. -/
theorem Interleaving_length (m : Nat) (f : Nat → List X) (l : List X)
    (h : Interleaving m f l) :
    l.length = ((List.range m).map fun i => (f i).length).sum := by
  induction h with
  | nil f h0 =>
      rw [sum_range_congr (fun i => (f i).length) (fun _ => 0) m
        (fun i hi => by simp [h0 i hi]), sum_range_zero]
      rfl
  | cons f i x rest l hi hf _ ih =>
      have hfun : (fun j => (Function.update f i rest j).length)
          = Function.update (fun j => (f j).length) i rest.length := by
        funext j
        by_cases hji : j = i
        · subst hji; simp
        · simp [Function.update_noteq hji]
      rw [hfun] at ih
      have key := sum_range_update (fun j => (f j).length) m i rest.length hi
      simp only [hf, List.length_cons] at key
      simp only [List.length_cons]
      omega

/-! ## Fan-in systems: invariants, measure and progress -/

theorem sum_range_const_one (n : Nat) : ((List.range n).map fun _ => 1).sum = n := by
  induction n with
  | zero => rfl
  | succ n ih => rw [List.range_succ, List.map_append, List.sum_append, ih]; simp

theorem FanInSt_Good_init (inputs : List (List X)) :
    FanInSt.Good inputs.length (fun i => inputs.getD i []) (FanInSt.init inputs) := by
  refine ⟨?_, ?_, ?_, ?_, rfl, ?_, ?_, ?_⟩
  · intro i _; simp [FanInSt.init]
  · intro i _ h; simp [FanInSt.init] at h
  · simp only [FanInSt.init, Pc.live]
    exact (sum_range_const_one _).symm
  · intro i _ h; simp [FanInSt.init] at h
  · intro h; simp [FanInSt.init] at h
  · intro h; simp [FanInSt.init] at h
  · exact ⟨fun _ => [], fun i _ => by simp [FanInSt.init, Pc.held],
      Interleaving.nil _ fun _ _ => rfl⟩

theorem FanInSt_sum_live (pc : Nat → Pc X) (m i : Nat) (hi : i < m) (p : Pc X) :
    ((List.range m).map fun j => (Function.update pc i p j).live).sum + (pc i).live
      = ((List.range m).map fun j => (pc j).live).sum + p.live := by
  have hfun : (fun j => (Function.update pc i p j).live)
      = Function.update (fun j => (pc j).live) i p.live := by
    funext j
    by_cases hji : j = i
    · subst hji; simp
    · simp [Function.update_noteq hji]
  rw [hfun]
  exact sum_range_update (fun j => (pc j).live) m i p.live hi

theorem FanInSt_Good_step (m : Nat) (inputs : Nat → List X) (s s1 : FanInSt X)
    (hg : FanInSt.Good m inputs s) (hr : FanInSt.Rel m s s1) : FanInSt.Good m inputs s1 := by
  obtain ⟨g1, g2, g3, g4, g5, g6, g7, fwd, g8, g9⟩ := hg
  cases hr with
  | feed i v rest hi hrem hcl hpc =>
      refine ⟨?_, ?_, ?_, ?_, g5, g6, g7, fwd, ?_, g9⟩
      · intro j hj
        by_cases hji : j = i
        · subst hji
          simp only [Function.update_same]
          rw [← g1 j hj, hrem]
          simp
        · simp only [Function.update_noteq hji]
          exact g1 j hj
      · intro j hj hc
        by_cases hji : j = i
        · subst hji
          simp only at hc
          rw [hcl] at hc
          cases hc
        · simp only [Function.update_noteq hji]
          exact g2 j hj hc
      · have key := FanInSt_sum_live s.pc m i hi (Pc.select v)
        rw [hpc] at key
        simp only [Pc.live] at key
        simp only
        rw [g3]
        simp only [Pc.live]
        omega
      · intro j hj hx
        by_cases hji : j = i
        · subst hji
          simp at hx
        · simp only [Function.update_noteq hji] at hx
          exact g4 j hj hx
      · intro j hj
        by_cases hji : j = i
        · subst hji
          have := g8 j hj
          rw [hpc] at this
          simp only [Pc.held, List.append_nil] at this
          simp [Pc.held, this]
        · simp only [Function.update_noteq hji]
          exact g8 j hj
  | deliver i u hi hpc hc hseen =>
      refine ⟨g1, g2, ?_, ?_, g5, g6, g7, Function.update fwd i (fwd i ++ [u]), ?_,
        Interleaving_snoc m fwd s.hout i u hi g9⟩
      · have key := FanInSt_sum_live s.pc m i hi Pc.recv
        rw [hpc] at key
        simp only [Pc.live] at key
        simp only
        rw [g3]
        simp only [Pc.live]
        omega
      · intro j hj hx
        by_cases hji : j = i
        · subst hji
          simp at hx
        · simp only [Function.update_noteq hji] at hx
          exact g4 j hj hx
      · intro j hj
        by_cases hji : j = i
        · subst hji
          have := g8 j hj
          rw [hpc] at this
          simp only [Pc.held] at this
          simp [Pc.held, this]
        · simp only [Function.update_noteq hji]
          exact g8 j hj
  | srcClose i hi hrem hcl =>
      refine ⟨g1, ?_, g3, ?_, g5, g6, g7, fwd, g8, g9⟩
      · intro j hj hc
        by_cases hji : j = i
        · subst hji
          exact hrem
        · simp only [Function.update_noteq hji] at hc
          exact g2 j hj hc
      · intro j hj hx
        by_cases hji : j = i
        · subst hji
          simp
        · simp only [Function.update_noteq hji]
          exact g4 j hj hx
  | fwdEnd i hi hpc hcl =>
      refine ⟨g1, g2, ?_, ?_, g5, ?_, g7, fwd, ?_, g9⟩
      · have key := FanInSt_sum_live s.pc m i hi Pc.exited
        rw [hpc] at key
        simp only [Pc.live] at key
        simp only
        rw [g3]
        simp only [Pc.live]
        omega
      · intro j hj hx
        by_cases hji : j = i
        · subst hji
          exact hcl
        · simp only [Function.update_noteq hji] at hx
          exact g4 j hj hx
      · intro hf
        have := g6 hf
        simp only
        omega
      · intro j hj
        by_cases hji : j = i
        · subst hji
          have := g8 j hj
          rw [hpc] at this
          simp only [Pc.held] at this
          simp [Pc.held, this]
        · simp only [Function.update_noteq hji]
          exact g8 j hj
  | wait hfin hwg =>
      exact ⟨g1, g2, g3, g4, rfl, fun _ => hwg, fun _ => rfl, fwd, g8, g9⟩
  | sinkEnd hseen hc =>
      exact ⟨g1, g2, g3, g4, g5, g6, fun _ => hc, fwd, g8, g9⟩

theorem sum_range_change {M : Type} [AddCommMonoid M] (f g : Nat → M) (n i : Nat) (hi : i < n)
    (h : ∀ j, j < n → j ≠ i → g j = f j) :
    ((List.range n).map g).sum + f i = ((List.range n).map f).sum + g i := by
  rw [← sum_range_update f n i (g i) hi]
  congr 1
  apply sum_range_congr
  intro j hj
  by_cases hji : j = i
  · subst hji; simp
  · simp [Function.update_noteq hji, h j hj hji]

theorem FanInSt_measure_step (m : Nat) (s s1 : FanInSt X) (hr : FanInSt.Rel m s s1) :
    FanInSt.measure m s1 < FanInSt.measure m s := by
  cases hr with
  | feed i v rest hi hrem hcl hpc =>
      have key := sum_range_change
        (fun j => 2 * (s.rem j).length + (if s.cl j then 0 else 1) + (s.pc j).measure)
        (fun j => 2 * (Function.update s.rem i rest j).length + (if s.cl j then 0 else 1)
          + (Function.update s.pc i (Pc.select v) j).measure) m i hi
        (fun j _ hji => by simp [Function.update_noteq hji])
      simp only [Function.update_same, hrem, hpc, List.length_cons] at key
      have h1 : (Pc.select v : Pc X).measure = 2 := rfl
      have h2 : (Pc.recv : Pc X).measure = 1 := rfl
      simp only [FanInSt.measure]
      omega
  | deliver i u hi hpc hc hseen =>
      have key := sum_range_change
        (fun j => 2 * (s.rem j).length + (if s.cl j then 0 else 1) + (s.pc j).measure)
        (fun j => 2 * (s.rem j).length + (if s.cl j then 0 else 1)
          + (Function.update s.pc i Pc.recv j).measure) m i hi
        (fun j _ hji => by simp [Function.update_noteq hji])
      simp only [Function.update_same, hpc] at key
      have h1 : (Pc.select u : Pc X).measure = 2 := rfl
      have h2 : (Pc.recv : Pc X).measure = 1 := rfl
      simp only [FanInSt.measure]
      omega
  | srcClose i hi hrem hcl =>
      have key := sum_range_change
        (fun j => 2 * (s.rem j).length + (if s.cl j then 0 else 1) + (s.pc j).measure)
        (fun j => 2 * (s.rem j).length + (if Function.update s.cl i true j then 0 else 1)
          + (s.pc j).measure) m i hi
        (fun j _ hji => by simp [Function.update_noteq hji])
      simp only [Function.update_same, hcl] at key
      simp only [Bool.false_eq_true, if_false, if_true] at key
      simp only [FanInSt.measure]
      omega
  | fwdEnd i hi hpc hcl =>
      have key := sum_range_change
        (fun j => 2 * (s.rem j).length + (if s.cl j then 0 else 1) + (s.pc j).measure)
        (fun j => 2 * (s.rem j).length + (if s.cl j then 0 else 1)
          + (Function.update s.pc i Pc.exited j).measure) m i hi
        (fun j _ hji => by simp [Function.update_noteq hji])
      simp only [Function.update_same, hpc] at key
      have h1 : (Pc.exited : Pc X).measure = 0 := rfl
      have h2 : (Pc.recv : Pc X).measure = 1 := rfl
      simp only [FanInSt.measure]
      omega
  | wait hfin hwg =>
      simp only [FanInSt.measure, hfin]
      simp
  | sinkEnd hseen hc =>
      simp only [FanInSt.measure, hseen]
      simp

theorem sum_range_eq_zero (f : Nat → Nat) (n : Nat) (h : ((List.range n).map f).sum = 0)
    (i : Nat) (hi : i < n) : f i = 0 := by
  induction n with
  | zero => omega
  | succ n ih =>
      rw [List.range_succ, List.map_append, List.sum_append] at h
      simp only [List.map_cons, List.map_nil, List.sum_cons, List.sum_nil, add_zero] at h
      by_cases hin : i = n
      · subst hin; omega
      · exact ih (by omega) (by omega)

theorem Pc_live_eq_zero (p : Pc X) (h : p.live = 0) : p = Pc.exited := by
  cases p <;> simp [Pc.live] at h ⊢

/-- A fan-in system whose consumer has not yet seen the end of the merged stream can take a
step. -/
theorem FanInSt_progress (m : Nat) (inputs : Nat → List X) (s : FanInSt X)
    (hg : FanInSt.Good m inputs s) (hnf : ¬ s.seen = true) :
    ∃ e w1, (s.world m).step e = some w1 := by
  have hseen : s.seen = false := by simpa using hnf
  by_cases hall : ∀ i, i < m → s.pc i = Pc.exited
  · -- all forwarders returned: the counter is zero
    have hwg : s.wg = 0 := by
      rw [hg.counter, sum_range_congr (fun i => (s.pc i).live) (fun _ => 0) m
        (fun i hi => by simp [hall i hi, Pc.live]), sum_range_zero]
    cases hfin : s.fin
    · refine ⟨.tau (2 * m), ?_⟩
      have hw : (s.world m).wgs = [s.wg] := rfl
      simp only [World.step, FanInSt_world_task_closer, Goroutine.tau, hfin, hw, hwg]
      simp
    · have hco : s.cout = true := by rw [← hg.finClosed, hfin]
      refine ⟨.closedRecv (2 * m + 1), ?_⟩
      simp only [World.step, FanInSt_world_task_sink, Goroutine.recvChan, hseen,
        FanInSt_world_chan_out, hco]
      simp
  · simp only [not_forall] at hall
    obtain ⟨i, hi, hx⟩ := hall
    cases hpc : s.pc i with
    | exited => exact absurd hpc hx
    | select u =>
        have hco : s.cout = false := by
          cases hco : s.cout
          · rfl
          · have hfin : s.fin = true := by rw [hg.finClosed, hco]
            have hz := hg.finZero hfin
            rw [hg.counter] at hz
            have := Pc_live_eq_zero _ (sum_range_eq_zero (fun i => (s.pc i).live) m hz i hi)
            exact absurd this hx
        refine ⟨.comm (m + i) (2 * m + 1), ?_⟩
        simp only [World.step, FanInSt_world_task_stage m s i hi, FanInSt_world_task_sink,
          Goroutine.sendOffer, Goroutine.recvChan, hpc, hseen, FanInSt_world_chan_out, hco]
        simp
    | recv =>
        rcases hrem : s.rem i with _ | ⟨v, rest⟩
        · cases hcl : s.cl i
          · refine ⟨.tau i, ?_⟩
            simp only [World.step, FanInSt_world_task_source m s i hi, Goroutine.tau, hrem, hcl]
            simp
          · refine ⟨.closedRecv (m + i), ?_⟩
            simp only [World.step, FanInSt_world_task_stage m s i hi, Goroutine.recvChan, hpc,
              FanInSt_world_chan m s i hi, hcl]
            simp
        · have hcl : s.cl i = false := by
            cases hcl : s.cl i
            · rfl
            · have := hg.closedEmpty i hi hcl
              rw [hrem] at this
              cases this
          refine ⟨.comm i (m + i), ?_⟩
          simp only [World.step, FanInSt_world_task_source m s i hi,
            FanInSt_world_task_stage m s i hi, Goroutine.sendOffer, Goroutine.recvChan, hpc,
            hrem, hcl, FanInSt_world_chan m s i hi]
          simp

theorem range_map_getD {α β : Type} (l : List α) (d : α) (g : α → β) :
    (List.range l.length).map (fun i => g (l.getD i d)) = l.map g := by
  induction l with
  | nil => rfl
  | cons a l ih =>
      rw [List.length_cons, range_succ_map]
      simp only [List.getD_cons_zero, List.getD_cons_succ, List.map_cons]
      rw [ih]

theorem sources_foldl (inputs : List (List X)) (fan : Fan) (w : World X) :
    inputs.foldl sources.step (fan, w)
      = (fan ++ (List.range inputs.length).map fun i => w.chans.length + i,
         { w with
           chans := w.chans ++ (List.range inputs.length).map fun _ => ⟨false, []⟩
           tasks := w.tasks ++ (List.range inputs.length).map fun i =>
             Goroutine.source (w.chans.length + i) (inputs.getD i []) false }) := by
  induction inputs generalizing fan w with
  | nil => simp
  | cons vals rest ih =>
      rw [List.foldl_cons]
      have hstep : sources.step (fan, w) vals
          = (fan ++ [w.chans.length],
             { w with chans := w.chans ++ [⟨false, []⟩]
                      tasks := w.tasks ++ [Goroutine.source w.chans.length vals false] }) := rfl
      rw [hstep, ih]
      rw [List.length_cons, range_succ_map, range_succ_map, range_succ_map]
      simp only [List.length_append, List.length_singleton, List.append_assoc,
        List.singleton_append, Nat.add_zero, List.getD_cons_zero, List.getD_cons_succ]
      have e : ∀ i, w.chans.length + 1 + i = w.chans.length + (i + 1) := fun i => by omega
      simp only [e]

theorem foldl_go (fan : Fan) (g : Pipeline → Goroutine X) (w : World X) :
    fan.foldl (fun acc val => acc.go (g val)) w
      = { w with tasks := w.tasks ++ fan.map g } := by
  induction fan generalizing w with
  | nil => simp
  | cons c fan ih =>
      rw [List.foldl_cons, ih]
      simp [World.go]

theorem fanInSystem_eq (inputs : List (List X)) :
    fanInSystem inputs = (inputs.length, (FanInSt.init inputs).world inputs.length) := by
  simp only [fanInSystem, sources, Fan.FanIn]
  rw [sources_foldl, foldl_go]
  simp [World.newWaitGroup, World.makeChan, World.wgAdd, World.go, World.sink, World.empty,
    FanInSt.world, FanInSt.init, List.map_map, Function.comp_def]

theorem FanInSt_world_hist (m : Nat) (s : FanInSt X) (i : Nat) (hi : i < m) :
    (s.world m).hist i = s.h i := by
  simp [World.hist, FanInSt_world_chan m s i hi]

theorem FanInSt_world_isClosed (m : Nat) (s : FanInSt X) (i : Nat) (hi : i < m) :
    (s.world m).isClosed i = s.cl i := by
  simp [World.isClosed, FanInSt_world_chan m s i hi]

theorem FanInSt_world_hist_out (m : Nat) (s : FanInSt X) :
    (s.world m).hist m = s.hout := by
  simp [World.hist, FanInSt_world_chan_out]

theorem FanInSt_world_isClosed_out (m : Nat) (s : FanInSt X) :
    (s.world m).isClosed m = s.cout := by
  simp [World.isClosed, FanInSt_world_chan_out]

theorem FanInSt_measure_init (inputs : List (List X)) :
    FanInSt.measure inputs.length (FanInSt.init inputs)
      = 2 * (inputs.map List.length).sum + 2 * inputs.length + 2 := by
  simp only [FanInSt.measure, FanInSt.init, Pc.measure]
  have h1 : ((List.range inputs.length).map fun i =>
      2 * (inputs.getD i []).length + (if false = true then 0 else 1) + 1).sum
      = 2 * (inputs.map List.length).sum + 2 * inputs.length := by
    induction inputs with
    | nil => rfl
    | cons a l ih =>
        rw [List.length_cons, range_succ_map]
        simp only [List.getD_cons_zero, List.getD_cons_succ, List.map_cons, List.sum_cons]
        rw [ih]
        simp
        omega
  rw [h1]
  simp

/-- In a fan-in system whose merged stream is closed every input stream was closed and
forwarded completely, and the merged stream is an interleaving of the inputs. -/
theorem FanInSt_closed_merged (m : Nat) (inputs : Nat → List X) (s : FanInSt X)
    (hg : FanInSt.Good m inputs s) (hc : s.cout = true) :
    Interleaving m inputs s.hout ∧ ∀ i, i < m → s.cl i = true ∧ s.h i = inputs i := by
  have hfin : s.fin = true := by rw [hg.finClosed, hc]
  have hz := hg.finZero hfin
  rw [hg.counter] at hz
  have hx : ∀ i, i < m → s.pc i = Pc.exited := fun i hi =>
    Pc_live_eq_zero _ (sum_range_eq_zero (fun i => (s.pc i).live) m hz i hi)
  have hcl : ∀ i, i < m → s.cl i = true := fun i hi => hg.exitedLate i hi (hx i hi)
  have hh : ∀ i, i < m → s.h i = inputs i := fun i hi => by
    have := hg.split i hi
    rw [hg.closedEmpty i hi (hcl i hi), List.append_nil] at this
    exact this
  obtain ⟨fwd, hf, hint⟩ := hg.merged
  refine ⟨Interleaving_congr m fwd inputs s.hout hint ?_, fun i hi => ⟨hcl i hi, hh i hi⟩⟩
  intro i hi
  have := hf i hi
  rw [hx i hi] at this
  simp only [Pc.held, List.append_nil] at this
  rw [← this, hh i hi]

theorem FanInSt_sys_step (m : Nat) (inputs : Nat → List X) (s : FanInSt X) (e : Event)
    (w1 : World X) (hp : FanInSt.Good m inputs s) (h : (s.world m).step e = some w1) :
    ∃ s1, w1 = FanInSt.world m s1 ∧ FanInSt.Good m inputs s1
      ∧ FanInSt.measure m s1 < FanInSt.measure m s := by
  obtain ⟨s1, hw, hr⟩ := FanInSt_step_rel m s e w1 h
  exact ⟨s1, hw, FanInSt_Good_step m inputs s s1 hp hr, FanInSt_measure_step m s s1 hr⟩

/-- Every schedule of a fan-in system leads to a state of the system in which the invariant
holds. -/
theorem FanInSt_exec_good (inputs : List (List X)) (choices : List Nat) :
    ∃ s1, (fanInSystem inputs).2.exec choices = FanInSt.world inputs.length s1
      ∧ FanInSt.Good inputs.length (fun i => inputs.getD i []) s1 := by
  rw [fanInSystem_eq]
  exact World_exec_abs_inv (FanInSt.world inputs.length)
    (fun s => FanInSt.Good inputs.length (fun i => inputs.getD i []) s)
    (fun s e w1 hp h => by
      obtain ⟨s1, hw, hp1, _⟩ := FanInSt_sys_step _ _ s e w1 hp h
      exact ⟨s1, hw, hp1⟩)
    choices (FanInSt.init inputs) (FanInSt_Good_init inputs)

/-- Every schedule of a fan-in system that is long enough ends with the merged stream closed. -/
theorem FanInSt_exec_final (inputs : List (List X)) (choices : List Nat)
    (hlen : 2 * (inputs.map List.length).sum + 2 * inputs.length + 2 ≤ choices.length) :
    ((fanInSystem inputs).2.exec choices).isClosed (fanInSystem inputs).1 = true := by
  rw [fanInSystem_eq]
  obtain ⟨s1, hw, hp, hfin⟩ := World_exec_abs_final (FanInSt.world inputs.length)
    (fun s => FanInSt.Good inputs.length (fun i => inputs.getD i []) s)
    (fun s => s.seen = true)
    (FanInSt.measure inputs.length)
    (fun s e w1 hp h => FanInSt_sys_step _ _ s e w1 hp h)
    (fun s hp hnf => FanInSt_progress _ _ s hp hnf)
    choices (FanInSt.init inputs) (FanInSt_Good_init inputs)
    (by rw [FanInSt_measure_init]; exact hlen)
  simp only
  rw [hw, FanInSt_world_isClosed_out]
  exact hp.seenClosed hfin

/-! ## Collect systems -/

/-- The goroutines of a collect world, by position. -/
theorem CollSt_world_task (num : Int) (s : CollSt X) (t : Nat) (g : Goroutine X)
    (h : (s.world num).tasks[t]? = some g) :
    (t = 0 ∧ g = .source 0 s.rem s.cl) ∨
    (t = 1 ∧ g = .collect 0 num s.i s.result s.cancelled) ∨
    (∃ b, t = 2 ∧ s.canc = some b ∧ g = .canceller b) := by
  simp only [CollSt.world] at h
  rcases t with _ | _ | _ | t
  · left; simpa using h.symm
  · right; left; simpa using h.symm
  · right; right
    rcases hc : s.canc with _ | b
    · simp [hc] at h
    · simp [hc] at h
      exact ⟨b, rfl, rfl, h.symm⟩
  · rcases hc : s.canc with _ | b <;> simp [hc] at h

theorem CollSt_step_rel (num : Int) (s : CollSt X) (e : Event) (w1 : World X)
    (h : (s.world num).step e = some w1) :
    ∃ s1, w1 = CollSt.world num s1 ∧ CollSt.Rel num s s1 := by
  cases e with
  | comm a b =>
      simp only [World.step] at h
      rcases ha : (s.world num).tasks[a]? with _ | ta
      · simp [ha] at h
      rcases hb : (s.world num).tasks[b]? with _ | tb
      · simp [ha, hb] at h
      simp only [ha, hb] at h
      rcases CollSt_world_task num s a ta ha with ⟨rfl, rfl⟩ | ⟨rfl, rfl⟩ | ⟨b0, rfl, hc, rfl⟩
      · rcases hrem : s.rem with _ | ⟨v, rest⟩
        · simp [Goroutine.sendOffer, hrem] at h
        cases hcl : s.cl
        swap
        · simp [Goroutine.sendOffer, hrem, hcl] at h
        rcases CollSt_world_task num s b tb hb with ⟨rfl, rfl⟩ | ⟨rfl, rfl⟩ | ⟨b0, rfl, hc, rfl⟩
        · simp [Goroutine.sendOffer, Goroutine.recvChan, hrem, hcl] at h
        · cases hcan : s.cancelled
          swap
          · simp [Goroutine.sendOffer, Goroutine.recvChan, hrem, hcl, hcan] at h
          by_cases hi : s.i < num
          swap
          · simp [Goroutine.sendOffer, Goroutine.recvChan, hrem, hcl, hcan, hi] at h
          have hch : (s.world num).chans[0]? = some ⟨s.cl, s.h0⟩ := rfl
          simp only [Goroutine.sendOffer, Goroutine.recvChan, hrem, hcl, hcan, hi, hch,
            if_true, Option.some.injEq] at h
          subst h
          refine ⟨_, ?_, CollSt.Rel.recv s v rest hrem hcl hcan hi⟩
          simp [CollSt.world, Goroutine.onSent, Goroutine.onRecv, hcl, hcan]
        · simp [Goroutine.sendOffer, Goroutine.recvChan, hrem, hcl] at h
      · simp [Goroutine.sendOffer] at h
      · simp [Goroutine.sendOffer] at h
  | closedRecv b =>
      simp only [World.step] at h
      rcases hb : (s.world num).tasks[b]? with _ | tb
      · simp [hb] at h
      simp only [hb] at h
      rcases CollSt_world_task num s b tb hb with ⟨rfl, rfl⟩ | ⟨rfl, rfl⟩ | ⟨b0, rfl, hc, rfl⟩
      · simp [Goroutine.recvChan] at h
      · cases hcan : s.cancelled
        swap
        · simp [Goroutine.recvChan, hcan] at h
        by_cases hi : s.i < num
        swap
        · simp [Goroutine.recvChan, hcan, hi] at h
        have hch : (s.world num).chans[0]? = some ⟨s.cl, s.h0⟩ := rfl
        cases hcl : s.cl
        · simp [Goroutine.recvChan, hcan, hi, hch, hcl] at h
        simp only [Goroutine.recvChan, hcan, hi, hch, hcl, if_true, Option.some.injEq] at h
        subst h
        refine ⟨_, ?_, CollSt.Rel.recvClosed s hcl hcan hi⟩
        simp [CollSt.world, Goroutine.onClosed, World.apply, World.setTask, hcan]
      · simp [Goroutine.recvChan] at h
  | doneCase b =>
      simp only [World.step] at h
      rcases hb : (s.world num).tasks[b]? with _ | tb
      · simp [hb] at h
      simp only [hb] at h
      rcases CollSt_world_task num s b tb hb with ⟨rfl, rfl⟩ | ⟨rfl, rfl⟩ | ⟨b0, rfl, hc, rfl⟩
      · simp [Goroutine.inSelect] at h
      · have hd : (s.world num).done = s.done := rfl
        cases hcan : s.cancelled
        swap
        · simp [Goroutine.inSelect, hcan] at h
        by_cases hi : s.i < num
        swap
        · simp [Goroutine.inSelect, hcan, hi] at h
        cases hdone : s.done
        · simp [Goroutine.inSelect, hcan, hi, hd, hdone] at h
        simp only [Goroutine.inSelect, hcan, hi, hd, hdone, decide_True, and_self, if_true,
          Option.some.injEq] at h
        subst h
        refine ⟨_, ?_, CollSt.Rel.cancel s hdone hcan hi⟩
        simp [CollSt.world, Goroutine.onDone, World.apply, World.setTask]
      · simp [Goroutine.inSelect] at h
  | tau b =>
      simp only [World.step] at h
      rcases hb : (s.world num).tasks[b]? with _ | tb
      · simp [hb] at h
      simp only [hb] at h
      rcases CollSt_world_task num s b tb hb with ⟨rfl, rfl⟩ | ⟨rfl, rfl⟩ | ⟨b0, rfl, hc, rfl⟩
      · rcases hrem : s.rem with _ | ⟨v, rest⟩
        swap
        · simp [Goroutine.tau, hrem] at h
        cases hcl : s.cl
        swap
        · simp [Goroutine.tau, hrem, hcl] at h
        simp only [Goroutine.tau, hrem, hcl, Option.some.injEq] at h
        subst h
        refine ⟨_, ?_, CollSt.Rel.srcClose s hrem hcl⟩
        simp [CollSt.world, World.apply, World.setTask, hrem]
      · simp [Goroutine.tau] at h
      · cases b0
        swap
        · simp [Goroutine.tau] at h
        simp only [Goroutine.tau, Option.some.injEq] at h
        subst h
        refine ⟨_, ?_, CollSt.Rel.fire s hc⟩
        simp [CollSt.world, World.apply, World.setTask, hc]

theorem CollSt_Good_init (num : Int) (input : List X) (cancel : Bool) :
    CollSt.Good num input (CollSt.init input cancel) := by
  refine ⟨by simp [CollSt.init], by simp [CollSt.init], by simp [CollSt.init],
    by simp [CollSt.init], ⟨0, by simp [CollSt.init], by simp⟩, by simp [CollSt.init],
    by simp [CollSt.init]⟩

theorem CollSt_Good_step (num : Int) (input : List X) (s s1 : CollSt X)
    (hg : CollSt.Good num input s) (hr : CollSt.Rel num s s1) : CollSt.Good num input s1 := by
  obtain ⟨g1, g2, g3, g4, ⟨pad, g5, g5b⟩, g6, g7⟩ := hg
  cases hr with
  | recv v rest hrem hcl hc hi =>
      refine ⟨by simp [← g1, hrem], by simp [hcl], ?_, ?_, ⟨0, ?_, by simp⟩, g6, g7⟩
      · simp only [List.length_append, List.length_singleton, Nat.cast_add, Nat.cast_one]
        omega
      · simp only
        omega
      · have hp : pad = 0 := by
          by_contra hne
          have := g5b (by omega)
          rw [hcl] at this
          cases this
        subst hp
        simp only [List.replicate_zero, List.append_nil] at g5
        simp [g5]
  | srcClose hrem hcl =>
      exact ⟨g1, fun _ => hrem, g3, g4, ⟨pad, g5, fun _ => rfl⟩, g6, g7⟩
  | recvClosed hcl hc hi =>
      refine ⟨g1, g2, ?_, ?_, ⟨pad + 1, ?_, fun _ => hcl⟩, g6, g7⟩
      · simp only [List.length_append, List.length_singleton, Nat.cast_add, Nat.cast_one]
        omega
      · simp only
        omega
      · simp only
        rw [g5, List.replicate_succ', List.append_assoc]
  | cancel hdone hc hi =>
      exact ⟨g1, g2, g3, g4, ⟨pad, g5, g5b⟩, fun _ => hdone, g7⟩
  | fire hcanc =>
      exact ⟨g1, g2, g3, g4, ⟨pad, g5, g5b⟩, fun _ => rfl, fun h => by simp at h⟩

theorem CollSt_Rel_canc_none (num : Int) (s s1 : CollSt X) (hr : CollSt.Rel num s s1)
    (h : s.canc = Option.none) : s1.canc = Option.none := by
  cases hr <;> simp_all

theorem CollSt_measure_step (num : Int) (s s1 : CollSt X) (hr : CollSt.Rel num s s1) :
    CollSt.measure num s1 < CollSt.measure num s := by
  cases hr with
  | recv v rest hrem hcl hc hi =>
      simp only [CollSt.measure, hrem, List.length_cons]
      omega
  | srcClose hrem hcl =>
      simp only [CollSt.measure, hcl]
      simp
  | recvClosed hcl hc hi =>
      simp only [CollSt.measure]
      omega
  | cancel hdone hc hi =>
      simp only [CollSt.measure, hc]
      simp
  | fire hcanc =>
      simp only [CollSt.measure, hcanc]
      simp

/-- A collect system whose `Collect` has not returned can take a step. -/
theorem CollSt_progress (num : Int) (input : List X) (s : CollSt X)
    (hg : CollSt.Good num input s) (hnf : ¬ (s.cancelled = true ∨ num ≤ s.i)) :
    ∃ e w1, (s.world num).step e = some w1 := by
  simp only [not_or, not_le] at hnf
  obtain ⟨hcan, hi⟩ := hnf
  have hcan : s.cancelled = false := by simpa using hcan
  have ht0 : (s.world num).tasks[0]? = some (.source 0 s.rem s.cl) := by
    simp [CollSt.world]
  have ht1 : (s.world num).tasks[1]? = some (.collect 0 num s.i s.result s.cancelled) := by
    simp [CollSt.world]
  have hch : (s.world num).chans[0]? = some ⟨s.cl, s.h0⟩ := by
    simp [CollSt.world]
  rcases hrem : s.rem with _ | ⟨v, rest⟩
  · cases hcl : s.cl
    · refine ⟨.tau 0, ?_⟩
      simp only [World.step, ht0, Goroutine.tau, hrem, hcl]
      simp
    · refine ⟨.closedRecv 1, ?_⟩
      simp only [World.step, ht1, Goroutine.recvChan, hcan, hi, if_true]
      rw [hch, hcl]
      exact ⟨_, rfl⟩
  · have hcl : s.cl = false := by
      cases hcl : s.cl
      · rfl
      · have := hg.closedEmpty hcl
        rw [hrem] at this
        cases this
    refine ⟨.comm 0 1, ?_⟩
    simp only [World.step, ht0, ht1, Goroutine.sendOffer, Goroutine.recvChan, hrem, hcl, hcan,
      hi, if_true]
    rw [hch, hcl]
    exact ⟨_, rfl⟩

theorem collectSystem_eq (input : List X) (num : Int) (cancel : Bool) :
    collectSystem input num cancel = (1, (CollSt.init input cancel).world num) := by
  cases cancel <;> rfl

theorem CollSt_world_collected (num : Int) (s : CollSt X) :
    (s.world num).collected 1 = if s.cancelled = true ∨ num ≤ s.i then some s.result
      else Option.none := by
  simp [World.collected, CollSt.world, Goroutine.returned]

theorem CollSt_world_collecting (num : Int) (s : CollSt X) :
    (s.world num).collecting 1 = some s.result := by
  simp [World.collecting, CollSt.world]

/-- What `Collect` returns when the loop ran to its end without cancellation: the first
`num` values of the stream, and zero values for what the stream lacks. -/
theorem CollSt_result_full (num : Int) (input : List X) (s : CollSt X)
    (hg : CollSt.Good num input s) (hfull : num ≤ s.i) :
    s.result = input.take num.toNat ++ List.replicate (num.toNat - input.length) default := by
  obtain ⟨g1, g2, g3, g4, ⟨pad, g5, g5b⟩, g6, g7⟩ := hg
  have hlen : s.result.length = num.toNat := by omega
  have hl2 : s.h0.length + pad = num.toNat := by
    rw [← hlen, g5]; simp
  by_cases hp : pad = 0
  · subst hp
    have h1 : s.h0.length ≤ input.length := by rw [← g1]; simp
    have h2 : num.toNat - input.length = 0 := by omega
    rw [h2, g5]
    simp only [List.replicate_zero, List.append_nil]
    rw [← g1, List.take_append_of_le_length (by omega), List.take_of_length_le (by omega)]
  · have hcl := g5b (by omega)
    have hrem := g2 hcl
    rw [hrem, List.append_nil] at g1
    subst g1
    rw [List.take_of_length_le (by omega), g5]
    congr 2
    omega

/-! ## Pipe and Filter (C2, C3, C10) -/

/-- C2: `Pipe` between a producer of `input` (N values, then closed) and a consumer, the
cancellation signal never firing.  Under every schedule the output stream is closed only once
it has carried exactly `[fn v | v in input]` in order, and every schedule of at least
`2 * N + 3` steps ends with the output stream closed after exactly these N items. -/
theorem pipe_output_exact (input : List X) (fn : X → X) (choices : List Nat) :
    (((pipeSystem input fn false).2.exec choices).isClosed (pipeSystem input fn false).1 = true →
      ((pipeSystem input fn false).2.exec choices).hist (pipeSystem input fn false).1
        = input.map fn) ∧
    (2 * input.length + 3 ≤ choices.length →
      ((pipeSystem input fn false).2.exec choices).isClosed (pipeSystem input fn false).1 = true ∧
      ((pipeSystem input fn false).2.exec choices).hist (pipeSystem input fn false).1
        = input.map fn ∧
      (((pipeSystem input fn false).2.exec choices).hist (pipeSystem input fn false).1).length
        = input.length) := by
  rw [pipeSystem_eq]
  simp only
  have hk : ∀ out, (Kind.pipe fn).exit out = Effect.close out := fun _ => rfl
  refine ⟨fun hc => ?_, fun hlen => ?_⟩
  · rw [FanSt_single_closed _ hk input choices hc, Kind_filterMap_pipe]
  · have hc := FanSt_single_final _ hk input choices hlen
    have hh := FanSt_single_closed _ hk input choices hc
    rw [Kind_filterMap_pipe] at hh
    exact ⟨hc, hh, by rw [hh, List.length_map]⟩

/-- Witness for C2: piping `[1, 2]` through `(· + 1)` under the schedule that always takes the
first possible step. -/
theorem pipe_output_exact_witness :
    ((pipeSystem [(1 : Int), 2] (· + 1) false).2.exec (List.replicate 7 0)).isClosed
        (pipeSystem [(1 : Int), 2] (· + 1) false).1 = true ∧
      ((pipeSystem [(1 : Int), 2] (· + 1) false).2.exec (List.replicate 7 0)).hist
        (pipeSystem [(1 : Int), 2] (· + 1) false).1 = [(1 : Int), 2].map (· + 1) ∧
      (((pipeSystem [(1 : Int), 2] (· + 1) false).2.exec (List.replicate 7 0)).hist
        (pipeSystem [(1 : Int), 2] (· + 1) false).1).length = [(1 : Int), 2].length :=
  (pipe_output_exact [(1 : Int), 2] (· + 1) (List.replicate 7 0)).2 (by decide)

/-- C3: `Filter` between a producer of `input` (N values, then closed) and a consumer, the
cancellation signal never firing.  Under every schedule the output stream is closed only once
it has carried exactly the values of `input` that satisfy `fn`, in their order, and every
schedule of at least `2 * N + 3` steps ends with the output stream closed after these at most
N items; so `[1, 2, 3, 4, 5]` filtered by evenness gives `[2, 4]`. -/
theorem filter_output_exact (input : List X) (fn : X → Bool) (choices : List Nat) :
    ((((filterSystem input fn false).2.exec choices).isClosed (filterSystem input fn false).1
        = true →
      ((filterSystem input fn false).2.exec choices).hist (filterSystem input fn false).1
        = input.filter fn) ∧
    (2 * input.length + 3 ≤ choices.length →
      ((filterSystem input fn false).2.exec choices).isClosed (filterSystem input fn false).1
        = true ∧
      ((filterSystem input fn false).2.exec choices).hist (filterSystem input fn false).1
        = input.filter fn ∧
      (((filterSystem input fn false).2.exec choices).hist (filterSystem input fn false).1).length
        ≤ input.length)) ∧
    (13 ≤ choices.length →
      ((filterSystem [(1 : Int), 2, 3, 4, 5] (fun v => v % 2 == 0) false).2.exec choices).hist
        (filterSystem [(1 : Int), 2, 3, 4, 5] (fun v => v % 2 == 0) false).1 = [2, 4]) := by
  have main : ∀ (Y : Type) [Inhabited Y] (inp : List Y) (p : Y → Bool),
      ((((filterSystem inp p false).2.exec choices).isClosed (filterSystem inp p false).1
          = true →
        ((filterSystem inp p false).2.exec choices).hist (filterSystem inp p false).1
          = inp.filter p) ∧
      (2 * inp.length + 3 ≤ choices.length →
        ((filterSystem inp p false).2.exec choices).isClosed (filterSystem inp p false).1
          = true ∧
        ((filterSystem inp p false).2.exec choices).hist (filterSystem inp p false).1
          = inp.filter p ∧
        (((filterSystem inp p false).2.exec choices).hist (filterSystem inp p false).1).length
          ≤ inp.length)) := by
    intro Y _ inp p
    rw [filterSystem_eq]
    simp only
    have hk : ∀ out, (Kind.filter p).exit out = Effect.close out := fun _ => rfl
    refine ⟨fun hc => ?_, fun hlen => ?_⟩
    · rw [FanSt_single_closed _ hk inp choices hc, Kind_filterMap_filter]
    · have hc := FanSt_single_final _ hk inp choices hlen
      have hh := FanSt_single_closed _ hk inp choices hc
      rw [Kind_filterMap_filter] at hh
      exact ⟨hc, hh, by rw [hh]; exact List.length_filter_le _ _⟩
  refine ⟨main X input fn, fun hlen => ?_⟩
  have := ((main Int [(1 : Int), 2, 3, 4, 5] (fun v => v % 2 == 0)).2 (by simpa using hlen)).2.1
  rw [this]
  decide

/-- Witness for C3: filtering `[1, 2, 3]` by evenness under the schedule that always takes the
first possible step. -/
theorem filter_output_exact_witness :
    ((filterSystem [(1 : Int), 2, 3] (fun v => v % 2 == 0) false).2.exec
        (List.replicate 13 0)).isClosed
        (filterSystem [(1 : Int), 2, 3] (fun v => v % 2 == 0) false).1 = true ∧
      ((filterSystem [(1 : Int), 2, 3] (fun v => v % 2 == 0) false).2.exec
        (List.replicate 13 0)).hist
        (filterSystem [(1 : Int), 2, 3] (fun v => v % 2 == 0) false).1
          = [(1 : Int), 2, 3].filter (fun v => v % 2 == 0) ∧
      (((filterSystem [(1 : Int), 2, 3] (fun v => v % 2 == 0) false).2.exec
        (List.replicate 13 0)).hist
        (filterSystem [(1 : Int), 2, 3] (fun v => v % 2 == 0) false).1).length
          ≤ [(1 : Int), 2, 3].length :=
  (filter_output_exact [(1 : Int), 2, 3] (fun v => v % 2 == 0) (List.replicate 13 0)).1.2
    (by decide)

/-- C10: for every input, transform or predicate, and every schedule, whether the cancellation
signal can fire (`cancel = true`, at any moment the scheduler picks) or not, the values
delivered on the output of `Pipe` are an initial segment of `[fn v | v in input]`, and those
delivered on the output of `Filter` an initial segment of the values of `input` satisfying the
predicate: nothing is duplicated, fabricated or reordered. -/
theorem stage_output_initial_segment (input : List X) (fn : X → X) (p : X → Bool)
    (cancel : Bool) (choices : List Nat) :
    ((pipeSystem input fn cancel).2.exec choices).hist (pipeSystem input fn cancel).1
        <+: input.map fn ∧
    ((filterSystem input p cancel).2.exec choices).hist (filterSystem input p cancel).1
        <+: input.filter p := by
  rw [pipeSystem_eq, filterSystem_eq]
  simp only
  constructor
  · have := FanSt_single_prefix (Kind.pipe fn) (fun _ => rfl) input cancel choices
    rwa [Kind_filterMap_pipe] at this
  · have := FanSt_single_prefix (Kind.filter p) (fun _ => rfl) input cancel choices
    rwa [Kind_filterMap_filter] at this

/-! ## FanOut and FanIn (C5, C8) -/

theorem FanSt_fan_exec (n : Nat) (input : List X) (fn : X → X) (choices : List Nat) :
    ∃ s1, ((FanSt.init input false).world (.worker fn) n).exec choices
        = FanSt.world (.worker fn) n s1
      ∧ (FanSt.Good n input s1 ∧ FanSt.Conserved (.worker fn) n s1) ∧ s1.canc = Option.none :=
  World_exec_abs_inv (FanSt.world (.worker fn) n)
    (fun s => (FanSt.Good n input s ∧ FanSt.Conserved (.worker fn) n s) ∧ s.canc = Option.none)
    (fun s e w1 hp h => by
      obtain ⟨s1, hw, hp1, _⟩ := FanSt_fan_step (.worker fn) (fun _ => rfl) n input s e w1 hp h
      exact ⟨s1, hw, hp1⟩)
    choices (FanSt.init input false)
    ⟨⟨FanSt_Good_init n input false, FanSt_Conserved_init _ n input false⟩, rfl⟩

theorem FanSt_fan_exec_final (n : Nat) (input : List X) (fn : X → X) (choices : List Nat)
    (hlen : 2 * input.length + 2 * n + 1 ≤ choices.length) :
    ∃ s1, ((FanSt.init input false).world (.worker fn) n).exec choices
        = FanSt.world (.worker fn) n s1
      ∧ ((FanSt.Good n input s1 ∧ FanSt.Conserved (.worker fn) n s1) ∧ s1.canc = Option.none)
      ∧ ∀ i, i < n → s1.seen i = true :=
  World_exec_abs_final (FanSt.world (.worker fn) n)
    (fun s => (FanSt.Good n input s ∧ FanSt.Conserved (.worker fn) n s) ∧ s.canc = Option.none)
    (fun s => ∀ i, i < n → s.seen i = true)
    (FanSt.measure n)
    (fun s e w1 hp h => FanSt_fan_step (.worker fn) (fun _ => rfl) n input s e w1 hp h)
    (fun s hp hnf => FanSt_progress _ n input s hp.1.1 hnf)
    choices (FanSt.init input false)
    ⟨⟨FanSt_Good_init n input false, FanSt_Conserved_init _ n input false⟩, rfl⟩
    (by rw [FanSt_measure_init]; exact hlen)

theorem FanSt_world_hist_sum (k : Kind X) (n : Nat) (s : FanSt X) :
    (((List.range n).map fun i => i + 1).map fun c => ((s.world k n).hist c : Multiset X)).sum
      = ((List.range n).map fun i => (s.h i : Multiset X)).sum := by
  rw [List.map_map]
  apply sum_range_congr
  intro i hi
  simp [FanSt_world_hist k n s i hi]

theorem sources_fan (inputs : List (List X)) :
    (sources inputs (World.empty : World X)).1 = List.range inputs.length := by
  simp only [sources, sources_foldl, World.empty]
  simp

/-- C5: `FanIn` over the streams of `m` producers (stream `i` carries `inputs[i]` and is then
closed) with a consumer of the merged stream, the cancellation signal never firing.  Under
every schedule, once the merged stream is closed every input stream is closed and was taken
completely, and the merged stream is an interleaving of the inputs: every value of every
input exactly once, as many items as the inputs have together.  Every schedule of at least
`2 * (a + b + ...) + 2 * m + 2` steps ends with the merged stream closed. -/
theorem fanIn_merges_all (inputs : List (List X)) (choices : List Nat) :
    (((fanInSystem inputs).2.exec choices).isClosed (fanInSystem inputs).1 = true →
      Interleaving inputs.length (fun i => inputs.getD i [])
        (((fanInSystem inputs).2.exec choices).hist (fanInSystem inputs).1) ∧
      ((((fanInSystem inputs).2.exec choices).hist (fanInSystem inputs).1 : List X) : Multiset X)
        = (inputs.map fun (l : List X) => (l : Multiset X)).sum ∧
      (((fanInSystem inputs).2.exec choices).hist (fanInSystem inputs).1).length
        = (inputs.map List.length).sum ∧
      ∀ i, i < inputs.length →
        ((fanInSystem inputs).2.exec choices).isClosed
            ((sources inputs (World.empty : World X)).1.getD i 0) = true ∧
        ((fanInSystem inputs).2.exec choices).hist
            ((sources inputs (World.empty : World X)).1.getD i 0) = inputs.getD i []) ∧
    (2 * (inputs.map List.length).sum + 2 * inputs.length + 2 ≤ choices.length →
      ((fanInSystem inputs).2.exec choices).isClosed (fanInSystem inputs).1 = true) := by
  refine ⟨fun hc => ?_, fun hlen => FanInSt_exec_final inputs choices hlen⟩
  obtain ⟨s1, hw, hg⟩ := FanInSt_exec_good inputs choices
  rw [hw] at hc ⊢
  rw [fanInSystem_eq] at hc ⊢
  simp only at hc ⊢
  rw [FanInSt_world_isClosed_out] at hc
  rw [FanInSt_world_hist_out]
  obtain ⟨hint, hall⟩ := FanInSt_closed_merged _ _ s1 hg hc
  refine ⟨hint, ?_, ?_, ?_⟩
  · rw [Interleaving_multiset _ _ _ hint]
    exact congrArg List.sum (range_map_getD inputs [] fun (l : List X) => (l : Multiset X))
  · rw [Interleaving_length _ _ _ hint]
    exact congrArg List.sum (range_map_getD inputs [] List.length)
  · intro i hi
    have hsrc : (sources inputs (World.empty : World X)).1.getD i 0 = i := by
      rw [sources_fan]
      simp [List.getD, hi]
    rw [hsrc, FanInSt_world_isClosed _ s1 i hi, FanInSt_world_hist _ s1 i hi]
    exact hall i hi

/-- Witness for C5: three streams of lengths 2, 0 and 1 under the schedule that always takes
the first possible step: the merged stream is closed and has carried 3 items. -/
theorem fanIn_merges_all_witness :
    ((fanInSystem [[(1 : Int), 2], [], [3]]).2.exec (List.replicate 14 0)).isClosed
      (fanInSystem [[(1 : Int), 2], [], [3]]).1 = true ∧
    (((fanInSystem [[(1 : Int), 2], [], [3]]).2.exec (List.replicate 14 0)).hist
      (fanInSystem [[(1 : Int), 2], [], [3]]).1).length
        = ([[(1 : Int), 2], [], [3]].map List.length).sum :=
  have h := fanIn_merges_all [[(1 : Int), 2], [], [3]] (List.replicate 14 0)
  ⟨h.2 (by decide), (h.1 (h.2 (by decide))).2.2.1⟩

/-- C8: for every input stream, transform and worker count `n >= 0`, `FanOut` returns a group
of exactly `n` streams, all of them new and different, and starts exactly `n` workers, worker
`i` reading the input stream and writing stream `i` of the group; nothing else changes.  For
`n = 0` the group is empty and the world is unchanged: no worker, nothing taken from the
input. -/
theorem fanOut_group (pip : Pipeline) (fn : X → X) (n : Nat) (w : World X) :
    (Pipeline.FanOut pip n fn w).1.length = n ∧
    (Pipeline.FanOut pip n fn w).1 = (List.range n).map (fun i => w.chans.length + i) ∧
    (Pipeline.FanOut pip n fn w).2.tasks = w.tasks ++ (List.range n).map (fun i =>
      Goroutine.stage (.worker fn) pip ((Pipeline.FanOut pip n fn w).1.getD i 0) .recv) ∧
    (Pipeline.FanOut pip n fn w).2.chans
      = w.chans ++ (List.range n).map (fun _ => ⟨false, []⟩) ∧
    (Pipeline.FanOut pip n fn w).2.wgs = w.wgs ∧
    (Pipeline.FanOut pip n fn w).2.done = w.done ∧
    (Pipeline.FanOut pip (0 : Nat) fn w = ([], w)) := by
  have h : Pipeline.FanOut pip n fn w
      = ((List.range n).map (fun i => w.chans.length + i),
         { w with
           chans := w.chans ++ (List.range n).map fun _ => ⟨false, []⟩
           tasks := w.tasks ++ (List.range n).map fun i =>
             Goroutine.stage (.worker fn) pip (w.chans.length + i) .recv }) := by
    simp [Pipeline.FanOut, fanOut_loop_spec]
  rw [h]
  refine ⟨by simp, rfl, ?_, rfl, rfl, rfl, rfl⟩
  simp only
  congr 1
  apply List.map_congr_left
  intro i hi
  have hi := List.mem_range.mp hi
  simp [List.getD, hi]

/-! ## Pipe and Filter over a group (C9) -/

theorem Fan_each_acc (op : Pipeline → World X → Pipeline × World X) (l : Fan) (acc : Fan)
    (w : World X) :
    l.foldl (fun (acc : Fan × World X) pipe =>
        let (out, w1) := op pipe acc.2
        (acc.1 ++ [out], w1)) (acc, w)
      = (acc ++ (Fan.each op l w).1, (Fan.each op l w).2) := by
  induction l generalizing acc w with
  | nil => simp [Fan.each]
  | cons x l ih =>
      simp only [Fan.each, List.foldl_cons, List.nil_append]
      rw [ih (acc ++ [(op x w).1]) (op x w).2, ih [(op x w).1] (op x w).2]
      simp

theorem Fan_each_nil (op : Pipeline → World X → Pipeline × World X) (w : World X) :
    Fan.each op [] w = ([], w) := rfl

theorem Fan_each_cons (op : Pipeline → World X → Pipeline × World X) (x : Pipeline) (l : Fan)
    (w : World X) :
    Fan.each op (x :: l) w
      = ((op x w).1 :: (Fan.each op l (op x w).2).1, (Fan.each op l (op x w).2).2) := by
  simp only [Fan.each, List.foldl_cons, List.nil_append]
  rw [Fan_each_acc op l [(op x w).1] (op x w).2]
  rfl

theorem Fan_each_length (op : Pipeline → World X → Pipeline × World X) (l : Fan)
    (w : World X) : (Fan.each op l w).1.length = l.length := by
  induction l generalizing w with
  | nil => rfl
  | cons x l ih => simp [Fan_each_cons, ih]

/-- Element `i` of the result of the loop is what `op` returns on element `i` of the group,
called in the world left by the first `i` elements. -/
theorem Fan_each_get (op : Pipeline → World X → Pipeline × World X) (l : Fan) (w : World X)
    (i : Nat) (hi : i < l.length) :
    op (l.getD i 0) (Fan.each op (l.take i) w).2
      = ((Fan.each op l w).1.getD i 0, (Fan.each op (l.take (i + 1)) w).2) := by
  induction l generalizing w i with
  | nil => simp at hi
  | cons x l ih =>
      rcases i with _ | i
      · simp [Fan_each_cons, Fan_each_nil]
      · simp only [List.length_cons, Nat.add_lt_add_iff_right] at hi
        simp only [List.take_succ_cons, Fan_each_cons, List.getD_cons_succ]
        exact ih (op x w).2 i hi

theorem Fan_Pipe_eq_each (fan : Fan) (fn : X → X) (w : World X) :
    Fan.Pipe fan fn w = Fan.each (fun pipe w1 => Pipeline.Pipe pipe fn w1) fan w := rfl

theorem Fan_Filter_eq_each (fan : Fan) (fn : X → Bool) (w : World X) :
    Fan.Filter fan fn w = Fan.each (fun pipe w1 => Pipeline.Filter pipe fn w1) fan w := rfl

/-- C9: for every group, `_Fan.Pipe` and `_Fan.Filter` return a group of the same size whose
element `i` is exactly what `Pipeline.Pipe`, respectively `Pipeline.Filter`, returns on
element `i` of the input group (called after the first `i` elements were handled, and leading
to the world in which the first `i + 1` are); an empty group gives an empty group and changes
nothing. -/
theorem fan_pipe_filter_positional (fan : Fan) (fn : X → X) (p : X → Bool) (w : World X) :
    ((Fan.Pipe fan fn w).1.length = fan.length ∧
      (∀ i, i < fan.length →
        Pipeline.Pipe (fan.getD i 0) fn (Fan.Pipe (fan.take i) fn w).2
          = ((Fan.Pipe fan fn w).1.getD i 0, (Fan.Pipe (fan.take (i + 1)) fn w).2)) ∧
      Fan.Pipe ([] : Fan) fn w = ([], w)) ∧
    ((Fan.Filter fan p w).1.length = fan.length ∧
      (∀ i, i < fan.length →
        Pipeline.Filter (fan.getD i 0) p (Fan.Filter (fan.take i) p w).2
          = ((Fan.Filter fan p w).1.getD i 0, (Fan.Filter (fan.take (i + 1)) p w).2)) ∧
      Fan.Filter ([] : Fan) p w = ([], w)) := by
  simp only [Fan_Pipe_eq_each, Fan_Filter_eq_each]
  exact ⟨⟨Fan_each_length _ fan w, fun i hi => Fan_each_get _ fan w i hi, rfl⟩,
    ⟨Fan_each_length _ fan w, fun i hi => Fan_each_get _ fan w i hi, rfl⟩⟩

/-- Witness for C9: element 1 of a group of two streams. -/
theorem fan_pipe_filter_positional_witness :
    Pipeline.Pipe (([0, 1] : Fan).getD 1 0) (fun v : Int => v + 1)
        (Fan.Pipe (([0, 1] : Fan).take 1) (fun v : Int => v + 1) World.empty).2
      = ((Fan.Pipe ([0, 1] : Fan) (fun v : Int => v + 1) World.empty).1.getD 1 0,
         (Fan.Pipe (([0, 1] : Fan).take (1 + 1)) (fun v : Int => v + 1) World.empty).2) :=
  (fan_pipe_filter_positional ([0, 1] : Fan) (fun v : Int => v + 1) (fun _ => true)
    World.empty).1.2.1 1 (by decide)

/-! ## Collect and cancellation (C1, C6, C7) -/

/-- Every schedule of a collect system leads to a state of the system in which the invariant
holds. -/
theorem CollSt_exec_good (input : List X) (num : Int) (cancel : Bool) (choices : List Nat) :
    ∃ s1, (collectSystem input num cancel).2.exec choices = CollSt.world num s1
      ∧ CollSt.Good num input s1 ∧ (cancel = false → s1.canc = Option.none) := by
  rw [collectSystem_eq]
  obtain ⟨s1, hw, hg, hc⟩ := World_exec_abs_inv (CollSt.world num)
    (fun s => CollSt.Good num input s ∧ (cancel = false → s.canc = Option.none))
    (fun s e w1 hp h => by
      obtain ⟨s1, hw, hr⟩ := CollSt_step_rel num s e w1 h
      exact ⟨s1, hw, CollSt_Good_step num input s s1 hp.1 hr,
        fun hc => CollSt_Rel_canc_none num s s1 hr (hp.2 hc)⟩)
    choices (CollSt.init input cancel)
    ⟨CollSt_Good_init num input cancel, fun hc => by simp [CollSt.init, hc]⟩
  exact ⟨s1, hw, hg, hc⟩

/-- Without cancellation, every schedule of at least `L + num + 2` steps ends with `Collect`
returned, and what it returns has `num` items: the first values of the stream, then zero
values if the stream ended before. -/
theorem CollSt_exec_result (input : List X) (num : Int) (choices : List Nat)
    (hlen : input.length + num.toNat + 2 ≤ choices.length) :
    ((collectSystem input num false).2.exec choices).collected (collectSystem input num false).1
      = some (input.take num.toNat ++ List.replicate (num.toNat - input.length) default) := by
  rw [collectSystem_eq]
  obtain ⟨s1, hw, ⟨hg, hcanc⟩, hfin⟩ := World_exec_abs_final (CollSt.world num)
    (fun s => CollSt.Good num input s ∧ s.canc = Option.none)
    (fun s => s.cancelled = true ∨ num ≤ s.i)
    (CollSt.measure num)
    (fun s e w1 hp h => by
      obtain ⟨s1, hw, hr⟩ := CollSt_step_rel num s e w1 h
      exact ⟨s1, hw, ⟨CollSt_Good_step num input s s1 hp.1 hr,
        CollSt_Rel_canc_none num s s1 hr hp.2⟩, CollSt_measure_step num s s1 hr⟩)
    (fun s hp hnf => CollSt_progress num input s hp.1 hnf)
    choices (CollSt.init input false) ⟨CollSt_Good_init num input false, rfl⟩
    (by simp [CollSt.measure, CollSt.init]; omega)
  simp only
  rw [hw, CollSt_world_collected, if_pos hfin]
  have hd := hg.noCanc hcanc
  have hnc : s1.cancelled = false := by
    cases hc : s1.cancelled
    · rfl
    · have := hg.cancelDone hc
      rw [hd] at this
      cases this
  have hfull : num ≤ s1.i := by
    rcases hfin with h | h
    · rw [hnc] at h; cases h
    · exact h
  rw [CollSt_result_full num input s1 hg hfull]

/-- C1 (the code departs from the claim): `Collect(done, 3)` on a stream that carries
`[10, 20]` and is then closed, the cancellation signal never firing.  Under every schedule of
at least 7 steps `Collect` has returned, and it returns three items: `10`, `20` and the zero
value `nil` received from the closed stream, not the two items `[10, 20]`. -/
theorem collect_returns_zero_value (choices : List Nat) (hlen : 7 ≤ choices.length) :
    ((collectSystem [some (10 : Int), some 20] 3 false).2.exec choices).collected
        (collectSystem [some (10 : Int), some 20] 3 false).1
      = some [some 10, some 20, Option.none] := by
  rw [CollSt_exec_result [some (10 : Int), some 20] 3 choices (by simpa using hlen)]
  rfl

/-- Witness for C1 under the schedule that always takes the first possible step. -/
theorem collect_returns_zero_value_witness :
    ((collectSystem [some (10 : Int), some 20] 3 false).2.exec (List.replicate 7 0)).collected
        (collectSystem [some (10 : Int), some 20] 3 false).1
      = some [some 10, some 20, Option.none] :=
  collect_returns_zero_value (List.replicate 7 0) (by decide)

/-- Counterexample to C7 as stated: on the stream `[10, 20]` with count 2 the cancellation
signal fires when `Collect` has collected 0 items (first schedule), and from there the
`select` of `Collect` takes the two ready values one after the other, so `Collect` returns
`[10, 20]` and not the 0 items collected when cancellation fired. -/
theorem collect_after_cancel_counterexample :
    (((collectSystem [(10 : Int), 20] 2 true).2.run [Event.tau 2]).map
        fun w => (w.done, w.collecting 1, w.collected 1)) = some (true, some [], Option.none) ∧
    (((collectSystem [(10 : Int), 20] 2 true).2.run
        [Event.tau 2, Event.comm 0 1, Event.comm 0 1]).map
        fun w => (w.done, w.collected 1)) = some (true, some [10, 20]) := by
  decide

/-- Counterexample to C6 as stated: a `Filter` whose predicate rejects every value, on the
stream `[1, 2, 3]`.  The cancellation signal fires first; the filter then receives all three
values, and after these three receive attempts it has not returned and its output stream is
not closed. -/
theorem filter_ignores_cancel_counterexample :
    (((filterSystem [(1 : Int), 2, 3] (fun _ => false) true).2.run
        [Event.tau 3, Event.comm 0 1, Event.comm 0 1, Event.comm 0 1]).map
        fun w => (w.done, (w.tasks[1]?).map Goroutine.exited, w.isClosed 1))
      = some (true, some false, false) := by
  decide

theorem World_apply_tasks (w : World X) (eff : Effect) : (w.apply eff).tasks = w.tasks := by
  cases eff <;> rfl

theorem World_apply_hist (w : World X) (eff : Effect) (c : Chan) :
    (w.apply eff).hist c = w.hist c := by
  cases eff with
  | none => rfl
  | wgDone g => rfl
  | fire => rfl
  | close d =>
      simp only [World.apply, World.hist]
      by_cases hcd : d = c
      · subst hcd
        by_cases hlt : d < w.chans.length
        · rw [List.getElem?_set_self hlt]
          simp
        · have hle : w.chans.length ≤ d := Nat.le_of_not_lt hlt
          rw [List.set_eq_of_length_le hle]
      · simp [List.getElem?_set, hcd]

theorem World_apply_close_isClosed (w : World X) (c : Chan) (hc : c < w.chans.length) :
    (w.apply (.close c)).isClosed c = true := by
  simp [World.apply, World.isClosed, List.getElem?_set, hc]

/-- C6, as amended: in every world in which the cancellation signal has fired, a goroutine of
`Pipe`, `Filter`, `worker` or of `FanIn`'s `output` that waits in its `select` can take
`case <-done`, whatever its input still holds and whatever value it is sending; it then has
returned without handing over the value, and its deferred call has run: the output stream is
closed (Pipe, Filter, worker), respectively the wait group is counted down (FanIn).  A
goroutine that waits in its `range` receive cannot take `case <-done`. -/
theorem select_observes_cancel (w : World X) (t : Nat) (k : Kind X) (inp out : Chan)
    (pc : Pc X) (ht : w.tasks[t]? = some (.stage k inp out pc)) (hd : w.done = true) :
    (∀ v, pc = Pc.select v →
      ∃ w1, w.step (.doneCase t) = some w1 ∧
        w1.tasks[t]? = some (.stage k inp out .exited) ∧
        w1.hist out = w.hist out ∧
        (k.exit out = Effect.close out → out < w.chans.length → w1.isClosed out = true) ∧
        (∀ g, k.exit out = Effect.wgDone g → w1.wgs = w.wgs.set g (w.wgs.getD g 0 - 1))) ∧
    (pc = Pc.recv → w.step (.doneCase t) = Option.none) := by
  have hlt : t < w.tasks.length := (List.getElem?_eq_some_iff.mp ht).1
  constructor
  · intro v hv
    subst hv
    refine ⟨(w.setTask t (.stage k inp out .exited)).apply (k.exit out), ?_, ?_, ?_, ?_, ?_⟩
    · simp [World.step, ht, hd, Goroutine.inSelect, Goroutine.onDone]
    · rw [World_apply_tasks]
      simp [World.setTask, List.getElem?_set, hlt]
    · rw [World_apply_hist]
      rfl
    · intro hk hout
      rw [hk]
      exact World_apply_close_isClosed _ out hout
    · intro g hg
      rw [hg]
      rfl
  · intro hv
    subst hv
    simp [World.step, ht, Goroutine.inSelect]

/-- Witness for the amended C6: a `Pipe` goroutine holding the value 5 in its `select`, in a
world in which the cancellation signal has fired. -/
theorem select_observes_cancel_witness :
    ∃ w1, (⟨[⟨false, []⟩, ⟨false, []⟩], [], true,
        [.source 0 [7] false, .stage (.pipe fun v => v + 1) 0 1 (.select 5), .sink 1 false]⟩
          : World Int).step (.doneCase 1) = some w1 ∧
      w1.tasks[1]? = some (.stage (.pipe fun v => v + 1) 0 1 .exited) ∧
      w1.hist 1 = (⟨[⟨false, []⟩, ⟨false, []⟩], [], true,
        [.source 0 [7] false, .stage (.pipe fun v => v + 1) 0 1 (.select 5), .sink 1 false]⟩
          : World Int).hist 1 ∧
      w1.isClosed 1 = true :=
  have h := (select_observes_cancel (⟨[⟨false, []⟩, ⟨false, []⟩], [], true,
        [.source 0 [7] false, .stage (.pipe fun v => v + 1) 0 1 (.select 5), .sink 1 false]⟩
          : World Int) 1 (.pipe fun v => v + 1) 0 1 (.select 5) rfl rfl).1 5 rfl
  h.elim fun w1 hw => ⟨w1, hw.1, hw.2.1, hw.2.2.1, hw.2.2.2.1 rfl (by decide)⟩

/-- C7, as amended: `Collect(done, num)` on the stream of a producer of `input`, the
cancellation signal firing at any moment.  In every reachable state, with `r` the items
collected so far: `r` has at most `num` items and, up to the end of the stream, they are the
first values of the stream in order; if `Collect` has not returned and the signal has fired,
the `select` can take `case <-done`, and then `Collect` has returned exactly `r`; and while
the stream has handed over all its values and is not closed, no step adds anything to `r`. -/
theorem collect_cancel_returns (input : List X) (num : Int) (choices : List Nat) (r : List X)
    (hr : ((collectSystem input num true).2.exec choices).collecting
      (collectSystem input num true).1 = some r) :
    r.take input.length = input.take r.length ∧
    (r.length : Int) ≤ max num 0 ∧
    (((collectSystem input num true).2.exec choices).collected
        (collectSystem input num true).1 = Option.none →
      ((collectSystem input num true).2.exec choices).done = true →
      ∃ w1, ((collectSystem input num true).2.exec choices).step
          (.doneCase (collectSystem input num true).1) = some w1 ∧
        w1.collected (collectSystem input num true).1 = some r) ∧
    (((collectSystem input num true).2.exec choices).hist
        ((World.empty : World X).source input).1 = input →
      ((collectSystem input num true).2.exec choices).isClosed
        ((World.empty : World X).source input).1 = false →
      ∀ e w1, ((collectSystem input num true).2.exec choices).step e = some w1 →
        w1.collecting (collectSystem input num true).1 = some r) := by
  obtain ⟨s1, hw, hg, _⟩ := CollSt_exec_good input num true choices
  rw [hw] at hr ⊢
  rw [collectSystem_eq] at hr ⊢
  simp only at hr ⊢
  rw [CollSt_world_collecting] at hr
  have hr : s1.result = r := by simpa using hr
  subst hr
  have hg0 := hg
  obtain ⟨g1, g2, g3, g4, ⟨pad, g5, g5b⟩, g6, g7⟩ := hg
  refine ⟨?_, by omega, ?_, ?_⟩
  · by_cases hp : pad = 0
    · subst hp
      simp only [List.replicate_zero, List.append_nil] at g5
      have h1 : s1.h0.length ≤ input.length := by rw [← g1]; simp
      rw [g5, List.take_of_length_le h1, ← g1, List.take_left']
      rfl
    · have hcl := g5b (by omega)
      have hrem := g2 hcl
      rw [hrem, List.append_nil] at g1
      subst g1
      rw [g5, List.take_left', List.take_of_length_le (by simp)]
      rfl
  · intro hnone hdone
    rw [CollSt_world_collected] at hnone
    have hnot : ¬ (s1.cancelled = true ∨ num ≤ s1.i) := by
      intro h
      rw [if_pos h] at hnone
      cases hnone
    simp only [not_or, not_le] at hnot
    have hcan : s1.cancelled = false := by simpa using hnot.1
    have ht1 : (s1.world num).tasks[1]?
        = some (.collect 0 num s1.i s1.result s1.cancelled) := by
      simp [CollSt.world]
    refine ⟨((s1.world num).setTask 1 (.collect 0 num s1.i s1.result true)).apply .none, ?_, ?_⟩
    · simp [World.step, ht1, hdone, Goroutine.inSelect, Goroutine.onDone, hcan, hnot.2]
    · simp [World.collected, World.apply, World.setTask, CollSt.world, Goroutine.returned]
  · intro hh hc e w1 hstep
    have hh0 : s1.h0 = input := by
      simpa [World.hist, World.source, World.makeChan, World.empty, CollSt.world] using hh
    have hcl : s1.cl = false := by
      simpa [World.isClosed, World.source, World.makeChan, World.empty, CollSt.world] using hc
    have hrem : s1.rem = [] := by
      have := g1
      rw [hh0] at this
      exact List.append_right_eq_self.mp this
    obtain ⟨s2, hw2, hrel⟩ := CollSt_step_rel num s1 e w1 hstep
    rw [hw2, CollSt_world_collecting]
    cases hrel with
    | recv v rest hrem2 _ _ _ => rw [hrem] at hrem2; cases hrem2
    | srcClose _ _ => rfl
    | recvClosed hcl2 _ _ => rw [hcl] at hcl2; cases hcl2
    | cancel _ _ _ => rfl
    | fire _ => rfl

/-- Witness for the amended C7: `Collect(done, 2)` on `[10, 20]` under the schedule that first
hands over `10` and then fires the cancellation signal.  One item is collected, the signal
has fired and `Collect` has not returned; its `select` can take `case <-done`, and then
`Collect` has returned exactly `[10]`. -/
theorem collect_cancel_returns_witness :
    ((collectSystem [(10 : Int), 20] 2 true).2.exec [0, 1]).collecting
        (collectSystem [(10 : Int), 20] 2 true).1 = some [10] ∧
    ((collectSystem [(10 : Int), 20] 2 true).2.exec [0, 1]).done = true ∧
    ((collectSystem [(10 : Int), 20] 2 true).2.exec [0, 1]).collected
        (collectSystem [(10 : Int), 20] 2 true).1 = Option.none ∧
    ([(10 : Int)].take [(10 : Int), 20].length = [(10 : Int), 20].take [(10 : Int)].length) ∧
    ∃ w1, ((collectSystem [(10 : Int), 20] 2 true).2.exec [0, 1]).step
        (.doneCase (collectSystem [(10 : Int), 20] 2 true).1) = some w1 ∧
      w1.collected (collectSystem [(10 : Int), 20] 2 true).1 = some [10] :=
  have h := collect_cancel_returns [(10 : Int), 20] 2 [0, 1] [10] (by decide)
  ⟨by decide, by decide, by decide, h.1, h.2.2.1 (by decide) (by decide)⟩

/-! ## Fan systems: FanOut followed by FanIn -/

/-- The goroutines of a `Fan` world, by position. -/
theorem FanCompSt_world_task (fn : X → X) (n : Nat) (s : FanCompSt X) (t : Nat)
    (g : Goroutine X) (h : (s.world fn n).tasks[t]? = some g) :
    (t = 0 ∧ g = .source 0 s.rem s.cl) ∨
    (∃ i, i < n ∧ t = i + 1 ∧ g = .stage (.worker fn) 0 (i + 1) (s.pcw i)) ∨
    (∃ i, i < n ∧ t = n + 1 + i ∧ g = .stage (.output 0) (i + 1) (n + 1) (s.pcf i)) ∨
    (t = 2 * n + 1 ∧ g = .closer 0 (n + 1) s.fin) ∨
    (t = 2 * n + 2 ∧ g = .sink (n + 1) s.seen) := by
  simp only [FanCompSt.world] at h
  rcases t with _ | t
  · left; simpa using h.symm
  · right
    simp only [List.cons_append, List.getElem?_cons_succ, List.append_assoc] at h
    by_cases h1 : t < n
    · left
      rw [List.getElem?_append_left (by simpa using h1)] at h
      rw [range_map_getElem?, if_pos h1] at h
      exact ⟨t, h1, rfl, by simpa using h.symm⟩
    · right
      rw [List.getElem?_append_right (by simpa using h1)] at h
      simp only [List.length_map, List.length_range] at h
      by_cases h2 : t - n < n
      · left
        rw [List.getElem?_append_left (by simpa using h2)] at h
        rw [range_map_getElem?, if_pos h2] at h
        exact ⟨t - n, h2, by omega, by simpa using h.symm⟩
      · right
        rw [List.getElem?_append_right (by simpa using h2)] at h
        simp only [List.length_map, List.length_range] at h
        rcases hx : t - n - n with _ | _ | x
        · rw [hx] at h
          left
          exact ⟨by omega, by simpa using h.symm⟩
        · rw [hx] at h
          right
          exact ⟨by omega, by simpa using h.symm⟩
        · rw [hx] at h
          simp at h

theorem FanCompSt_world_task_source (fn : X → X) (n : Nat) (s : FanCompSt X) :
    (s.world fn n).tasks[0]? = some (.source 0 s.rem s.cl) := by
  simp [FanCompSt.world]

theorem FanCompSt_world_task_worker (fn : X → X) (n : Nat) (s : FanCompSt X) (i : Nat)
    (hi : i < n) :
    (s.world fn n).tasks[i + 1]? = some (.stage (.worker fn) 0 (i + 1) (s.pcw i)) := by
  simp only [FanCompSt.world, List.cons_append, List.getElem?_cons_succ, List.append_assoc]
  rw [List.getElem?_append_left (by simpa using hi), range_map_getElem?, if_pos hi]

theorem FanCompSt_world_task_fwd (fn : X → X) (n : Nat) (s : FanCompSt X) (i : Nat)
    (hi : i < n) :
    (s.world fn n).tasks[n + 1 + i]?
      = some (.stage (.output 0) (i + 1) (n + 1) (s.pcf i)) := by
  simp only [FanCompSt.world, List.cons_append, List.append_assoc]
  have e1 : n + 1 + i = (n + i) + 1 := by omega
  rw [e1, List.getElem?_cons_succ, List.getElem?_append_right (by simp)]
  simp only [List.length_map, List.length_range, Nat.add_sub_cancel_left]
  rw [List.getElem?_append_left (by simpa using hi), range_map_getElem?, if_pos hi]

theorem FanCompSt_world_task_closer (fn : X → X) (n : Nat) (s : FanCompSt X) :
    (s.world fn n).tasks[2 * n + 1]? = some (.closer 0 (n + 1) s.fin) := by
  simp only [FanCompSt.world, List.cons_append, List.append_assoc, List.getElem?_cons_succ]
  rw [List.getElem?_append_right (by simp; omega)]
  rw [List.getElem?_append_right (by simp; omega)]
  simp only [List.length_map, List.length_range]
  have : 2 * n - n - n = 0 := by omega
  rw [this]
  rfl

theorem FanCompSt_world_task_sink (fn : X → X) (n : Nat) (s : FanCompSt X) :
    (s.world fn n).tasks[2 * n + 2]? = some (.sink (n + 1) s.seen) := by
  simp only [FanCompSt.world, List.cons_append, List.append_assoc]
  have e1 : 2 * n + 2 = (2 * n + 1) + 1 := by omega
  rw [e1, List.getElem?_cons_succ]
  rw [List.getElem?_append_right (by simp; omega)]
  rw [List.getElem?_append_right (by simp; omega)]
  simp only [List.length_map, List.length_range]
  have : 2 * n + 1 - n - n = 1 := by omega
  rw [this]
  rfl

theorem FanCompSt_world_chan0 (fn : X → X) (n : Nat) (s : FanCompSt X) :
    (s.world fn n).chans[0]? = some ⟨s.cl, s.h0⟩ := by
  simp [FanCompSt.world]

theorem FanCompSt_world_chan (fn : X → X) (n : Nat) (s : FanCompSt X) (i : Nat) (hi : i < n) :
    (s.world fn n).chans[i + 1]? = some ⟨s.c i, s.h i⟩ := by
  simp only [FanCompSt.world, List.cons_append, List.getElem?_cons_succ]
  rw [List.getElem?_append_left (by simpa using hi), range_map_getElem?, if_pos hi]

theorem FanCompSt_world_chan_out (fn : X → X) (n : Nat) (s : FanCompSt X) :
    (s.world fn n).chans[n + 1]? = some ⟨s.cout, s.hout⟩ := by
  simp only [FanCompSt.world, List.cons_append, List.getElem?_cons_succ]
  rw [List.getElem?_append_right (by simp)]
  simp

theorem FanCompSt_world_chans_congr (fn : X → X) (n : Nat) (s s1 : FanCompSt X)
    (h1 : s.cl = s1.cl) (h2 : s.h0 = s1.h0) (h3 : s.c = s1.c) (h4 : s.h = s1.h)
    (h5 : s.cout = s1.cout) (h6 : s.hout = s1.hout) :
    (s.world fn n).chans = (s1.world fn n).chans := by
  simp [FanCompSt.world, h1, h2, h3, h4, h5, h6]

theorem FanCompSt_world_tasks_congr (fn : X → X) (n : Nat) (s s1 : FanCompSt X)
    (h1 : s.rem = s1.rem) (h2 : s.cl = s1.cl) (h3 : s.pcw = s1.pcw) (h4 : s.pcf = s1.pcf)
    (h5 : s.fin = s1.fin) (h6 : s.seen = s1.seen) :
    (s.world fn n).tasks = (s1.world fn n).tasks := by
  simp [FanCompSt.world, h1, h2, h3, h4, h5, h6]

theorem FanCompSt_world_set_source (fn : X → X) (n : Nat) (s : FanCompSt X) (rem : List X)
    (cl : Bool) :
    (s.world fn n).tasks.set 0 (.source 0 rem cl)
      = (FanCompSt.world fn n { s with rem := rem, cl := cl }).tasks := by
  simp [FanCompSt.world]

theorem FanCompSt_world_set_worker (fn : X → X) (n : Nat) (s : FanCompSt X) (i : Nat)
    (hi : i < n) (p : Pc X) :
    (s.world fn n).tasks.set (i + 1) (.stage (.worker fn) 0 (i + 1) p)
      = (FanCompSt.world fn n { s with pcw := Function.update s.pcw i p }).tasks := by
  simp only [FanCompSt.world, List.cons_append, List.set_cons_succ, List.append_assoc]
  rw [List.set_append_left _ _ (by simpa using hi)]
  congr 2
  rw [range_map_set]
  apply List.map_congr_left
  intro j _
  by_cases hj : j = i
  · subst hj; simp
  · simp [Function.update_noteq hj]

theorem FanCompSt_world_set_fwd (fn : X → X) (n : Nat) (s : FanCompSt X) (i : Nat)
    (hi : i < n) (p : Pc X) :
    (s.world fn n).tasks.set (n + 1 + i) (.stage (.output 0) (i + 1) (n + 1) p)
      = (FanCompSt.world fn n { s with pcf := Function.update s.pcf i p }).tasks := by
  simp only [FanCompSt.world, List.cons_append, List.append_assoc]
  have e1 : n + 1 + i = (n + i) + 1 := by omega
  rw [e1, List.set_cons_succ, List.set_append_right _ _ (by simp)]
  simp only [List.length_map, List.length_range, Nat.add_sub_cancel_left]
  rw [List.set_append_left _ _ (by simpa using hi)]
  congr 3
  rw [range_map_set]
  apply List.map_congr_left
  intro j _
  by_cases hj : j = i
  · subst hj; simp
  · simp [Function.update_noteq hj]

theorem FanCompSt_world_set_closer (fn : X → X) (n : Nat) (s : FanCompSt X) (b : Bool) :
    (s.world fn n).tasks.set (2 * n + 1) (.closer 0 (n + 1) b)
      = (FanCompSt.world fn n { s with fin := b }).tasks := by
  simp only [FanCompSt.world, List.cons_append, List.append_assoc, List.set_cons_succ]
  rw [List.set_append_right _ _ (by simp; omega)]
  rw [List.set_append_right _ _ (by simp; omega)]
  simp only [List.length_map, List.length_range]
  have : 2 * n - n - n = 0 := by omega
  rw [this]
  rfl

theorem FanCompSt_world_set_sink (fn : X → X) (n : Nat) (s : FanCompSt X) (b : Bool) :
    (s.world fn n).tasks.set (2 * n + 2) (.sink (n + 1) b)
      = (FanCompSt.world fn n { s with seen := b }).tasks := by
  simp only [FanCompSt.world, List.cons_append, List.append_assoc]
  have e1 : 2 * n + 2 = (2 * n + 1) + 1 := by omega
  rw [e1, List.set_cons_succ]
  rw [List.set_append_right _ _ (by simp; omega)]
  rw [List.set_append_right _ _ (by simp; omega)]
  simp only [List.length_map, List.length_range]
  have : 2 * n + 1 - n - n = 1 := by omega
  rw [this]
  rfl

theorem FanCompSt_world_set_chan0 (fn : X → X) (n : Nat) (s : FanCompSt X) (b : Bool)
    (l : List X) :
    (s.world fn n).chans.set 0 ⟨b, l⟩
      = (FanCompSt.world fn n { s with cl := b, h0 := l }).chans := by
  simp [FanCompSt.world]

theorem FanCompSt_world_set_chan (fn : X → X) (n : Nat) (s : FanCompSt X) (i : Nat)
    (hi : i < n) (b : Bool) (l : List X) :
    (s.world fn n).chans.set (i + 1) ⟨b, l⟩
      = (FanCompSt.world fn n { s with c := Function.update s.c i b,
                                       h := Function.update s.h i l }).chans := by
  simp only [FanCompSt.world, List.cons_append, List.set_cons_succ]
  rw [List.set_append_left _ _ (by simpa using hi)]
  congr 2
  rw [range_map_set]
  apply List.map_congr_left
  intro j _
  by_cases hj : j = i
  · subst hj; simp
  · simp [Function.update_noteq hj]

theorem FanCompSt_world_set_chan_out (fn : X → X) (n : Nat) (s : FanCompSt X) (b : Bool)
    (l : List X) :
    (s.world fn n).chans.set (n + 1) ⟨b, l⟩
      = (FanCompSt.world fn n { s with cout := b, hout := l }).chans := by
  simp only [FanCompSt.world, List.cons_append, List.set_cons_succ]
  rw [List.set_append_right _ _ (by simp)]
  simp

theorem FanCompSt_step_comm (fn : X → X) (n : Nat) (s : FanCompSt X) (a b : Nat)
    (w1 : World X) (h : (s.world fn n).step (.comm a b) = some w1) :
    ∃ s1, w1 = FanCompSt.world fn n s1 ∧ FanCompSt.Rel fn n s s1 := by
  simp only [World.step] at h
  rcases ha : (s.world fn n).tasks[a]? with _ | ta
  · simp [ha] at h
  rcases hb : (s.world fn n).tasks[b]? with _ | tb
  · simp [ha, hb] at h
  simp only [ha, hb] at h
  rcases FanCompSt_world_task fn n s a ta ha with
    ⟨rfl, rfl⟩ | ⟨i, hi, rfl, rfl⟩ | ⟨i, hi, rfl, rfl⟩ | ⟨rfl, rfl⟩ | ⟨rfl, rfl⟩
  · -- the producer sends
    rcases hrem : s.rem with _ | ⟨v, rest⟩
    · simp [Goroutine.sendOffer, hrem] at h
    cases hcl : s.cl
    swap
    · simp [Goroutine.sendOffer, hrem, hcl] at h
    rcases FanCompSt_world_task fn n s b tb hb with
      ⟨rfl, rfl⟩ | ⟨j, hj, rfl, rfl⟩ | ⟨j, hj, rfl, rfl⟩ | ⟨rfl, rfl⟩ | ⟨rfl, rfl⟩
    · simp [Goroutine.sendOffer, Goroutine.recvChan, hrem, hcl] at h
    · cases hpc : s.pcw j with
      | select u => simp [Goroutine.sendOffer, Goroutine.recvChan, hrem, hcl, hpc] at h
      | exited => simp [Goroutine.sendOffer, Goroutine.recvChan, hrem, hcl, hpc] at h
      | recv =>
          simp only [Goroutine.sendOffer, Goroutine.recvChan, hrem, hcl, hpc,
            FanCompSt_world_chan0, if_true, Option.some.injEq] at h
          subst h
          refine ⟨_, ?_, FanCompSt.Rel.feed s j v rest hj hrem hcl hpc⟩
          apply World_eq_of
          · show (s.world fn n).chans.set 0 ⟨false, s.h0 ++ [v]⟩ = _
            rw [FanCompSt_world_set_chan0]
            apply FanCompSt_world_chans_congr <;> simp [hcl]
          · rfl
          · rfl
          · show ((s.world fn n).tasks.set 0 (.source 0 rest false)).set (j + 1)
              (.stage (.worker fn) 0 (j + 1) (.select (fn v))) = _
            rw [FanCompSt_world_set_source, FanCompSt_world_set_worker _ _ _ _ hj]
            apply FanCompSt_world_tasks_congr <;> simp [hcl]
    · cases hpf : s.pcf j <;>
        simp [Goroutine.sendOffer, Goroutine.recvChan, hrem, hcl, hpf,
          FanCompSt_world_chan0] at h
    · simp [Goroutine.sendOffer, Goroutine.recvChan, hrem, hcl] at h
    · cases hseen : s.seen <;>
        simp [Goroutine.sendOffer, Goroutine.recvChan, hrem, hcl, hseen,
          FanCompSt_world_chan0] at h
  · -- worker `i` sends
    cases hpw : s.pcw i with
    | recv => simp [Goroutine.sendOffer, hpw] at h
    | exited => simp [Goroutine.sendOffer, hpw] at h
    | select u =>
      rcases FanCompSt_world_task fn n s b tb hb with
        ⟨rfl, rfl⟩ | ⟨j, hj, rfl, rfl⟩ | ⟨j, hj, rfl, rfl⟩ | ⟨rfl, rfl⟩ | ⟨rfl, rfl⟩
      · simp [Goroutine.sendOffer, Goroutine.recvChan, hpw] at h
      · cases hpj : s.pcw j <;> cases hci : s.c i <;>
          simp [Goroutine.sendOffer, Goroutine.recvChan, hpw, hpj, hci,
            FanCompSt_world_chan fn n s i hi] at h
      · cases hpf : s.pcf j with
        | select u1 => simp [Goroutine.sendOffer, Goroutine.recvChan, hpw, hpf] at h
        | exited => simp [Goroutine.sendOffer, Goroutine.recvChan, hpw, hpf] at h
        | recv =>
          cases hci : s.c i
          swap
          · simp [Goroutine.sendOffer, Goroutine.recvChan, hpw, hpf, hci,
              FanCompSt_world_chan fn n s i hi] at h
          simp only [Goroutine.sendOffer, Goroutine.recvChan, hpw, hpf, hci,
            FanCompSt_world_chan fn n s i hi] at h
          by_cases hij : i + 1 = j + 1
          swap
          · simp [hij] at h
          have hij2 : i = j := by omega
          subst hij2
          simp only [if_true, Option.some.injEq] at h
          subst h
          refine ⟨_, ?_, FanCompSt.Rel.pass s i u hi hpw hci hpf⟩
          apply World_eq_of
          · show (s.world fn n).chans.set (i + 1) ⟨false, s.h i ++ [u]⟩ = _
            rw [FanCompSt_world_set_chan _ _ _ _ hi]
            apply FanCompSt_world_chans_congr <;> simp [hci]
          · rfl
          · rfl
          · show ((s.world fn n).tasks.set (i + 1) (.stage (.worker fn) 0 (i + 1) .recv)).set
                (n + 1 + i) (.stage (.output 0) (i + 1) (n + 1) (.select u)) = _
            rw [FanCompSt_world_set_worker _ _ _ _ hi, FanCompSt_world_set_fwd _ _ _ _ hi]
            apply FanCompSt_world_tasks_congr <;> simp
      · simp [Goroutine.sendOffer, Goroutine.recvChan, hpw] at h
      · have hne : i ≠ n := by omega
        cases hseen : s.seen <;> cases hci : s.c i <;>
          simp [Goroutine.sendOffer, Goroutine.recvChan, hpw, hseen, hci, hne,
            FanCompSt_world_chan fn n s i hi] at h
  · -- forwarder `i` sends
    cases hpf : s.pcf i with
    | recv => simp [Goroutine.sendOffer, hpf] at h
    | exited => simp [Goroutine.sendOffer, hpf] at h
    | select u =>
      rcases FanCompSt_world_task fn n s b tb hb with
        ⟨rfl, rfl⟩ | ⟨j, hj, rfl, rfl⟩ | ⟨j, hj, rfl, rfl⟩ | ⟨rfl, rfl⟩ | ⟨rfl, rfl⟩
      · simp [Goroutine.sendOffer, Goroutine.recvChan, hpf] at h
      · cases hpj : s.pcw j <;> cases hco : s.cout <;>
          simp [Goroutine.sendOffer, Goroutine.recvChan, hpf, hpj, hco,
            FanCompSt_world_chan_out] at h
      · have hne : n ≠ j := by omega
        cases hpj : s.pcf j <;> cases hco : s.cout <;>
          simp [Goroutine.sendOffer, Goroutine.recvChan, hpf, hpj, hco, hne,
            FanCompSt_world_chan_out] at h
      · simp [Goroutine.sendOffer, Goroutine.recvChan, hpf] at h
      · cases hseen : s.seen
        swap
        · simp [Goroutine.sendOffer, Goroutine.recvChan, hpf, hseen] at h
        cases hco : s.cout
        swap
        · simp [Goroutine.sendOffer, Goroutine.recvChan, hpf, hseen, hco,
            FanCompSt_world_chan_out] at h
        simp only [Goroutine.sendOffer, Goroutine.recvChan, hpf, hseen, hco,
          FanCompSt_world_chan_out, if_true, Option.some.injEq] at h
        subst h
        refine ⟨_, ?_, FanCompSt.Rel.deliver s i u hi hpf hco hseen⟩
        apply World_eq_of
        · show (s.world fn n).chans.set (n + 1) ⟨false, s.hout ++ [u]⟩ = _
          rw [FanCompSt_world_set_chan_out]
          apply FanCompSt_world_chans_congr <;> simp [hco]
        · rfl
        · rfl
        · show ((s.world fn n).tasks.set (n + 1 + i)
              (.stage (.output 0) (i + 1) (n + 1) .recv)).set (2 * n + 2)
              (.sink (n + 1) false) = _
          rw [FanCompSt_world_set_fwd _ _ _ _ hi, FanCompSt_world_set_sink]
          apply FanCompSt_world_tasks_congr <;> simp [hseen]
  · simp [Goroutine.sendOffer] at h
  · simp [Goroutine.sendOffer] at h

theorem FanCompSt_step_closedRecv (fn : X → X) (n : Nat) (s : FanCompSt X) (b : Nat)
    (w1 : World X) (h : (s.world fn n).step (.closedRecv b) = some w1) :
    ∃ s1, w1 = FanCompSt.world fn n s1 ∧ FanCompSt.Rel fn n s s1 := by
  simp only [World.step] at h
  rcases hb : (s.world fn n).tasks[b]? with _ | tb
  · simp [hb] at h
  simp only [hb] at h
  rcases FanCompSt_world_task fn n s b tb hb with
    ⟨rfl, rfl⟩ | ⟨j, hj, rfl, rfl⟩ | ⟨j, hj, rfl, rfl⟩ | ⟨rfl, rfl⟩ | ⟨rfl, rfl⟩
  · simp [Goroutine.recvChan] at h
  · cases hpc : s.pcw j with
    | select u => simp [Goroutine.recvChan, hpc] at h
    | exited => simp [Goroutine.recvChan, hpc] at h
    | recv =>
      cases hcl : s.cl
      · simp [Goroutine.recvChan, hpc, hcl, FanCompSt_world_chan0] at h
      simp only [Goroutine.recvChan, hpc, hcl, FanCompSt_world_chan0, Option.some.injEq] at h
      subst h
      refine ⟨_, ?_, FanCompSt.Rel.workerEnd s j hj hpc hcl⟩
      simp only [Goroutine.onClosed, Kind.exit, World.apply, World.setTask]
      apply World_eq_of
      · show (s.world fn n).chans.set (j + 1) ⟨true, _⟩ = _
        rw [FanCompSt_world_chan fn n s j hj, FanCompSt_world_set_chan _ _ _ _ hj]
        apply FanCompSt_world_chans_congr <;> simp
      · rfl
      · rfl
      · show (s.world fn n).tasks.set (j + 1) (.stage (.worker fn) 0 (j + 1) .exited) = _
        rw [FanCompSt_world_set_worker _ _ _ _ hj]
        rfl
  · cases hpc : s.pcf j with
    | select u => simp [Goroutine.recvChan, hpc] at h
    | exited => simp [Goroutine.recvChan, hpc] at h
    | recv =>
      cases hc : s.c j
      · simp [Goroutine.recvChan, hpc, hc, FanCompSt_world_chan fn n s j hj] at h
      simp only [Goroutine.recvChan, hpc, hc, FanCompSt_world_chan fn n s j hj,
        Option.some.injEq] at h
      subst h
      refine ⟨_, ?_, FanCompSt.Rel.fwdEnd s j hj hpc hc⟩
      simp only [Goroutine.onClosed, Kind.exit, World.apply, World.setTask]
      apply World_eq_of
      · rfl
      · simp [FanCompSt.world]
      · rfl
      · show (s.world fn n).tasks.set (n + 1 + j)
            (.stage (.output 0) (j + 1) (n + 1) .exited) = _
        rw [FanCompSt_world_set_fwd _ _ _ _ hj]
        rfl
  · simp [Goroutine.recvChan] at h
  · cases hseen : s.seen
    swap
    · simp [Goroutine.recvChan, hseen] at h
    cases hco : s.cout
    · simp [Goroutine.recvChan, hseen, hco, FanCompSt_world_chan_out] at h
    simp only [Goroutine.recvChan, hseen, hco, FanCompSt_world_chan_out,
      Option.some.injEq] at h
    subst h
    refine ⟨_, ?_, FanCompSt.Rel.sinkEnd s hseen hco⟩
    simp only [Goroutine.onClosed, World.apply, World.setTask]
    apply World_eq_of
    · rfl
    · rfl
    · rfl
    · show (s.world fn n).tasks.set (2 * n + 2) (.sink (n + 1) true) = _
      rw [FanCompSt_world_set_sink]

theorem FanCompSt_step_doneCase (fn : X → X) (n : Nat) (s : FanCompSt X) (b : Nat)
    (w1 : World X) (h : (s.world fn n).step (.doneCase b) = some w1) :
    ∃ s1, w1 = FanCompSt.world fn n s1 ∧ FanCompSt.Rel fn n s s1 := by
  simp only [World.step] at h
  rcases hb : (s.world fn n).tasks[b]? with _ | tb
  · simp [hb] at h
  have hd : (s.world fn n).done = false := rfl
  simp [hb, hd] at h

theorem FanCompSt_step_tau (fn : X → X) (n : Nat) (s : FanCompSt X) (b : Nat)
    (w1 : World X) (h : (s.world fn n).step (.tau b) = some w1) :
    ∃ s1, w1 = FanCompSt.world fn n s1 ∧ FanCompSt.Rel fn n s s1 := by
  simp only [World.step] at h
  rcases hb : (s.world fn n).tasks[b]? with _ | tb
  · simp [hb] at h
  simp only [hb] at h
  rcases FanCompSt_world_task fn n s b tb hb with
    ⟨rfl, rfl⟩ | ⟨j, hj, rfl, rfl⟩ | ⟨j, hj, rfl, rfl⟩ | ⟨rfl, rfl⟩ | ⟨rfl, rfl⟩
  · rcases hrem : s.rem with _ | ⟨v, rest⟩
    swap
    · simp [Goroutine.tau, hrem] at h
    cases hcl : s.cl
    swap
    · simp [Goroutine.tau, hrem, hcl] at h
    simp only [Goroutine.tau, hrem, hcl, Option.some.injEq] at h
    subst h
    refine ⟨_, ?_, FanCompSt.Rel.srcClose s hrem hcl⟩
    simp only [World.apply, World.setTask]
    apply World_eq_of
    · show (s.world fn n).chans.set 0 ⟨true, _⟩ = _
      rw [FanCompSt_world_chan0, FanCompSt_world_set_chan0]
      apply FanCompSt_world_chans_congr <;> simp
    · rfl
    · rfl
    · show (s.world fn n).tasks.set 0 (.source 0 [] true) = _
      rw [FanCompSt_world_set_source]
      apply FanCompSt_world_tasks_congr <;> simp [hrem]
  · simp [Goroutine.tau] at h
  · simp [Goroutine.tau] at h
  · cases hfin : s.fin
    swap
    · simp [Goroutine.tau, hfin] at h
    have hw : (s.world fn n).wgs = [s.wg] := rfl
    by_cases hz : s.wg = 0
    swap
    · simp [Goroutine.tau, hfin, hw, hz] at h
    simp only [Goroutine.tau, hfin, hw, hz, List.getElem?_cons_zero, if_true,
      Option.some.injEq] at h
    subst h
    refine ⟨_, ?_, FanCompSt.Rel.wait s hfin hz⟩
    simp only [World.apply, World.setTask]
    apply World_eq_of
    · show (s.world fn n).chans.set (n + 1) ⟨true, _⟩ = _
      rw [FanCompSt_world_chan_out, FanCompSt_world_set_chan_out]
      apply FanCompSt_world_chans_congr <;> simp
    · rfl
    · rfl
    · show (s.world fn n).tasks.set (2 * n + 1) (.closer 0 (n + 1) true) = _
      rw [FanCompSt_world_set_closer]
      rfl
  · simp [Goroutine.tau] at h

/-- Every step of a `Fan` world is a step of its changing parts. -/
theorem FanCompSt_step_rel (fn : X → X) (n : Nat) (s : FanCompSt X) (e : Event) (w1 : World X)
    (h : (s.world fn n).step e = some w1) :
    ∃ s1, w1 = FanCompSt.world fn n s1 ∧ FanCompSt.Rel fn n s s1 := by
  cases e with
  | comm a b => exact FanCompSt_step_comm fn n s a b w1 h
  | closedRecv b => exact FanCompSt_step_closedRecv fn n s b w1 h
  | doneCase b => exact FanCompSt_step_doneCase fn n s b w1 h
  | tau b => exact FanCompSt_step_tau fn n s b w1 h

theorem FanCompSt_Good_init (fn : X → X) (n : Nat) (input : List X) :
    FanCompSt.Good fn n input (FanCompSt.init input n) := by
  refine ⟨?_, ?_, ?_, ?_, ?_, ?_, rfl, ?_, ?_, ?_, ?_⟩
  · simp [FanCompSt.init]
  · intro h; simp [FanCompSt.init] at h
  · intro i _; simp [FanCompSt.init]
  · intro i _ h; simp [FanCompSt.init] at h
  · simp only [FanCompSt.init, Pc.live]
    exact (sum_range_const_one _).symm
  · intro i _ h; simp [FanCompSt.init] at h
  · intro h; simp [FanCompSt.init] at h
  · intro h; simp [FanCompSt.init] at h
  · simp only [FanCompSt.init, Pc.held, List.append_nil, List.map_nil]
    exact sum_range_zero n
  · simp only [FanCompSt.init, Pc.held]
    rw [show ((List.range n).map fun _ => (([] : List X) : Multiset X)).sum = 0 from
      sum_range_zero n]
    rfl

theorem FanCompSt_Good_step (fn : X → X) (n : Nat) (input : List X) (s s1 : FanCompSt X)
    (hg : FanCompSt.Good fn n input s) (hr : FanCompSt.Rel fn n s s1) :
    FanCompSt.Good fn n input s1 := by
  obtain ⟨g1, g2, g3, g4, g5, g6, g7, g8, g9, g10, g11⟩ := hg
  cases hr with
  | feed i v rest hi hrem hcl hpc =>
      refine ⟨by simp [← g1, hrem], by simp [hcl], ?_, ?_, g5, g6, g7, g8, g9, ?_, g11⟩
      · intro j hj
        by_cases hji : j = i
        · subst hji
          simp only [Function.update_same]
          rw [g3 j hj, hpc]
          simp
        · simp only [Function.update_noteq hji]
          exact g3 j hj
      · intro j hj hx
        by_cases hji : j = i
        · subst hji
          simp at hx
        · simp only [Function.update_noteq hji] at hx
          exact g4 j hj hx
      · have key := sum_range_change
          (fun j => ((s.h j ++ (s.pcw j).held : List X) : Multiset X))
          (fun j => ((s.h j ++ (Function.update s.pcw i (Pc.select (fn v)) j).held : List X)
            : Multiset X)) n i hi
          (fun j _ hji => by simp [Function.update_noteq hji])
        simp only [Function.update_same, hpc, Pc.held, List.append_nil] at key
        simp only [List.map_append, List.map_cons, List.map_nil]
        rw [← Multiset.coe_add, ← g10]
        apply add_right_cancel (b := (s.h i : Multiset X))
        simp only [Pc.held] at key ⊢
        rw [key, ← Multiset.coe_add]
        abel
  | pass i u hi hpw hc hpf =>
      refine ⟨g1, g2, ?_, ?_, ?_, ?_, g7, g8, g9, ?_, ?_⟩
      · intro j hj
        by_cases hji : j = i
        · subst hji
          simp [hc]
        · simp only [Function.update_noteq hji]
          exact g3 j hj
      · intro j hj hx
        by_cases hji : j = i
        · subst hji
          simp at hx
        · simp only [Function.update_noteq hji] at hx
          exact g4 j hj hx
      · have key := FanInSt_sum_live s.pcf n i hi (Pc.select u)
        rw [hpf] at key
        simp only [Pc.live] at key
        simp only
        rw [g5]
        simp only [Pc.live]
        omega
      · intro j hj hx
        by_cases hji : j = i
        · subst hji
          simp at hx
        · simp only [Function.update_noteq hji] at hx
          exact g6 j hj hx
      · simp only
        rw [← g10]
        apply sum_range_congr
        intro j hj
        by_cases hji : j = i
        · subst hji; simp [hpw, Pc.held]
        · simp [Function.update_noteq hji]
      · have key1 := sum_range_change
          (fun j => (((s.pcf j).held : List X) : Multiset X))
          (fun j => (((Function.update s.pcf i (Pc.select u) j).held : List X) : Multiset X))
          n i hi (fun j _ hji => by simp [Function.update_noteq hji])
        have key2 := sum_range_change
          (fun j => ((s.h j : List X) : Multiset X))
          (fun j => ((Function.update s.h i (s.h i ++ [u]) j : List X) : Multiset X))
          n i hi (fun j _ hji => by simp [Function.update_noteq hji])
        simp only [Function.update_same, hpf, Pc.held] at key1
        simp only [Function.update_same] at key2
        simp only [Pc.held] at g11 key1 ⊢
        have e0 : (([] : List X) : Multiset X) = 0 := rfl
        rw [e0, add_zero] at key1
        rw [key1]
        apply add_right_cancel (b := (s.h i : Multiset X))
        rw [key2, ← Multiset.coe_add, ← g11]
        abel
  | deliver i u hi hpf hc hseen =>
      refine ⟨g1, g2, g3, g4, ?_, ?_, g7, g8, g9, g10, ?_⟩
      · have key := FanInSt_sum_live s.pcf n i hi Pc.recv
        rw [hpf] at key
        simp only [Pc.live] at key
        simp only
        rw [g5]
        simp only [Pc.live]
        omega
      · intro j hj hx
        by_cases hji : j = i
        · subst hji
          simp at hx
        · simp only [Function.update_noteq hji] at hx
          exact g6 j hj hx
      · have key1 := sum_range_change
          (fun j => (((s.pcf j).held : List X) : Multiset X))
          (fun j => (((Function.update s.pcf i Pc.recv j).held : List X) : Multiset X))
          n i hi (fun j _ hji => by simp [Function.update_noteq hji])
        simp only [Function.update_same, hpf, Pc.held] at key1
        simp only [Pc.held] at g11 key1 ⊢
        have e0 : (([] : List X) : Multiset X) = 0 := rfl
        rw [e0, add_zero] at key1
        rw [← g11, ← key1, ← Multiset.coe_add]
        abel
  | srcClose hrem hcl =>
      exact ⟨g1, fun _ => hrem, g3, fun _ _ _ => rfl, g5, g6, g7, g8, g9, g10, g11⟩
  | workerEnd i hi hpc hcl =>
      refine ⟨g1, g2, ?_, fun _ _ _ => hcl, g5, ?_, g7, g8, g9, ?_, g11⟩
      · intro j hj
        by_cases hji : j = i
        · subst hji
          simp
        · simp only [Function.update_noteq hji]
          exact g3 j hj
      · intro j hj hx
        by_cases hji : j = i
        · subst hji
          simp
        · simp only [Function.update_noteq hji]
          exact g6 j hj hx
      · simp only
        rw [← g10]
        apply sum_range_congr
        intro j hj
        by_cases hji : j = i
        · subst hji; simp [hpc, Pc.held]
        · simp [Function.update_noteq hji]
  | fwdEnd i hi hpc hc =>
      refine ⟨g1, g2, g3, g4, ?_, ?_, g7, ?_, g9, g10, ?_⟩
      · have key := FanInSt_sum_live s.pcf n i hi Pc.exited
        rw [hpc] at key
        simp only [Pc.live] at key
        simp only
        rw [g5]
        simp only [Pc.live]
        omega
      · intro j hj hx
        by_cases hji : j = i
        · subst hji
          exact hc
        · simp only [Function.update_noteq hji] at hx
          exact g6 j hj hx
      · intro hf
        have := g8 hf
        simp only
        omega
      · simp only
        rw [← g11]
        congr 1
        apply sum_range_congr
        intro j hj
        by_cases hji : j = i
        · subst hji; simp [hpc, Pc.held]
        · simp [Function.update_noteq hji]
  | wait hfin hwg =>
      exact ⟨g1, g2, g3, g4, g5, g6, rfl, fun _ => hwg, fun _ => rfl, g10, g11⟩
  | sinkEnd hseen hc =>
      exact ⟨g1, g2, g3, g4, g5, g6, g7, g8, fun _ => hc, g10, g11⟩

theorem FanCompSt_measure_step (fn : X → X) (n : Nat) (s s1 : FanCompSt X)
    (hr : FanCompSt.Rel fn n s s1) : FanCompSt.measure n s1 < FanCompSt.measure n s := by
  cases hr with
  | feed i v rest hi hrem hcl hpc =>
      have key := sum_range_change
        (fun j => (s.pcw j).measure + (s.pcw j).held.length + (s.pcf j).measure)
        (fun j => (Function.update s.pcw i (Pc.select (fn v)) j).measure
          + (Function.update s.pcw i (Pc.select (fn v)) j).held.length + (s.pcf j).measure)
        n i hi (fun j _ hji => by simp [Function.update_noteq hji])
      simp only [Function.update_same, hpc] at key
      have h1 : (Pc.select (fn v) : Pc X).measure = 2 := rfl
      have h2 : (Pc.recv : Pc X).measure = 1 := rfl
      have h3 : (Pc.select (fn v) : Pc X).held.length = 1 := rfl
      have h4 : (Pc.recv : Pc X).held.length = 0 := rfl
      simp only [FanCompSt.measure, hrem, List.length_cons]
      omega
  | pass i u hi hpw hc hpf =>
      have key := sum_range_change
        (fun j => (s.pcw j).measure + (s.pcw j).held.length + (s.pcf j).measure)
        (fun j => (Function.update s.pcw i Pc.recv j).measure
          + (Function.update s.pcw i Pc.recv j).held.length
          + (Function.update s.pcf i (Pc.select u) j).measure)
        n i hi (fun j _ hji => by simp [Function.update_noteq hji])
      simp only [Function.update_same, hpw, hpf] at key
      have h1 : (Pc.select u : Pc X).measure = 2 := rfl
      have h2 : (Pc.recv : Pc X).measure = 1 := rfl
      have h3 : (Pc.select u : Pc X).held.length = 1 := rfl
      have h4 : (Pc.recv : Pc X).held.length = 0 := rfl
      simp only [FanCompSt.measure]
      omega
  | deliver i u hi hpf hc hseen =>
      have key := sum_range_change
        (fun j => (s.pcw j).measure + (s.pcw j).held.length + (s.pcf j).measure)
        (fun j => (s.pcw j).measure + (s.pcw j).held.length
          + (Function.update s.pcf i Pc.recv j).measure)
        n i hi (fun j _ hji => by simp [Function.update_noteq hji])
      simp only [Function.update_same, hpf] at key
      have h1 : (Pc.select u : Pc X).measure = 2 := rfl
      have h2 : (Pc.recv : Pc X).measure = 1 := rfl
      simp only [FanCompSt.measure]
      omega
  | srcClose hrem hcl =>
      simp only [FanCompSt.measure, hcl]
      simp
  | workerEnd i hi hpc hcl =>
      have key := sum_range_change
        (fun j => (s.pcw j).measure + (s.pcw j).held.length + (s.pcf j).measure)
        (fun j => (Function.update s.pcw i Pc.exited j).measure
          + (Function.update s.pcw i Pc.exited j).held.length + (s.pcf j).measure)
        n i hi (fun j _ hji => by simp [Function.update_noteq hji])
      simp only [Function.update_same, hpc] at key
      have h1 : (Pc.exited : Pc X).measure = 0 := rfl
      have h2 : (Pc.recv : Pc X).measure = 1 := rfl
      have h3 : (Pc.exited : Pc X).held.length = 0 := rfl
      have h4 : (Pc.recv : Pc X).held.length = 0 := rfl
      simp only [FanCompSt.measure]
      omega
  | fwdEnd i hi hpc hc =>
      have key := sum_range_change
        (fun j => (s.pcw j).measure + (s.pcw j).held.length + (s.pcf j).measure)
        (fun j => (s.pcw j).measure + (s.pcw j).held.length
          + (Function.update s.pcf i Pc.exited j).measure)
        n i hi (fun j _ hji => by simp [Function.update_noteq hji])
      simp only [Function.update_same, hpc] at key
      have h1 : (Pc.exited : Pc X).measure = 0 := rfl
      have h2 : (Pc.recv : Pc X).measure = 1 := rfl
      simp only [FanCompSt.measure]
      omega
  | wait hfin hwg =>
      simp only [FanCompSt.measure, hfin]
      simp
  | sinkEnd hseen hc =>
      simp only [FanCompSt.measure, hseen]
      simp

/-- A `Fan` system whose consumer has not yet seen the end of the merged stream can take a
step. -/
theorem FanCompSt_progress (fn : X → X) (n : Nat) (input : List X) (s : FanCompSt X)
    (hg : FanCompSt.Good fn n input s) (hnf : ¬ s.seen = true) :
    ∃ e w1, (s.world fn n).step e = some w1 := by
  have hseen : s.seen = false := by simpa using hnf
  by_cases hall : ∀ i, i < n → s.pcf i = Pc.exited
  · have hwg : s.wg = 0 := by
      rw [hg.counter, sum_range_congr (fun i => (s.pcf i).live) (fun _ => 0) n
        (fun i hi => by simp [hall i hi, Pc.live]), sum_range_zero]
    cases hfin : s.fin
    · refine ⟨.tau (2 * n + 1), ?_⟩
      have hw : (s.world fn n).wgs = [s.wg] := rfl
      simp only [World.step, FanCompSt_world_task_closer, Goroutine.tau, hfin, hw, hwg]
      simp
    · have hco : s.cout = true := by rw [← hg.finClosed, hfin]
      refine ⟨.closedRecv (2 * n + 2), ?_⟩
      simp only [World.step, FanCompSt_world_task_sink, Goroutine.recvChan, hseen,
        FanCompSt_world_chan_out, hco]
      simp
  · simp only [not_forall] at hall
    obtain ⟨i, hi, hx⟩ := hall
    cases hpf : s.pcf i with
    | exited => exact absurd hpf hx
    | select u =>
        have hco : s.cout = false := by
          cases hco : s.cout
          · rfl
          · have hfin : s.fin = true := by rw [hg.finClosed, hco]
            have hz := hg.finZero hfin
            rw [hg.counter] at hz
            have := Pc_live_eq_zero _ (sum_range_eq_zero (fun i => (s.pcf i).live) n hz i hi)
            exact absurd this hx
        refine ⟨.comm (n + 1 + i) (2 * n + 2), ?_⟩
        simp only [World.step, FanCompSt_world_task_fwd fn n s i hi, FanCompSt_world_task_sink,
          Goroutine.sendOffer, Goroutine.recvChan, hpf, hseen, FanCompSt_world_chan_out, hco]
        simp
    | recv =>
        cases hpw : s.pcw i with
        | select u =>
            have hc : s.c i = false := by
              cases hci : s.c i
              · rfl
              · have := (hg.chanClosed i hi).mp hci
                rw [hpw] at this
                cases this
            refine ⟨.comm (i + 1) (n + 1 + i), ?_⟩
            simp only [World.step, FanCompSt_world_task_worker fn n s i hi,
              FanCompSt_world_task_fwd fn n s i hi, Goroutine.sendOffer, Goroutine.recvChan,
              hpw, hpf, FanCompSt_world_chan fn n s i hi, hc]
            simp
        | exited =>
            have hc : s.c i = true := (hg.chanClosed i hi).mpr hpw
            refine ⟨.closedRecv (n + 1 + i), ?_⟩
            simp only [World.step, FanCompSt_world_task_fwd fn n s i hi, Goroutine.recvChan,
              hpf, FanCompSt_world_chan fn n s i hi, hc]
            simp
        | recv =>
            rcases hrem : s.rem with _ | ⟨v, rest⟩
            · cases hcl : s.cl
              · refine ⟨.tau 0, ?_⟩
                simp only [World.step, FanCompSt_world_task_source, Goroutine.tau, hrem, hcl]
                simp
              · refine ⟨.closedRecv (i + 1), ?_⟩
                simp only [World.step, FanCompSt_world_task_worker fn n s i hi,
                  Goroutine.recvChan, hpw, FanCompSt_world_chan0, hcl]
                simp
            · have hcl : s.cl = false := by
                cases hcl : s.cl
                · rfl
                · have := hg.closedEmpty hcl
                  rw [hrem] at this
                  cases this
              refine ⟨.comm 0 (i + 1), ?_⟩
              simp only [World.step, FanCompSt_world_task_source,
                FanCompSt_world_task_worker fn n s i hi, Goroutine.sendOffer,
                Goroutine.recvChan, hpw, hrem, hcl, FanCompSt_world_chan0]
              simp

theorem fanSystem_eq (input : List X) (n : Nat) (fn : X → X) :
    fanSystem input (n : Int) fn = (n + 1, (FanCompSt.init input n).world fn n) := by
  simp only [fanSystem, World.source, Pipeline.Fan, Pipeline.FanOut, Int.toNat_ofNat,
    fanOut_loop_spec, Fan.FanIn]
  rw [foldl_go]
  have e : ∀ i, 1 + i = i + 1 := fun i => by omega
  simp [World.newWaitGroup, World.makeChan, World.wgAdd, World.go, World.sink, World.empty,
    FanCompSt.world, FanCompSt.init, List.map_map, Function.comp_def, e, Nat.add_comm 1 n]

theorem FanCompSt_world_hist_out (fn : X → X) (n : Nat) (s : FanCompSt X) :
    (s.world fn n).hist (n + 1) = s.hout := by
  simp [World.hist, FanCompSt_world_chan_out]

theorem FanCompSt_world_isClosed_out (fn : X → X) (n : Nat) (s : FanCompSt X) :
    (s.world fn n).isClosed (n + 1) = s.cout := by
  simp [World.isClosed, FanCompSt_world_chan_out]

theorem FanCompSt_measure_init (n : Nat) (input : List X) :
    FanCompSt.measure n (FanCompSt.init input n) = 3 * input.length + 2 * n + 3 := by
  simp only [FanCompSt.measure, FanCompSt.init, Pc.measure, Pc.held]
  have : ((List.range n).map fun _ => 1 + ([] : List X).length + 1).sum = 2 * n := by
    induction n with
    | zero => rfl
    | succ n ih =>
        rw [List.range_succ, List.map_append, List.sum_append, ih]
        simp
        omega
  rw [this]
  simp
  omega

/-- In a `Fan` system with at least one worker whose merged stream is closed, the merged
stream carries, as a multiset, the transformed input. -/
theorem FanCompSt_closed_merged (fn : X → X) (n : Nat) (hn : 1 ≤ n) (input : List X)
    (s : FanCompSt X) (hg : FanCompSt.Good fn n input s) (hc : s.cout = true) :
    (s.hout : Multiset X) = ((input.map fn : List X) : Multiset X) := by
  have hfin : s.fin = true := by rw [hg.finClosed, hc]
  have hz := hg.finZero hfin
  rw [hg.counter] at hz
  have hxf : ∀ i, i < n → s.pcf i = Pc.exited := fun i hi =>
    Pc_live_eq_zero _ (sum_range_eq_zero (fun i => (s.pcf i).live) n hz i hi)
  have hxw : ∀ i, i < n → s.pcw i = Pc.exited := fun i hi =>
    (hg.chanClosed i hi).mp (hg.forwarderLate i hi (hxf i hi))
  have hcl := hg.workerLate 0 (by omega) (hxw 0 (by omega))
  have hsplit := hg.split
  rw [hg.closedEmpty hcl, List.append_nil] at hsplit
  have h1 := hg.merged
  rw [sum_range_congr (fun i => (((s.pcf i).held : List X) : Multiset X)) (fun _ => 0) n
    (fun i hi => by simp [hxf i hi, Pc.held]), sum_range_zero, add_zero] at h1
  rw [h1, ← hsplit, ← hg.workers]
  apply sum_range_congr
  intro i hi
  simp [hxw i hi, Pc.held]

theorem FanCompSt_sys_step (fn : X → X) (n : Nat) (input : List X) (s : FanCompSt X)
    (e : Event) (w1 : World X) (hp : FanCompSt.Good fn n input s)
    (h : (s.world fn n).step e = some w1) :
    ∃ s1, w1 = FanCompSt.world fn n s1 ∧ FanCompSt.Good fn n input s1
      ∧ FanCompSt.measure n s1 < FanCompSt.measure n s := by
  obtain ⟨s1, hw, hr⟩ := FanCompSt_step_rel fn n s e w1 h
  exact ⟨s1, hw, FanCompSt_Good_step fn n input s s1 hp hr, FanCompSt_measure_step fn n s s1 hr⟩

/-- Every schedule of a `Fan` system leads to a state of the system in which the invariant
holds. -/
theorem FanCompSt_exec_good (input : List X) (n : Nat) (fn : X → X) (choices : List Nat) :
    ∃ s1, (fanSystem input n fn).2.exec choices = FanCompSt.world fn n s1
      ∧ FanCompSt.Good fn n input s1 := by
  rw [fanSystem_eq]
  exact World_exec_abs_inv (FanCompSt.world fn n)
    (fun s => FanCompSt.Good fn n input s)
    (fun s e w1 hp h => by
      obtain ⟨s1, hw, hp1, _⟩ := FanCompSt_sys_step fn n input s e w1 hp h
      exact ⟨s1, hw, hp1⟩)
    choices (FanCompSt.init input n) (FanCompSt_Good_init fn n input)

/-- Every schedule of a `Fan` system that is long enough ends with the merged stream closed. -/
theorem FanCompSt_exec_final (input : List X) (n : Nat) (fn : X → X) (choices : List Nat)
    (hlen : 3 * input.length + 2 * n + 3 ≤ choices.length) :
    ((fanSystem input n fn).2.exec choices).isClosed (fanSystem input n fn).1 = true := by
  rw [fanSystem_eq]
  obtain ⟨s1, hw, hp, hfin⟩ := World_exec_abs_final (FanCompSt.world fn n)
    (fun s => FanCompSt.Good fn n input s)
    (fun s => s.seen = true)
    (FanCompSt.measure n)
    (fun s e w1 hp h => FanCompSt_sys_step fn n input s e w1 hp h)
    (fun s hp hnf => FanCompSt_progress fn n input s hp hnf)
    choices (FanCompSt.init input n) (FanCompSt_Good_init fn n input)
    (by rw [FanCompSt_measure_init]; exact hlen)
  simp only
  rw [hw, FanCompSt_world_isClosed_out]
  exact hp.seenClosed hfin

/-- `Fan` with at least one worker, without cancellation: once the merged stream is closed it
carries, as a multiset, the transformed input; and every schedule that is long enough closes
it. -/
theorem fan_system_result (input : List X) (n : Nat) (hn : 1 ≤ n) (fn : X → X)
    (choices : List Nat) :
    (((fanSystem input n fn).2.exec choices).isClosed (fanSystem input n fn).1 = true →
      ((((fanSystem input n fn).2.exec choices).hist (fanSystem input n fn).1 : List X)
        : Multiset X) = ((input.map fn : List X) : Multiset X)) ∧
    (3 * input.length + 2 * n + 3 ≤ choices.length →
      ((fanSystem input n fn).2.exec choices).isClosed (fanSystem input n fn).1 = true) := by
  refine ⟨fun hc => ?_, fun hlen => FanCompSt_exec_final input n fn choices hlen⟩
  obtain ⟨s1, hw, hg⟩ := FanCompSt_exec_good input n fn choices
  rw [hw] at hc ⊢
  rw [fanSystem_eq] at hc ⊢
  simp only at hc ⊢
  rw [FanCompSt_world_isClosed_out] at hc
  rw [FanCompSt_world_hist_out]
  exact FanCompSt_closed_merged fn n hn input s1 hg hc

/-! ## FanOut (C4) -/

/-- C4: `FanOut` over `n >= 1` workers reading the stream of a producer of `input`, the
cancellation signal never firing.  With every worker stream consumed on its own: under every
schedule the worker streams together carry, as a multiset, part of `[fn v | v in input]`
(nothing duplicated or fabricated); once all of them are closed they carry exactly that
multiset (nothing omitted, every value taken by exactly one worker); and every schedule of at
least `2 * N + 2 * n + 1` steps ends with all worker streams closed.  With the worker streams
merged by `FanIn` (`Pipeline.Fan`): once the merged stream is closed it carries exactly that
multiset, and every schedule of at least `3 * N + 2 * n + 3` steps closes it.  So
`[1, ..., 6]` doubled by two workers and merged gives the multiset `{2, 4, 6, 8, 10, 12}`,
6 items. -/
theorem fanOut_outputs_conserve (input : List X) (fn : X → X) (n : Nat) (hn : 1 ≤ n)
    (choices : List Nat) :
    ((((fanOutSystem input n fn false).1.map fun c =>
        (((fanOutSystem input n fn false).2.exec choices).hist c : Multiset X)).sum
        ≤ ((input.map fn : List X) : Multiset X)) ∧
    ((∀ c, c ∈ (fanOutSystem input n fn false).1 →
        ((fanOutSystem input n fn false).2.exec choices).isClosed c = true) →
      ((fanOutSystem input n fn false).1.map fun c =>
        (((fanOutSystem input n fn false).2.exec choices).hist c : Multiset X)).sum
        = ((input.map fn : List X) : Multiset X)) ∧
    (2 * input.length + 2 * n + 1 ≤ choices.length →
      (∀ c, c ∈ (fanOutSystem input n fn false).1 →
        ((fanOutSystem input n fn false).2.exec choices).isClosed c = true) ∧
      ((fanOutSystem input n fn false).1.map fun c =>
        (((fanOutSystem input n fn false).2.exec choices).hist c : Multiset X)).sum
        = ((input.map fn : List X) : Multiset X))) ∧
    ((((fanSystem input n fn).2.exec choices).isClosed (fanSystem input n fn).1 = true →
        ((((fanSystem input n fn).2.exec choices).hist (fanSystem input n fn).1 : List X)
          : Multiset X) = ((input.map fn : List X) : Multiset X)) ∧
      (3 * input.length + 2 * n + 3 ≤ choices.length →
        ((fanSystem input n fn).2.exec choices).isClosed (fanSystem input n fn).1 = true)) ∧
    (3 * 6 + 2 * 2 + 3 ≤ choices.length →
      ((((fanSystem [(1 : Int), 2, 3, 4, 5, 6] 2 (· * 2)).2.exec choices).hist
          (fanSystem [(1 : Int), 2, 3, 4, 5, 6] 2 (· * 2)).1 : List Int) : Multiset Int)
        = (([2, 4, 6, 8, 10, 12] : List Int) : Multiset Int) ∧
      (((fanSystem [(1 : Int), 2, 3, 4, 5, 6] 2 (· * 2)).2.exec choices).hist
          (fanSystem [(1 : Int), 2, 3, 4, 5, 6] 2 (· * 2)).1).length = 6) := by
  have main : ∀ (Y : Type) [Inhabited Y] (inp : List Y) (f : Y → Y) (m : Nat), 1 ≤ m →
      ((((fanOutSystem inp m f false).1.map fun c =>
        (((fanOutSystem inp m f false).2.exec choices).hist c : Multiset Y)).sum
        ≤ ((inp.map f : List Y) : Multiset Y)) ∧
      ((∀ c, c ∈ (fanOutSystem inp m f false).1 →
          ((fanOutSystem inp m f false).2.exec choices).isClosed c = true) →
        ((fanOutSystem inp m f false).1.map fun c =>
          (((fanOutSystem inp m f false).2.exec choices).hist c : Multiset Y)).sum
          = ((inp.map f : List Y) : Multiset Y)) ∧
      (2 * inp.length + 2 * m + 1 ≤ choices.length →
        (∀ c, c ∈ (fanOutSystem inp m f false).1 →
          ((fanOutSystem inp m f false).2.exec choices).isClosed c = true) ∧
        ((fanOutSystem inp m f false).1.map fun c =>
          (((fanOutSystem inp m f false).2.exec choices).hist c : Multiset Y)).sum
          = ((inp.map f : List Y) : Multiset Y))) := by
    intro Y _ inp f m hm
    rw [fanOutSystem_eq]
    simp only
    have hclosed : ∀ s1 : FanSt Y,
        (∀ c, c ∈ ((List.range m).map fun i => i + 1) →
          (FanSt.world (.worker f) m s1).isClosed c = true) ↔ ∀ i, i < m → s1.c i = true := by
      intro s1
      constructor
      · intro h i hi
        have := h (i + 1) (List.mem_map.mpr ⟨i, List.mem_range.mpr hi, rfl⟩)
        rwa [FanSt_world_isClosed _ m s1 i hi] at this
      · intro h c hc
        obtain ⟨i, hi, rfl⟩ := List.mem_map.mp hc
        have hi := List.mem_range.mp hi
        rw [FanSt_world_isClosed _ m s1 i hi]
        exact h i hi
    refine ⟨?_, ?_, ?_⟩
    · obtain ⟨s1, hw, ⟨hg, hc⟩, hcanc⟩ := FanSt_fan_exec m inp f choices
      rw [hw, FanSt_world_hist_sum, ← Kind_filterMap_worker f inp]
      exact FanSt_fan_sum_le _ m inp s1 hg hc hcanc
    · obtain ⟨s1, hw, ⟨hg, hc⟩, hcanc⟩ := FanSt_fan_exec m inp f choices
      rw [hw, FanSt_world_hist_sum, ← Kind_filterMap_worker f inp, hclosed]
      exact FanSt_fan_closed_sum _ m hm inp s1 hg hc hcanc
    · intro hlen
      obtain ⟨s1, hw, ⟨⟨hg, hc⟩, hcanc⟩, hfin⟩ := FanSt_fan_exec_final m inp f choices hlen
      rw [hw, FanSt_world_hist_sum, ← Kind_filterMap_worker f inp, hclosed]
      have hcl : ∀ i, i < m → s1.c i = true := fun i hi => hg.seenClosed i hi (hfin i hi)
      exact ⟨hcl, FanSt_fan_closed_sum _ m hm inp s1 hg hc hcanc hcl⟩
  refine ⟨main X input fn n hn, fan_system_result input n hn fn choices, fun hlen => ?_⟩
  have hres := fan_system_result [(1 : Int), 2, 3, 4, 5, 6] 2 (by omega) (· * 2) choices
  have h2 : ((2 : Nat) : Int) = 2 := rfl
  rw [h2] at hres
  have heq := hres.1 (hres.2 (by simpa using hlen))
  refine ⟨heq, ?_⟩
  have hcard := congrArg Multiset.card heq
  simpa using hcard

/-- Witness for C4: three values over two workers under the schedule that always takes the
first possible step. -/
theorem fanOut_outputs_conserve_witness :
    (∀ c, c ∈ (fanOutSystem [(1 : Int), 2, 3] 2 (· * 2) false).1 →
        ((fanOutSystem [(1 : Int), 2, 3] 2 (· * 2) false).2.exec
          (List.replicate 11 0)).isClosed c = true) ∧
      ((fanOutSystem [(1 : Int), 2, 3] 2 (· * 2) false).1.map fun c =>
        (((fanOutSystem [(1 : Int), 2, 3] 2 (· * 2) false).2.exec
          (List.replicate 11 0)).hist c : Multiset Int)).sum
        = (([(1 : Int), 2, 3].map (· * 2) : List Int) : Multiset Int) :=
  (fanOut_outputs_conserve [(1 : Int), 2, 3] (· * 2) 2 (by decide) (List.replicate 11 0)).1.2.2
    (by decide)

end Goast
